import Mathlib

/-!
# Verification of the WebAssembly (asm.js-era) module `Writer` and its entity model

Shallow embedding of:
- `src/node_modules/webassembly/src/Writer.js` — the resumable module-writer
  state machine (sections HEADER … EXPORT, buffer-queue commits, suspension);
- `src/node_modules/webassembly/src/stmt/behavior/StoreBehavior.js` — Store
  validation;
- `src/unnamed/part_000` — `FunctionDefinition` (local-variable table,
  `getVariable`, the worklist optimizer and its `replace` helper).

Parts of the repository that the writer depends on but that are not present
in the source tree (`util.BufferQueue`, `types.js` constants, the AST body
writer, the symmetric `Reader`) are modelled from the spec; each such
definition carries a doc comment starting with `Modelled from the spec:`.

Bytes are modelled as `Nat` (values < 256 where the source guarantees it).
-/

namespace WasmWriter

/-! ## Byte-level primitives (`util.BufferQueue` write formats)

`Modelled from the spec:` `util.BufferQueue` is not under `src/`; the wire
formats of its primitive writes are taken from spec §4.3/§6 and the glossary:
variable-length unsigned integers are LEB128-style, names are NUL-terminated,
fixed-width integers are little-endian. -/

/-- LEB128 encoding worker; the first argument is fuel, immaterial whenever
at least the value being encoded (the value shrinks by a factor of 128 per
emitted byte). -/
def varintBF : Nat → Nat → List Nat
  | 0, n => [n]
  | f + 1, n =>
    if n < 128 then [n] else (n % 128 + 128) :: varintBF f (n / 128)

theorem varintBF_fuel (f1 : Nat) :
    ∀ (f2 n : Nat), n ≤ f1 → n ≤ f2 → varintBF f1 n = varintBF f2 n := by
  induction f1 using Nat.strong_induction_on with
  | _ f1 ih =>
    intro f2 n h1 h2
    match f1, f2 with
    | 0, 0 => rfl
    | 0, f2 + 1 =>
      have : n = 0 := by omega
      subst this
      rfl
    | f1 + 1, 0 =>
      have : n = 0 := by omega
      subst this
      rfl
    | f1 + 1, f2 + 1 =>
      simp only [varintBF]
      by_cases h : n < 128
      · rw [if_pos h, if_pos h]
      · rw [if_neg h, if_neg h]
        have hdiv : n / 128 < n := Nat.div_lt_self (by omega) (by omega)
        rw [ih f1 (by omega) f2 (n / 128) (by omega) (by omega)]

/-- LEB128-style unsigned variable-length integer encoding (glossary "Varint"). -/
def varintB (n : Nat) : List Nat := varintBF n n

/-- The defining recurrence of the LEB128 encoding. -/
theorem varintB_eq (n : Nat) :
    varintB n = if n < 128 then [n] else (n % 128 + 128) :: varintB (n / 128) := by
  by_cases h : n < 128
  · rw [if_pos h]
    match n, h with
    | 0, _ => rfl
    | n + 1, h => simp [varintB, varintBF, h]
  · rw [if_neg h]
    have hn : n ≠ 0 := by omega
    match n, hn with
    | n + 1, _ =>
      simp only [varintB, varintBF, if_neg h]
      have hdiv : (n + 1) / 128 ≤ n := by
        have := Nat.div_lt_self (show 0 < n + 1 by omega) (show 1 < 128 by omega)
        omega
      rw [varintBF_fuel n _ ((n + 1) / 128) hdiv (le_refl _)]

/-- Reads one LEB128-style varint from the front of a byte list. -/
def readVarint : List Nat → Option (Nat × List Nat)
  | [] => none
  | b :: rest =>
    if b < 128 then some (b, rest)
    else
      match readVarint rest with
      | some (v, r) => some (b - 128 + 128 * v, r)
      | none => none

theorem readVarint_varintB (n : Nat) (tail : List Nat) :
    readVarint (varintB n ++ tail) = some (n, tail) := by
  induction n using Nat.strong_induction_on with
  | _ n ih =>
    rw [varintB_eq]
    by_cases h : n < 128
    · simp [h, readVarint]
    · have hdiv : n / 128 < n := Nat.div_lt_self (by omega) (by omega)
      simp only [h, if_false, List.cons_append, readVarint]
      have hge : ¬ (n % 128 + 128 < 128) := by omega
      rw [if_neg hge, ih (n / 128) hdiv]
      have hrec : n % 128 + 128 - 128 + 128 * (n / 128) = n := by omega
      simp only [hrec]

theorem varintB_lt (n : Nat) : ∀ b ∈ varintB n, b < 256 := by
  induction n using Nat.strong_induction_on with
  | _ n ih =>
    rw [varintB_eq]
    by_cases h : n < 128
    · simp [h]; omega
    · have hdiv : n / 128 < n := Nat.div_lt_self (by omega) (by omega)
      simp only [h, if_false, List.mem_cons]
      intro b hb
      rcases hb with hb | hb
      · omega
      · exact ih (n / 128) hdiv b hb

/-- NUL-terminated name string: the raw bytes followed by a 0 byte. -/
def cstringB (name : List Nat) : List Nat := name ++ [0]

/-- Reads a NUL-terminated string from the front of a byte list. -/
def readCString : List Nat → Option (List Nat × List Nat)
  | [] => none
  | b :: rest =>
    if b = 0 then some ([], rest)
    else
      match readCString rest with
      | some (s, r) => some (b :: s, r)
      | none => none

theorem readCString_cstringB (name : List Nat) (hname : ∀ b ∈ name, b ≠ 0)
    (tail : List Nat) :
    readCString (cstringB name ++ tail) = some (name, tail) := by
  induction name with
  | nil => simp [cstringB, readCString]
  | cons b rest ih =>
    have hb : b ≠ 0 := hname b (by simp)
    simp only [cstringB, List.cons_append, readCString, hb, if_false]
    have heq : (rest.append [0]).append tail = cstringB rest ++ tail := by
      simp [cstringB]
    rw [heq, ih (fun x hx => hname x (by simp [hx]))]

/-- 4-byte little-endian unsigned integer. -/
def uint32LE (n : Nat) : List Nat :=
  [n % 256, n / 256 % 256, n / 256 ^ 2 % 256, n / 256 ^ 3 % 256]

/-- Reads a 4-byte little-endian unsigned integer. -/
def readUInt32LE : List Nat → Option (Nat × List Nat)
  | b0 :: b1 :: b2 :: b3 :: rest =>
    some (b0 + 256 * b1 + 256 ^ 2 * b2 + 256 ^ 3 * b3, rest)
  | _ => none

theorem readUInt32LE_uint32LE (n : Nat) (h : n < 2 ^ 32) (tail : List Nat) :
    readUInt32LE (uint32LE n ++ tail) = some (n, tail) := by
  simp only [uint32LE, List.cons_append, List.nil_append, readUInt32LE]
  congr 2
  omega

/-- 8-byte little-endian unsigned integer (used for F64 constant bit patterns). -/
def uint64LE (n : Nat) : List Nat :=
  [n % 256, n / 256 % 256, n / 256 ^ 2 % 256, n / 256 ^ 3 % 256,
   n / 256 ^ 4 % 256, n / 256 ^ 5 % 256, n / 256 ^ 6 % 256, n / 256 ^ 7 % 256]

/-- Reads an 8-byte little-endian unsigned integer. -/
def readUInt64LE : List Nat → Option (Nat × List Nat)
  | b0 :: b1 :: b2 :: b3 :: b4 :: b5 :: b6 :: b7 :: rest =>
    some (b0 + 256 * b1 + 256 ^ 2 * b2 + 256 ^ 3 * b3 + 256 ^ 4 * b4 +
      256 ^ 5 * b5 + 256 ^ 6 * b6 + 256 ^ 7 * b7, rest)
  | _ => none

theorem readUInt64LE_uint64LE (n : Nat) (h : n < 2 ^ 64) (tail : List Nat) :
    readUInt64LE (uint64LE n ++ tail) = some (n, tail) := by
  simp only [uint64LE, List.cons_append, List.nil_append, readUInt64LE]
  congr 2
  omega

/-! ## Types and wire constants (`types.js`) -/

/-- The three numeric value types (`types.Type`). -/
inductive Ty where
  | i32
  | f32
  | f64
deriving DecidableEq, Repr

/-- Return types: the numeric types or void (`types.RType`). -/
inductive RTy where
  | i32
  | f32
  | f64
  | void
deriving DecidableEq, Repr

/-- `Modelled from the spec:` `types.js` is not under `src/`; type codes are
one byte each (spec §6 "1-byte return type", "1-byte arg types"). -/
def tyCode : Ty → Nat
  | .i32 => 0
  | .f32 => 1
  | .f64 => 2

/-- `Modelled from the spec:` return-type byte codes (`types.RType`). -/
def rtyCode : RTy → Nat
  | .i32 => 0
  | .f32 => 1
  | .f64 => 2
  | .void => 3

def tyOfCode : Nat → Option Ty
  | 0 => some .i32
  | 1 => some .f32
  | 2 => some .f64
  | _ => none

def rtyOfCode : Nat → Option RTy
  | 0 => some .i32
  | 1 => some .f32
  | 2 => some .f64
  | 3 => some .void
  | _ => none

theorem tyOfCode_tyCode (t : Ty) : tyOfCode (tyCode t) = some t := by
  cases t <;> rfl

theorem rtyOfCode_rtyCode (t : RTy) : rtyOfCode (rtyCode t) = some t := by
  cases t <;> rfl

/-- `Modelled from the spec:` `types.RTypeNames` (used in Store validation
error text) is not under `src/`; a readable name per numeric type. -/
def RTypeNames : Ty → String
  | .i32 => "int"
  | .f32 => "float"
  | .f64 => "double"

/-- `Modelled from the spec:` `types.VarType` bit flags for the type-presence
byte of a function's local-count header (§4.4: "bit-flagged type-presence
byte"). -/
def VarTypeFlag : Ty → Nat
  | .i32 => 1
  | .f32 => 2
  | .f64 => 4

/-- `Modelled from the spec:` `types.VarTypeWithImm.OnlyI32`, the opcode of
the packed one-byte local-count header (§4.4 "a single packed byte encodes
I32-only plus the count"). -/
def VarTypeWithImm_OnlyI32 : Nat := 0

/-- `Modelled from the spec:` `types.OpWithImm_ImmMax`, the largest count the
packed one-byte header can carry (§4.4 "a small packed-immediate range"). -/
def OpWithImm_ImmMax : Nat := 31

/-- `Modelled from the spec:` `util.packWithImm` packs an op code and a small
immediate into one byte; the high bit distinguishes packed bytes from plain
type-presence flag bytes (which are < 8). -/
def packWithImm (op imm : Nat) : Nat := 128 + op * 32 + imm

/-- `Modelled from the spec:` `types.ExportFormat` (§6: Default=0, Record=1). -/
def ExportFormat_Default : Nat := 0

/-- `Modelled from the spec:` `types.ExportFormat` (§6: Default=0, Record=1). -/
def ExportFormat_Record : Nat := 1

/-- `Modelled from the spec:` `types.MagicNumber`, the fixed 4-byte magic
constant of the header (§6); the exact value is immaterial to the claims. -/
def MagicNumber : Nat := 0x6d736177

/-! ## `FunctionDefinition` (src/unnamed/part_000) -/

/-- A local variable: its type, and whether it is an argument.
The source constructs `new LocalVariable(this, type)`; the argument flag is
positional (`Modelled from the spec:` §3 "a flag distinguishing 'is an
argument' from 'is a declared local' … index is positional (argument indices
first)"; the `LocalVariable` module itself is not under `src/`). -/
structure LocalVariable where
  type : Ty
  isArgument : Bool
deriving DecidableEq, Repr

/-- The local-variable table built by the `FunctionDefinition` constructor:
arguments (from the signature, in order), then `nI32vars` I32 locals, then
`nF32vars` F32 locals, then `nF64vars` F64 locals. -/
def mkVariables (argTypes : List Ty) (nI32vars nF32vars nF64vars : Nat) :
    List LocalVariable :=
  argTypes.map (fun t => ⟨t, true⟩) ++
    List.replicate nI32vars ⟨.i32, false⟩ ++
    List.replicate nF32vars ⟨.f32, false⟩ ++
    List.replicate nF64vars ⟨.f64, false⟩

/-- The `byteOffset || -1` / `byteLength || -1` coercion of the constructor:
a missing or zero (falsy) value is stored as the sentinel `-1`. -/
def coerceByteMeta : Option Int → Int
  | some v => if v = 0 then -1 else v
  | none => -1

/-- A function definition (constructor of `src/unnamed/part_000`): the
declaration's argument types, the three local counts (giving `variables`),
and the byte offset/length metadata after the falsy-to-`-1` coercion. -/
structure FunctionDefinition where
  argumentTypes : List Ty
  nI32vars : Nat
  nF32vars : Nat
  nF64vars : Nat
  byteOffset : Int
  byteLength : Int
deriving DecidableEq, Repr

/-- `FunctionDefinition` construction: builds the variable table layout and
applies the `|| -1` coercion to `byteOffset` and `byteLength`. -/
def mkFunctionDefinition (argTypes : List Ty) (nI32vars nF32vars nF64vars : Nat)
    (byteOffset : Option Int) (byteLength : Option Int) : FunctionDefinition :=
  { argumentTypes := argTypes
    nI32vars := nI32vars
    nF32vars := nF32vars
    nF64vars := nF64vars
    byteOffset := coerceByteMeta byteOffset
    byteLength := coerceByteMeta byteLength }

/-- The variable table of a function definition. -/
def FunctionDefinition.variables (fd : FunctionDefinition) : List LocalVariable :=
  mkVariables fd.argumentTypes fd.nI32vars fd.nF32vars fd.nF64vars

/-- `FunctionDefinition.prototype.getVariable`: asserts
`0 <= index <= variables.length - 1` (range error otherwise) and returns the
variable at that index. -/
def FunctionDefinition.getVariable (fd : FunctionDefinition) (index : Nat) :
    Except String LocalVariable :=
  if h : index < fd.variables.length then .ok (fd.variables.get ⟨index, h⟩)
  else .error "index out of range"

theorem mkVariables_length (argTypes : List Ty) (a b c : Nat) :
    (mkVariables argTypes a b c).length = argTypes.length + a + b + c := by
  simp [mkVariables]
  omega

/-! ## Statement trees and the optimizer (src/unnamed/part_000)

Statement/expression nodes carry an opcode code and an ordered operand list;
each operand is either a nested node or an immediate embedded at construction
time (spec §3). JavaScript object identity is modelled by a node id: distinct
objects carry distinct ids, and `===` becomes id equality. -/

mutual
inductive Stmt where
  | mk (id : Nat) (code : Nat) (operands : OperandList)
deriving Repr

inductive Operand where
  | imm (v : Int)
  | node (s : Stmt)
deriving Repr

inductive OperandList where
  | nil
  | cons (hd : Operand) (tl : OperandList)
deriving Repr
end

def Stmt.id : Stmt → Nat
  | .mk i _ _ => i

def Stmt.code : Stmt → Nat
  | .mk _ c _ => c

def Stmt.operands : Stmt → OperandList
  | .mk _ _ ops => ops

mutual
/-- Decidable equality on statement trees. -/
def Stmt.beq : Stmt → Stmt → Bool
  | .mk i c ops, .mk i' c' ops' => i == i' && c == c' && OperandList.beq ops ops'

def Operand.beq : Operand → Operand → Bool
  | .imm v, .imm v' => v == v'
  | .node s, .node s' => Stmt.beq s s'
  | _, _ => false

def OperandList.beq : OperandList → OperandList → Bool
  | .nil, .nil => true
  | .cons h t, .cons h' t' => Operand.beq h h' && OperandList.beq t t'
  | _, _ => false
end

instance : BEq Stmt := ⟨Stmt.beq⟩

/-- The statement-node operands of a node, in order (immediates are skipped by
`operand instanceof BaseStmt` in the source). -/
def OperandList.nodes : OperandList → List Stmt
  | .nil => []
  | .cons (.imm _) tl => tl.nodes
  | .cons (.node s) tl => s :: tl.nodes

mutual
/-- All node ids occurring in a statement subtree. -/
def Stmt.ids : Stmt → List Nat
  | .mk i _ ops => i :: ops.ids

def Operand.ids : Operand → List Nat
  | .imm _ => []
  | .node s => s.ids

def OperandList.ids : OperandList → List Nat
  | .nil => []
  | .cons hd tl => hd.ids ++ tl.ids
end

mutual
/-- `replace(ast, oldStmt, newStmt)` of src/unnamed/part_000, expressed on
id-coherent trees: every slot holding the old node (identity = id match) is
overwritten with the new node; the walk does not descend into replacements,
matching the source, which pushes the original operand after overwriting the
slot and never scans the new node's subtree. -/
def Stmt.subst (oldId : Nat) (new : Stmt) (s : Stmt) : Stmt :=
  match s with
  | .mk i c ops =>
    if i = oldId then new else .mk i c (OperandList.subst oldId new ops)
termination_by sizeOf s

def Operand.subst (oldId : Nat) (new : Stmt) (op : Operand) : Operand :=
  match op with
  | .imm v => .imm v
  | .node s => .node (Stmt.subst oldId new s)
termination_by sizeOf op

def OperandList.subst (oldId : Nat) (new : Stmt) (ops : OperandList) :
    OperandList :=
  match ops with
  | .nil => .nil
  | .cons hd tl =>
    .cons (Operand.subst oldId new hd) (OperandList.subst oldId new tl)
termination_by sizeOf ops
end

/-- `replace(ast, oldStmt, newStmt)`: replaces the old node in the root list
and in every operand slot of the tree (see `Stmt.subst`). -/
def replace (ast : List Stmt) (old new : Stmt) : List Stmt :=
  ast.map (Stmt.subst old.id new)

mutual
def Stmt.size : Stmt → Nat
  | .mk _ _ ops => 1 + ops.size

def Operand.size : Operand → Nat
  | .imm _ => 0
  | .node s => s.size

def OperandList.size : OperandList → Nat
  | .nil => 0
  | .cons hd tl => hd.size + tl.size
end

/-- One traversal of the optimizer worklist
(`FunctionDefinition.prototype.optimize`): pops a node, invokes its behavior's
`optimize` when defined, replaces an identity-different result everywhere and
counts a change (a result that is the same object but with a changed opcode
code also counts), then pushes the popped node's statement operands.  An
in-place mutation (same id, changed content) is propagated to the tree by
substituting the updated node at its id, which is what mutation through the
shared reference does in the source. -/
def optLoop (beh : Nat → Option (Stmt → Stmt)) :
    Nat → List Stmt → List Stmt → Nat → (List Stmt × Nat)
  | _, [], ast, n => (ast, n)
  | 0, _, ast, n => (ast, n)
  | fuel + 1, stmt :: rest, ast, n =>
    match beh stmt.code with
    | none => optLoop beh fuel (stmt.operands.nodes ++ rest) ast n
    | some f =>
      let o := f stmt
      if o.id ≠ stmt.id then
        optLoop beh fuel (stmt.operands.nodes ++ rest) (replace ast stmt o) (n + 1)
      else
        optLoop beh fuel (o.operands.nodes ++ rest)
          (replace ast stmt o) (if o.code ≠ stmt.code then n + 1 else n)

/-- `FunctionDefinition.prototype.optimize`: seeds the work stack with the
root statement list (pushed back to front, so popped in order) and runs the
worklist.  `fuel` bounds the number of iterations; any fuel at least the
number of nodes eventually visited gives the source's behavior (behaviors
that neither allocate unboundedly nor grow operand lists in place visit
finitely many nodes). -/
def optimizeAst (beh : Nat → Option (Stmt → Stmt)) (fuel : Nat)
    (ast : List Stmt) : List Stmt × Nat :=
  optLoop beh fuel ast ast 0

/-! ## Store validation (src/…/stmt/behavior/StoreBehavior.js)

An operand of a statement node is a nested node — an expression carrying a
result type (`instanceof BaseExpr`, and `instanceof ExprI32` exactly when the
type is I32), or a plain statement — or an immediate value. -/

inductive VOperand where
  | expr (ty : Ty)
  | stmt
  | imm (v : Int)
deriving DecidableEq, Repr

/-- `StoreBehavior.prototype.validate`: exactly 2 operands; operand 0 must be
an I32 expression; operand 1 must be an expression whose result type equals
the behavior's declared heap type. -/
def storeValidate (heapType : Ty) (operands : List VOperand) :
    Except String Unit :=
  match operands with
  | [index, value] =>
    match index with
    | .expr .i32 =>
      match value with
      | .expr vty =>
        if vty = heapType then .ok ()
        else .error ("Store value (operand 1) expression must be " ++
          RTypeNames heapType)
      | _ => .error "Store value (operand 1) must be an expression"
    | _ => .error "Store heap index (operand 0) must be an I32 expression"
  | _ => .error "Store requires exactly 2 operands"

/-! ## The Assembly data model (spec §3; pools read by Writer.js) -/

/-- A function signature: return type and ordered argument types. -/
structure FunctionSignature where
  returnType : RTy
  argumentTypes : List Ty
deriving DecidableEq, Repr

/-- A function import: import name (byte string) and the pool indices of the
signatures it may be called with. -/
structure FunctionImport where
  importName : List Nat
  signatures : List Nat
deriving DecidableEq, Repr

/-- A global variable: a numeric type and, when import-bound, the import
name; `none` means zero-initialized. -/
structure GlobalVariable where
  type : Ty
  importName : Option (List Nat)
deriving DecidableEq, Repr

/-- A function declaration: the pool index of its signature. -/
structure FunctionDeclaration where
  sigIndex : Nat
deriving DecidableEq, Repr

/-- A function pointer table: a signature pool index and the declaration-index
elements. -/
structure FunctionPointerTable where
  sigIndex : Nat
  elements : List Nat
deriving DecidableEq, Repr

mutual
/-- The statement tree of a function body as the body writer serializes it:
an opcode code and the operand subtrees in order.
`Modelled from the spec:` the AST body writer (`ast/Writer.js`) is not under
`src/`; per §4.1 each node's `encode` "emits the opcode code followed by each
operand in declared order", and `decode` "consumes a fixed, opcode-specific
number of operand sub-trees". -/
inductive ANode where
  | mk (code : Nat) (kids : ANodeList)
deriving Repr

inductive ANodeList where
  | nil
  | cons (hd : ANode) (tl : ANodeList)
deriving Repr
end

mutual
def ANode.beq : ANode → ANode → Bool
  | .mk c k, .mk c' k' => c == c' && ANodeList.beq k k'
termination_by a _ => sizeOf a

def ANodeList.beq : ANodeList → ANodeList → Bool
  | .nil, .nil => true
  | .cons h t, .cons h' t' => ANode.beq h h' && ANodeList.beq t t'
  | _, _ => false
termination_by a _ => sizeOf a
end

/-- A function definition as the module writer consumes it: the variable
table (argument types plus local counts, shared with the part_000 model) and
the statement list of the body. -/
structure WFuncDef where
  argumentTypes : List Ty
  nI32vars : Nat
  nF32vars : Nat
  nF64vars : Nat
  body : List ANode
deriving Repr

/-- The export descriptor: *Default* (one function index), *Record* (ordered
name/index pairs), or any other value (which the writer rejects as fatal). -/
inductive ExportDesc where
  | defaultE (funcIndex : Nat)
  | recordE (pairs : List (List Nat × Nat))
  | illegalE
deriving DecidableEq, Repr

/-- The module container: pools of constants, signatures, imports, globals,
declarations, pointer tables, definitions, and the export descriptor.  F32
and F64 constants are carried as their 4- and 8-byte little-endian bit
patterns (the writer copies them bit-exactly). -/
structure Assembly where
  precomputedSize : Nat
  i32Consts : List Nat
  f32Consts : List Nat
  f64Consts : List Nat
  signatures : List FunctionSignature
  imports : List FunctionImport
  globalVariables : List GlobalVariable
  declarations : List FunctionDeclaration
  tables : List FunctionPointerTable
  definitions : List WFuncDef
  exportDesc : ExportDesc
deriving Repr

/-! ## The buffer queue (`util.BufferQueue`)

`Modelled from the spec:` `util.BufferQueue` is not under `src/`.  Per §2/§4.3
it stages batched writes and exposes them only on an atomic commit; a commit
whose staged batch exceeds the destination's available capacity fails with the
recoverable insufficient-room condition, leaving the staged bytes in place
(they are re-staged when the identical step is re-run). -/

structure BufferQueue where
  committed : List Nat
  staged : List Nat
  capacity : Nat
deriving Repr

/-- The two condition classes a write step can raise: the recoverable
insufficient-room condition (`util.BufferQueue.E_MORE`) and fatal errors. -/
inductive WErr where
  | eMore
  | fatal (msg : String)
deriving DecidableEq, Repr

/-- `Writer.State` of Writer.js. -/
inductive WState where
  | HEADER
  | CONSTANTS_COUNT
  | CONSTANTS_I32
  | CONSTANTS_F32
  | CONSTANTS_F64
  | SIGNATURES_COUNT
  | SIGNATURES
  | FUNCTION_IMPORTS_COUNT
  | FUNCTION_IMPORTS
  | GLOBAL_VARIABLES_COUNT
  | GLOBAL_VARIABLES
  | FUNCTION_DECLARATIONS_COUNT
  | FUNCTION_DECLARATIONS
  | FUNCTION_POINTER_TABLES_COUNT
  | FUNCTION_POINTER_TABLES
  | FUNCTION_POINTER_ELEMENTS
  | FUNCTION_DEFINITIONS
  | EXPORT
  | END
  | ERROR
deriving DecidableEq, Repr

/-- The writer's mutable state: current state-machine state, the write
sequence and sub-sequence of the current operation, and the buffer queue. -/
structure WS where
  state : WState
  sequence : Nat
  subSequence : Nat
  bq : BufferQueue
deriving Repr

/-- The writer's effect monad: state passing plus exceptions that leave the
mutated state in place (a thrown JavaScript exception does not roll back
`this`). -/
def WM (α : Type) : Type := WS → WS × Except WErr α

instance : Monad WM where
  pure a := fun ws => (ws, .ok a)
  bind x f := fun ws =>
    match x ws with
    | (ws1, .ok a) => f a ws1
    | (ws1, .error e) => (ws1, .error e)

def WM.throwErr {α : Type} (e : WErr) : WM α := fun ws => (ws, .error e)

def getWS : WM WS := fun ws => (ws, .ok ws)

def modifyWS (f : WS → WS) : WM Unit := fun ws => (f ws, .ok ())

/-- Stages bytes into the buffer queue (the `write*` methods of
`util.BufferQueue`). -/
def stageBytes (bs : List Nat) : WM Unit :=
  modifyWS fun ws =>
    { ws with bq := { ws.bq with staged := ws.bq.staged ++ bs } }

def writeVarintM (n : Nat) : WM Unit := stageBytes (varintB n)

def writeUInt8M (b : Nat) : WM Unit := stageBytes [b]

def writeUInt32LEM (n : Nat) : WM Unit := stageBytes (uint32LE n)

def writeFloatLEM (bits : Nat) : WM Unit := stageBytes (uint32LE bits)

def writeDoubleLEM (bits : Nat) : WM Unit := stageBytes (uint64LE bits)

def writeCStringM (name : List Nat) : WM Unit := stageBytes (cstringB name)

/-- `writeCString(variable.importName)` on a global variable: a zero-
initialized global has no import name and cannot be serialized (it is never
reached when the pool is well-formed). -/
def writeCStringOptM : Option (List Nat) → WM Unit
  | some name => writeCStringM name
  | none => WM.throwErr (.fatal "illegal import name")

/-- Atomic commit: the staged batch is exposed to the destination, or the
recoverable insufficient-room condition is raised when it does not fit. -/
def commitM : WM Unit := fun ws =>
  if ws.bq.staged.length ≤ ws.bq.capacity then
    ({ ws with
        bq := { committed := ws.bq.committed ++ ws.bq.staged
                staged := []
                capacity := ws.bq.capacity - ws.bq.staged.length } }, .ok ())
  else (ws, .error .eMore)

def setStateM (s : WState) : WM Unit := modifyWS fun ws => { ws with state := s }

def setSeqM (n : Nat) : WM Unit := modifyWS fun ws => { ws with sequence := n }

def setSubSeqM (n : Nat) : WM Unit :=
  modifyWS fun ws => { ws with subSequence := n }

def incSeqM : WM Unit := modifyWS fun ws => { ws with sequence := ws.sequence + 1 }

def incSubSeqM : WM Unit :=
  modifyWS fun ws => { ws with subSequence := ws.subSequence + 1 }

/-! ## The write steps (`Writer.prototype._write*` of Writer.js) -/

/-- One section-entry `while (this.sequence < size)` loop, run `k` times
(`k` = size − sequence on entry): each iteration stages the bytes of the
entry at the current sequence, commits them atomically, and increments the
sequence.  `f i` is the staged batch for pool index `i`. -/
def itemLoopM (f : Nat → List Nat) : Nat → WM Unit
  | 0 => pure ()
  | k + 1 => do
    let ws ← getWS
    stageBytes (f ws.sequence)
    commitM
    incSeqM
    itemLoopM f k

/-- Like `itemLoopM` but over the sub-sequence
(`while (this.subSequence < …)` of `_writeFunctionPointerElements`). -/
def subItemLoopM (f : Nat → List Nat) : Nat → WM Unit
  | 0 => pure ()
  | k + 1 => do
    let ws ← getWS
    stageBytes (f ws.subSequence)
    commitM
    incSubSeqM
    subItemLoopM f k

/-- `_writeHeader`: magic constant and precomputed total size. -/
def writeHeaderM (asm : Assembly) : WM Unit := do
  writeUInt32LEM MagicNumber
  writeUInt32LEM asm.precomputedSize
  commitM
  setStateM .CONSTANTS_COUNT

/-- `_writeConstantsCount`. -/
def writeConstantsCountM (asm : Assembly) : WM Unit := do
  writeVarintM asm.i32Consts.length
  writeVarintM asm.f32Consts.length
  writeVarintM asm.f64Consts.length
  commitM
  setStateM .CONSTANTS_I32
  setSeqM 0

/-- `_writeConstantsI32`: per entry, a varint of the constant's value. -/
def writeConstantsI32M (asm : Assembly) : WM Unit := do
  let ws ← getWS
  itemLoopM (fun i => varintB (asm.i32Consts.getD i 0))
    (asm.i32Consts.length - ws.sequence)
  setStateM .CONSTANTS_F32
  setSeqM 0

/-- `_writeConstantsF32`: per entry, the 4-byte little-endian float image. -/
def writeConstantsF32M (asm : Assembly) : WM Unit := do
  let ws ← getWS
  itemLoopM (fun i => uint32LE (asm.f32Consts.getD i 0))
    (asm.f32Consts.length - ws.sequence)
  setStateM .CONSTANTS_F64
  setSeqM 0

/-- `_writeConstantsF64`: per entry, the 8-byte little-endian double image
(does not reset the sequence before the next count state, matching the
source). -/
def writeConstantsF64M (asm : Assembly) : WM Unit := do
  let ws ← getWS
  itemLoopM (fun i => uint64LE (asm.f64Consts.getD i 0))
    (asm.f64Consts.length - ws.sequence)
  setStateM .SIGNATURES_COUNT

/-- The bytes one `_writeSignatures` iteration stages: 1-byte return type,
varint argument count, one byte per argument type. -/
def signatureEntryBytes (s : FunctionSignature) : List Nat :=
  rtyCode s.returnType ::
    (varintB s.argumentTypes.length ++ s.argumentTypes.map tyCode)

/-- `_writeSignaturesCount`. -/
def writeSignaturesCountM (asm : Assembly) : WM Unit := do
  writeVarintM asm.signatures.length
  commitM
  setStateM .SIGNATURES
  setSeqM 0

/-- `_writeSignatures`. -/
def writeSignaturesM (asm : Assembly) : WM Unit := do
  let ws ← getWS
  itemLoopM (fun i => signatureEntryBytes (asm.signatures.getD i ⟨.void, []⟩))
    (asm.signatures.length - ws.sequence)
  setStateM .FUNCTION_IMPORTS_COUNT

/-- The bytes one `_writeFunctionImports` iteration stages: a NUL-terminated
name, a varint signature count, one varint signature index each. -/
def importEntryBytes (imp : FunctionImport) : List Nat :=
  cstringB imp.importName ++ varintB imp.signatures.length ++
    (imp.signatures.map varintB).flatten

/-- `_writeFunctionImportsCount`: import count and total signature-reference
count (the import signature pool size). -/
def writeFunctionImportsCountM (asm : Assembly) : WM Unit := do
  writeVarintM asm.imports.length
  writeVarintM ((asm.imports.map (fun imp => imp.signatures.length)).sum)
  commitM
  setStateM .FUNCTION_IMPORTS
  setSeqM 0

/-- `_writeFunctionImports`. -/
def writeFunctionImportsM (asm : Assembly) : WM Unit := do
  let ws ← getWS
  itemLoopM (fun i => importEntryBytes (asm.imports.getD i ⟨[], []⟩))
    (asm.imports.length - ws.sequence)
  setStateM .GLOBAL_VARIABLES_COUNT

/-- Length of the leading run of global variables of type `t` (one
`while (current < vars.length && vars[current].type === t)` loop of
`_writeGlobalVariablesCount`). -/
def takeRun (t : Ty) : List GlobalVariable → Nat
  | [] => 0
  | v :: rest => if v.type = t then takeRun t rest + 1 else 0

/-- `_writeGlobalVariablesCount`: scans the pool by type in the grouped order
(I32, F32, F64 zero-initialized, then I32, F32, F64 imported), stages the six
counts, records the import-group start in `sequence`, and asserts that the
scan consumed the pool exactly ("illegal order of global variables"); the
commit happens only after the assert. -/
def writeGlobalVariablesCountM (asm : Assembly) : WM Unit := do
  let vars := asm.globalVariables
  let n1 := takeRun .i32 vars
  writeVarintM n1
  let n2 := takeRun .f32 (vars.drop n1)
  writeVarintM n2
  let n3 := takeRun .f64 (vars.drop (n1 + n2))
  writeVarintM n3
  setSeqM (n1 + n2 + n3)
  let n4 := takeRun .i32 (vars.drop (n1 + n2 + n3))
  writeVarintM n4
  let n5 := takeRun .f32 (vars.drop (n1 + n2 + n3 + n4))
  writeVarintM n5
  let n6 := takeRun .f64 (vars.drop (n1 + n2 + n3 + n4 + n5))
  if n1 + n2 + n3 + n4 + n5 + n6 = vars.length then do
    writeVarintM n6
    commitM
    setStateM .GLOBAL_VARIABLES
  else WM.throwErr (.fatal "illegal order of global variables")

/-- The `while (this.sequence < size)` loop of `_writeGlobalVariables`: per
variable, its NUL-terminated import name (fatal when the variable has none,
see `writeCStringOptM`). -/
def globalItemsM (asm : Assembly) : Nat → WM Unit
  | 0 => pure ()
  | k + 1 => do
    let ws ← getWS
    writeCStringOptM ((asm.globalVariables.getD ws.sequence ⟨.i32, none⟩).importName)
    commitM
    incSeqM
    globalItemsM asm k

/-- `_writeGlobalVariables`: emits the import name of every variable from
the import-group start (left in `sequence` by the count step) to the end. -/
def writeGlobalVariablesM (asm : Assembly) : WM Unit := do
  let ws ← getWS
  globalItemsM asm (asm.globalVariables.length - ws.sequence)
  setStateM .FUNCTION_DECLARATIONS_COUNT

/-- `_writeFunctionDeclarationsCount`. -/
def writeFunctionDeclarationsCountM (asm : Assembly) : WM Unit := do
  writeVarintM asm.declarations.length
  commitM
  setStateM .FUNCTION_DECLARATIONS
  setSeqM 0

/-- `_writeFunctionDeclarations`: per declaration, a varint of its signature
pool index. -/
def writeFunctionDeclarationsM (asm : Assembly) : WM Unit := do
  let ws ← getWS
  itemLoopM (fun i => varintB (asm.declarations.getD i ⟨0⟩).sigIndex)
    (asm.declarations.length - ws.sequence)
  setStateM .FUNCTION_POINTER_TABLES_COUNT

/-- `_writeFunctionPointerTablesCount`. -/
def writeFunctionPointerTablesCountM (asm : Assembly) : WM Unit := do
  writeVarintM asm.tables.length
  commitM
  setStateM .FUNCTION_POINTER_TABLES
  setSeqM 0

/-- `_writeFunctionPointerTables`: while tables remain, emits the current
table's header (signature index, element count) and switches to the nested
element-emission state; otherwise proceeds to function definitions. -/
def writeFunctionPointerTablesM (asm : Assembly) : WM Unit := do
  let ws ← getWS
  if ws.sequence < asm.tables.length then do
    let table := asm.tables.getD ws.sequence ⟨0, []⟩
    writeVarintM table.sigIndex
    writeVarintM table.elements.length
    commitM
    setStateM .FUNCTION_POINTER_ELEMENTS
    setSubSeqM 0
  else do
    setStateM .FUNCTION_DEFINITIONS
    setSeqM 0

/-- `_writeFunctionPointerElements`: streams the current table's elements
(one varint declaration index per element, committed one at a time), then
returns to the tables state for the next table. -/
def writeFunctionPointerElementsM (asm : Assembly) : WM Unit := do
  let ws ← getWS
  let table := asm.tables.getD ws.sequence ⟨0, []⟩
  subItemLoopM (fun j => varintB (table.elements.getD j 0))
    (table.elements.length - ws.subSequence)
  setStateM .FUNCTION_POINTER_TABLES
  incSeqM

/-- The variable table of a writer-side function definition (same layout as
the part_000 constructor). -/
def WFuncDef.variables (fd : WFuncDef) : List LocalVariable :=
  mkVariables fd.argumentTypes fd.nI32vars fd.nF32vars fd.nF64vars

/-- The `definition.variables.forEach` counting loop of
`_writeFunctionDefinitions`: non-argument variables of the given type. -/
def countLocals (vars : List LocalVariable) (t : Ty) : Nat :=
  (vars.filter (fun v => !v.isArgument && v.type = t)).length

/-- The compact local-count header of `_writeFunctionDefinitions`: a single
packed byte when there are only I32 locals within the packed-immediate range,
otherwise a type-presence flags byte followed by a varint count per present
type. -/
def localCountHeader (nI32 nF32 nF64 : Nat) : List Nat :=
  if nF32 = 0 && nF64 = 0 && nI32 ≤ OpWithImm_ImmMax then
    [packWithImm VarTypeWithImm_OnlyI32 nI32]
  else
    ((if nI32 > 0 then VarTypeFlag .i32 else 0) +
     (if nF32 > 0 then VarTypeFlag .f32 else 0) +
     (if nF64 > 0 then VarTypeFlag .f64 else 0)) ::
    ((if nI32 > 0 then varintB nI32 else []) ++
     (if nF32 > 0 then varintB nF32 else []) ++
     (if nF64 > 0 then varintB nF64 else []))

mutual
/-- Wire encoding of a statement node: opcode code, then each operand subtree
(see `ANode`). -/
def ANode.bytes : ANode → List Nat
  | .mk code kids => code :: kids.bytes
termination_by a => sizeOf a

def ANodeList.bytes : ANodeList → List Nat
  | .nil => []
  | .cons hd tl => hd.bytes ++ tl.bytes
termination_by a => sizeOf a
end

/-- `Modelled from the spec:` the body writer (`ast/Writer.js`) is not under
`src/`; per §4.5/§6 it walks the function's statement list depth-first and
emits each node through its behavior's `encode`; the list is prefixed by its
statement count so that the symmetric reader can consume it. -/
def bodyBytes (body : List ANode) : List Nat :=
  varintB body.length ++ (body.map ANode.bytes).flatten

/-- `_writeFunctionDefinitions`: while definitions remain (one per
declaration), counts the non-argument locals by type, emits the compact
local-count header and then the function body, and advances to the next
function; the source delegates the body to the AST writer, which shares the
buffer queue — modelled here as a single atomic batch per function. -/
def writeFunctionDefinitionsM (asm : Assembly) : WM Unit := do
  let ws ← getWS
  if ws.sequence < asm.declarations.length then do
    let defn := asm.definitions.getD ws.sequence ⟨[], 0, 0, 0, []⟩
    let nI32Vars := countLocals defn.variables .i32
    let nF32Vars := countLocals defn.variables .f32
    let nF64Vars := countLocals defn.variables .f64
    stageBytes (localCountHeader nI32Vars nF32Vars nF64Vars)
    stageBytes (bodyBytes defn.body)
    commitM
    incSeqM
  else
    setStateM .EXPORT

/-- `_writeExport`: one-byte format discriminator, then the Default function
index or the Record pair count and (name, index) pairs in stored order; any
other export shape is fatal. -/
def writeExportM (asm : Assembly) : WM Unit := do
  match asm.exportDesc with
  | .defaultE idx => do
    writeUInt8M ExportFormat_Default
    writeVarintM idx
    commitM
    setStateM .END
  | .recordE pairs => do
    writeUInt8M ExportFormat_Record
    writeVarintM pairs.length
    stageBytes ((pairs.map (fun p => cstringB p.1 ++ varintB p.2)).flatten)
    commitM
    setStateM .END
  | .illegalE => WM.throwErr (.fatal "illegal export")

/-- The `switch (this.state)` dispatch of `_process` (END and ERROR are
handled by the loop itself). -/
def stepFor (asm : Assembly) : WState → WM Unit
  | .HEADER => writeHeaderM asm
  | .CONSTANTS_COUNT => writeConstantsCountM asm
  | .CONSTANTS_I32 => writeConstantsI32M asm
  | .CONSTANTS_F32 => writeConstantsF32M asm
  | .CONSTANTS_F64 => writeConstantsF64M asm
  | .SIGNATURES_COUNT => writeSignaturesCountM asm
  | .SIGNATURES => writeSignaturesM asm
  | .FUNCTION_IMPORTS_COUNT => writeFunctionImportsCountM asm
  | .FUNCTION_IMPORTS => writeFunctionImportsM asm
  | .GLOBAL_VARIABLES_COUNT => writeGlobalVariablesCountM asm
  | .GLOBAL_VARIABLES => writeGlobalVariablesM asm
  | .FUNCTION_DECLARATIONS_COUNT => writeFunctionDeclarationsCountM asm
  | .FUNCTION_DECLARATIONS => writeFunctionDeclarationsM asm
  | .FUNCTION_POINTER_TABLES_COUNT => writeFunctionPointerTablesCountM asm
  | .FUNCTION_POINTER_TABLES => writeFunctionPointerTablesM asm
  | .FUNCTION_POINTER_ELEMENTS => writeFunctionPointerElementsM asm
  | .FUNCTION_DEFINITIONS => writeFunctionDefinitionsM asm
  | .EXPORT => writeExportM asm
  | _ => pure ()

/-- The `while (true)` loop of `_process`: runs steps until the END or ERROR
flush, an insufficient-room suspension (which pushes the committed bytes and
drops the staged remainder), or a fatal error (which transitions to ERROR and
flushes on the next iteration).  Returns the bytes pushed downstream by this
invocation and the final writer state.  `fuel` bounds the number of loop
iterations and is immaterial when chosen at least `processFuel`. -/
def processLoop (asm : Assembly) : Nat → WS → List Nat × WS
  | 0, ws => ([], ws)
  | fuel + 1, ws =>
    if ws.state = .END ∨ ws.state = .ERROR then
      (ws.bq.committed,
       { ws with bq := { ws.bq with committed := [], staged := [] } })
    else
      match stepFor asm ws.state ws with
      | (ws1, .ok _) => processLoop asm fuel ws1
      | (ws1, .error .eMore) =>
        (ws1.bq.committed,
         { ws1 with bq := { ws1.bq with committed := [], staged := [] } })
      | (ws1, .error (.fatal _)) =>
        processLoop asm fuel { ws1 with state := .ERROR }

/-- `_process`: returns immediately when already ended or errored, else runs
the loop. -/
def processOnce (asm : Assembly) (fuel : Nat) (ws : WS) : List Nat × WS :=
  if ws.state = .END ∨ ws.state = .ERROR then ([], ws)
  else processLoop asm fuel ws

/-- `_read(size)`: ignores non-positive sizes, else grants `size` more bytes
of destination capacity and processes. -/
def readSignal (asm : Assembly) (fuel : Nat) (size : Nat) (ws : WS) :
    List Nat × WS :=
  if size = 0 then ([], ws)
  else
    processOnce asm fuel
      { ws with bq := { ws.bq with capacity := ws.bq.capacity + size } }

/-- A whole run: one `_read` availability signal per list entry. -/
def drive (asm : Assembly) (fuel : Nat) : List Nat → WS → List Nat × WS
  | [], ws => ([], ws)
  | size :: rest, ws =>
    let r1 := readSignal asm fuel size ws
    let r2 := drive asm fuel rest r1.2
    (r1.1 ++ r2.1, r2.2)

/-- The writer's initial state (paused, HEADER, empty queue). -/
def initialWS : WS := ⟨.HEADER, 0, 0, ⟨[], [], 0⟩⟩

/-! ## The wire image, section by section (spec §6)

Pure byte functions describing what each section step commits; the machine
lemmas below prove that the state machine emits exactly their
concatenation. -/

def headerBytes (asm : Assembly) : List Nat :=
  uint32LE MagicNumber ++ uint32LE asm.precomputedSize

def constantsCountBytes (asm : Assembly) : List Nat :=
  varintB asm.i32Consts.length ++ varintB asm.f32Consts.length ++
    varintB asm.f64Consts.length

def i32ConstsBytes (asm : Assembly) : List Nat :=
  (asm.i32Consts.map varintB).flatten

def f32ConstsBytes (asm : Assembly) : List Nat :=
  (asm.f32Consts.map uint32LE).flatten

def f64ConstsBytes (asm : Assembly) : List Nat :=
  (asm.f64Consts.map uint64LE).flatten

def signaturesBytes (asm : Assembly) : List Nat :=
  (asm.signatures.map signatureEntryBytes).flatten

def importsCountBytes (asm : Assembly) : List Nat :=
  varintB asm.imports.length ++
    varintB ((asm.imports.map (fun imp => imp.signatures.length)).sum)

def importsBytes (asm : Assembly) : List Nat :=
  (asm.imports.map importEntryBytes).flatten

/-- The six counts derived by the grouped-order type scan of
`_writeGlobalVariablesCount`, and the import-group start (`sequence`). -/
def gvN1 (vars : List GlobalVariable) : Nat := takeRun .i32 vars

def gvN2 (vars : List GlobalVariable) : Nat :=
  takeRun .f32 (vars.drop (gvN1 vars))

def gvN3 (vars : List GlobalVariable) : Nat :=
  takeRun .f64 (vars.drop (gvN1 vars + gvN2 vars))

/-- Where the import groups start: after the three zero-initialized runs. -/
def gvMid (vars : List GlobalVariable) : Nat := gvN1 vars + gvN2 vars + gvN3 vars

def gvN4 (vars : List GlobalVariable) : Nat :=
  takeRun .i32 (vars.drop (gvMid vars))

def gvN5 (vars : List GlobalVariable) : Nat :=
  takeRun .f32 (vars.drop (gvMid vars + gvN4 vars))

def gvN6 (vars : List GlobalVariable) : Nat :=
  takeRun .f64 (vars.drop (gvMid vars + gvN4 vars + gvN5 vars))

/-- Total number of pool entries the six-run scan consumes. -/
def gvTotal (vars : List GlobalVariable) : Nat :=
  gvMid vars + gvN4 vars + gvN5 vars + gvN6 vars

def globalsCountBytes (asm : Assembly) : List Nat :=
  varintB (gvN1 asm.globalVariables) ++ varintB (gvN2 asm.globalVariables) ++
  varintB (gvN3 asm.globalVariables) ++ varintB (gvN4 asm.globalVariables) ++
  varintB (gvN5 asm.globalVariables) ++ varintB (gvN6 asm.globalVariables)

def globalNameBytes (v : GlobalVariable) : List Nat :=
  cstringB (v.importName.getD [])

def globalsNamesBytes (asm : Assembly) : List Nat :=
  ((asm.globalVariables.drop (gvMid asm.globalVariables)).map
    globalNameBytes).flatten

def declarationsBytes (asm : Assembly) : List Nat :=
  (asm.declarations.map (fun d => varintB d.sigIndex)).flatten

def tableHeaderBytes (t : FunctionPointerTable) : List Nat :=
  varintB t.sigIndex ++ varintB t.elements.length

def tableElementsBytes (t : FunctionPointerTable) : List Nat :=
  (t.elements.map varintB).flatten

def tableBytes (t : FunctionPointerTable) : List Nat :=
  tableHeaderBytes t ++ tableElementsBytes t

def tablesBytes (asm : Assembly) : List Nat :=
  (asm.tables.map tableBytes).flatten

def funcDefBytes (fd : WFuncDef) : List Nat :=
  localCountHeader (countLocals fd.variables .i32) (countLocals fd.variables .f32)
    (countLocals fd.variables .f64) ++ bodyBytes fd.body

/-- One function body per declaration (the count is implicit, spec §6). -/
def functionDefsBytes (asm : Assembly) : List Nat :=
  ((List.range asm.declarations.length).map
    (fun i => funcDefBytes (asm.definitions.getD i ⟨[], 0, 0, 0, []⟩))).flatten

def exportBytes : ExportDesc → List Nat
  | .defaultE idx => ExportFormat_Default :: varintB idx
  | .recordE pairs =>
    ExportFormat_Record ::
      (varintB pairs.length ++
        (pairs.map (fun p => cstringB p.1 ++ varintB p.2)).flatten)
  | .illegalE => []

/-- Bytes fully committed when a given state is entered, cumulatively. -/
def preConstantsCount (asm : Assembly) : List Nat := headerBytes asm

def preConstantsI32 (asm : Assembly) : List Nat :=
  preConstantsCount asm ++ constantsCountBytes asm

def preConstantsF32 (asm : Assembly) : List Nat :=
  preConstantsI32 asm ++ i32ConstsBytes asm

def preConstantsF64 (asm : Assembly) : List Nat :=
  preConstantsF32 asm ++ f32ConstsBytes asm

def preSignaturesCount (asm : Assembly) : List Nat :=
  preConstantsF64 asm ++ f64ConstsBytes asm

def preSignatures (asm : Assembly) : List Nat :=
  preSignaturesCount asm ++ varintB asm.signatures.length

def preImportsCount (asm : Assembly) : List Nat :=
  preSignatures asm ++ signaturesBytes asm

def preImports (asm : Assembly) : List Nat :=
  preImportsCount asm ++ importsCountBytes asm

def preGlobalsCount (asm : Assembly) : List Nat :=
  preImports asm ++ importsBytes asm

def preGlobals (asm : Assembly) : List Nat :=
  preGlobalsCount asm ++ globalsCountBytes asm

def preDeclarationsCount (asm : Assembly) : List Nat :=
  preGlobals asm ++ globalsNamesBytes asm

def preDeclarations (asm : Assembly) : List Nat :=
  preDeclarationsCount asm ++ varintB asm.declarations.length

def preTablesCount (asm : Assembly) : List Nat :=
  preDeclarations asm ++ declarationsBytes asm

def preTables (asm : Assembly) : List Nat :=
  preTablesCount asm ++ varintB asm.tables.length

def preDefinitions (asm : Assembly) : List Nat :=
  preTables asm ++ tablesBytes asm

def preExport (asm : Assembly) : List Nat :=
  preDefinitions asm ++ functionDefsBytes asm

/-- The complete wire image of an assembly: the §4.4-ordered concatenation of
all sections, with each section's entries in pool index order and each
pointer table's elements between its header and the next table's header. -/
def encodeAssembly (asm : Assembly) : List Nat :=
  preExport asm ++ exportBytes asm.exportDesc

/-- Bytes committed when the writer is at position
(`state`, `sequence`, `subSequence`): the cumulative prefix of
`encodeAssembly`. -/
def emittedUpTo (asm : Assembly) (st : WState) (seq subSeq : Nat) : List Nat :=
  match st with
  | .HEADER => []
  | .CONSTANTS_COUNT => preConstantsCount asm
  | .CONSTANTS_I32 =>
    preConstantsI32 asm ++ ((asm.i32Consts.take seq).map varintB).flatten
  | .CONSTANTS_F32 =>
    preConstantsF32 asm ++ ((asm.f32Consts.take seq).map uint32LE).flatten
  | .CONSTANTS_F64 =>
    preConstantsF64 asm ++ ((asm.f64Consts.take seq).map uint64LE).flatten
  | .SIGNATURES_COUNT => preSignaturesCount asm
  | .SIGNATURES =>
    preSignatures asm ++
      ((asm.signatures.take seq).map signatureEntryBytes).flatten
  | .FUNCTION_IMPORTS_COUNT => preImportsCount asm
  | .FUNCTION_IMPORTS =>
    preImports asm ++ ((asm.imports.take seq).map importEntryBytes).flatten
  | .GLOBAL_VARIABLES_COUNT => preGlobalsCount asm
  | .GLOBAL_VARIABLES =>
    preGlobals asm ++
      (((asm.globalVariables.drop (gvMid asm.globalVariables)).take
        (seq - gvMid asm.globalVariables)).map globalNameBytes).flatten
  | .FUNCTION_DECLARATIONS_COUNT => preDeclarationsCount asm
  | .FUNCTION_DECLARATIONS =>
    preDeclarations asm ++
      ((asm.declarations.take seq).map (fun d => varintB d.sigIndex)).flatten
  | .FUNCTION_POINTER_TABLES_COUNT => preTablesCount asm
  | .FUNCTION_POINTER_TABLES =>
    preTables asm ++ ((asm.tables.take seq).map tableBytes).flatten
  | .FUNCTION_POINTER_ELEMENTS =>
    preTables asm ++ ((asm.tables.take seq).map tableBytes).flatten ++
      tableHeaderBytes (asm.tables.getD seq ⟨0, []⟩) ++
      (((asm.tables.getD seq ⟨0, []⟩).elements.take subSeq).map varintB).flatten
  | .FUNCTION_DEFINITIONS =>
    preDefinitions asm ++
      ((List.range seq).map
        (fun i => funcDefBytes (asm.definitions.getD i ⟨[], 0, 0, 0, []⟩))).flatten
  | .EXPORT => preExport asm
  | .END => encodeAssembly asm
  | .ERROR => []

/-- Ample fuel for a full run over `asm`: the loop advances through at most
this many step invocations. -/
def processFuel (asm : Assembly) : Nat :=
  24 + 2 * asm.tables.length + asm.declarations.length

theorem emittedUpTo_HEADER (asm : Assembly) (s t : Nat) :
    emittedUpTo asm .HEADER s t = [] := rfl

theorem emittedUpTo_CONSTANTS_COUNT (asm : Assembly) (s t : Nat) :
    emittedUpTo asm .CONSTANTS_COUNT s t = preConstantsCount asm := rfl

theorem emittedUpTo_CONSTANTS_I32 (asm : Assembly) (s t : Nat) :
    emittedUpTo asm .CONSTANTS_I32 s t =
      preConstantsI32 asm ++ ((asm.i32Consts.take s).map varintB).flatten := rfl

theorem emittedUpTo_CONSTANTS_F32 (asm : Assembly) (s t : Nat) :
    emittedUpTo asm .CONSTANTS_F32 s t =
      preConstantsF32 asm ++ ((asm.f32Consts.take s).map uint32LE).flatten := rfl

theorem emittedUpTo_CONSTANTS_F64 (asm : Assembly) (s t : Nat) :
    emittedUpTo asm .CONSTANTS_F64 s t =
      preConstantsF64 asm ++ ((asm.f64Consts.take s).map uint64LE).flatten := rfl

theorem emittedUpTo_SIGNATURES_COUNT (asm : Assembly) (s t : Nat) :
    emittedUpTo asm .SIGNATURES_COUNT s t = preSignaturesCount asm := rfl

theorem emittedUpTo_SIGNATURES (asm : Assembly) (s t : Nat) :
    emittedUpTo asm .SIGNATURES s t =
      preSignatures asm ++
        ((asm.signatures.take s).map signatureEntryBytes).flatten := rfl

theorem emittedUpTo_FUNCTION_IMPORTS_COUNT (asm : Assembly) (s t : Nat) :
    emittedUpTo asm .FUNCTION_IMPORTS_COUNT s t = preImportsCount asm := rfl

theorem emittedUpTo_FUNCTION_IMPORTS (asm : Assembly) (s t : Nat) :
    emittedUpTo asm .FUNCTION_IMPORTS s t =
      preImports asm ++
        ((asm.imports.take s).map importEntryBytes).flatten := rfl

theorem emittedUpTo_GLOBAL_VARIABLES_COUNT (asm : Assembly) (s t : Nat) :
    emittedUpTo asm .GLOBAL_VARIABLES_COUNT s t = preGlobalsCount asm := rfl

theorem emittedUpTo_GLOBAL_VARIABLES (asm : Assembly) (s t : Nat) :
    emittedUpTo asm .GLOBAL_VARIABLES s t =
      preGlobals asm ++
        (((asm.globalVariables.drop (gvMid asm.globalVariables)).take
          (s - gvMid asm.globalVariables)).map globalNameBytes).flatten := rfl

theorem emittedUpTo_FUNCTION_DECLARATIONS_COUNT (asm : Assembly) (s t : Nat) :
    emittedUpTo asm .FUNCTION_DECLARATIONS_COUNT s t =
      preDeclarationsCount asm := rfl

theorem emittedUpTo_FUNCTION_DECLARATIONS (asm : Assembly) (s t : Nat) :
    emittedUpTo asm .FUNCTION_DECLARATIONS s t =
      preDeclarations asm ++
        ((asm.declarations.take s).map (fun d => varintB d.sigIndex)).flatten := rfl

theorem emittedUpTo_FUNCTION_POINTER_TABLES_COUNT (asm : Assembly) (s t : Nat) :
    emittedUpTo asm .FUNCTION_POINTER_TABLES_COUNT s t = preTablesCount asm := rfl

theorem emittedUpTo_FUNCTION_POINTER_TABLES (asm : Assembly) (s t : Nat) :
    emittedUpTo asm .FUNCTION_POINTER_TABLES s t =
      preTables asm ++ ((asm.tables.take s).map tableBytes).flatten := rfl

theorem emittedUpTo_FUNCTION_POINTER_ELEMENTS (asm : Assembly) (s t : Nat) :
    emittedUpTo asm .FUNCTION_POINTER_ELEMENTS s t =
      preTables asm ++ ((asm.tables.take s).map tableBytes).flatten ++
        tableHeaderBytes (asm.tables.getD s ⟨0, []⟩) ++
        (((asm.tables.getD s ⟨0, []⟩).elements.take t).map varintB).flatten := rfl

theorem emittedUpTo_FUNCTION_DEFINITIONS (asm : Assembly) (s t : Nat) :
    emittedUpTo asm .FUNCTION_DEFINITIONS s t =
      preDefinitions asm ++
        ((List.range s).map
          (fun i => funcDefBytes (asm.definitions.getD i ⟨[], 0, 0, 0, []⟩))).flatten := rfl

theorem emittedUpTo_EXPORT (asm : Assembly) (s t : Nat) :
    emittedUpTo asm .EXPORT s t = preExport asm := rfl

theorem emittedUpTo_END (asm : Assembly) (s t : Nat) :
    emittedUpTo asm .END s t = encodeAssembly asm := rfl

/-! ## Machine correctness: generic lemmas -/

theorem wmBind_apply {α β : Type} (x : WM α) (f : α → WM β) (ws : WS) :
    (x >>= f) ws =
      match x ws with
      | (ws1, .ok a) => f a ws1
      | (ws1, .error e) => (ws1, .error e) := rfl

theorem wmPure_apply {α : Type} (a : α) (ws : WS) :
    (pure a : WM α) ws = (ws, .ok a) := rfl

/-- Concatenation of the staged batches for pool indices `s, s+1, …, s+k-1`. -/
def batchConcat (f : Nat → List Nat) (s k : Nat) : List Nat :=
  ((List.range k).map (fun i => f (s + i))).flatten

theorem batchConcat_zero (f : Nat → List Nat) (s : Nat) :
    batchConcat f s 0 = [] := rfl

theorem batchConcat_succ (f : Nat → List Nat) (s k : Nat) :
    batchConcat f s (k + 1) = f s ++ batchConcat f (s + 1) k := by
  have hfun : ((fun i => f (s + i)) ∘ Nat.succ) = (fun i => f (s + 1 + i)) := by
    funext i
    simp only [Function.comp_apply]
    congr 1
    omega
  simp only [batchConcat, List.range_succ_eq_map, List.map_cons, List.map_map,
    List.flatten_cons, Nat.add_zero, hfun]

theorem batchConcat_one (f : Nat → List Nat) (s : Nat) :
    batchConcat f s 1 = f s := by
  rw [batchConcat_succ, batchConcat_zero, List.append_nil]

theorem batchConcat_length_mono (f : Nat → List Nat) (s : Nat) {j k : Nat}
    (h : j ≤ k) :
    (batchConcat f s j).length ≤ (batchConcat f s k).length := by
  induction k generalizing s j with
  | zero =>
    have : j = 0 := by omega
    simp [this]
  | succ k ih =>
    cases j with
    | zero => simp [batchConcat_zero]
    | succ j =>
      rw [batchConcat_succ, batchConcat_succ]
      simp only [List.length_append]
      have := ih (s := s + 1) (j := j) (by omega)
      omega

/-- Behavior of the shared section-entry loop: either every remaining entry
commits (state and sub-sequence untouched, sequence advanced by `k`, the
entries' bytes appended to the committed stream, capacity reduced
accordingly), or some entry's commit hits insufficient room, leaving exactly
the already-committed entries exposed, the failing batch staged, and the
sequence at the failing entry. -/
theorem itemLoopM_spec (f : Nat → List Nat) (k : Nat) (ws : WS)
    (hst : ws.bq.staged = []) :
    (∃ ws1, itemLoopM f k ws = (ws1, .ok ()) ∧
        ws1.state = ws.state ∧ ws1.subSequence = ws.subSequence ∧
        ws1.sequence = ws.sequence + k ∧ ws1.bq.staged = [] ∧
        ws1.bq.committed = ws.bq.committed ++ batchConcat f ws.sequence k ∧
        ws1.bq.capacity = ws.bq.capacity - (batchConcat f ws.sequence k).length ∧
        (batchConcat f ws.sequence k).length ≤ ws.bq.capacity) ∨
    (∃ ws1 j, itemLoopM f k ws = (ws1, .error .eMore) ∧ j < k ∧
        ws1.state = ws.state ∧ ws1.subSequence = ws.subSequence ∧
        ws1.sequence = ws.sequence + j ∧
        ws1.bq.staged = f (ws.sequence + j) ∧
        ws1.bq.committed = ws.bq.committed ++ batchConcat f ws.sequence j ∧
        ws1.bq.capacity = ws.bq.capacity - (batchConcat f ws.sequence j).length ∧
        ws.bq.capacity < (batchConcat f ws.sequence (j + 1)).length) := by
  induction k generalizing ws with
  | zero =>
    left
    refine ⟨ws, rfl, rfl, rfl, rfl, hst, by simp [batchConcat_zero], by
      simp [batchConcat_zero], by simp [batchConcat_zero]⟩
  | succ k ih =>
    rw [itemLoopM]
    simp only [wmBind_apply, getWS, stageBytes, modifyWS, hst, List.nil_append]
    by_cases hcap : (f ws.sequence).length ≤ ws.bq.capacity
    · have hcommit :
          commitM { ws with bq := { ws.bq with staged := f ws.sequence } } =
          ({ ws with bq := { committed := ws.bq.committed ++ f ws.sequence
                             staged := []
                             capacity := ws.bq.capacity - (f ws.sequence).length } },
           .ok ()) := by
        simp [commitM, hcap]
      rw [hcommit]
      simp only [incSeqM, modifyWS]
      set ws2 : WS :=
        { ws with
          sequence := ws.sequence + 1
          bq := { committed := ws.bq.committed ++ f ws.sequence
                  staged := []
                  capacity := ws.bq.capacity - (f ws.sequence).length } } with hws2
      rcases ih ws2 (by simp [hws2]) with
        ⟨ws1, hrun, hstate, hsub, hseq, hstg, hcom, hcapa, hle⟩ |
        ⟨ws1, j, hrun, hj, hstate, hsub, hseq, hstg, hcom, hcapa, hlt⟩
      · left
        refine ⟨ws1, hrun, hstate, hsub, by simp [hws2] at hseq; omega, hstg, ?_, ?_, ?_⟩
        · rw [hcom]
          simp only [hws2, batchConcat_succ]
          simp
        · rw [hcapa]
          simp only [hws2, batchConcat_succ]
          simp only [List.length_append]
          omega
        · simp only [hws2] at hle
          rw [batchConcat_succ]
          simp only [List.length_append]
          omega
      · right
        refine ⟨ws1, j + 1, hrun, by omega, hstate, hsub, ?_, ?_, ?_, ?_, ?_⟩
        · simp only [hws2] at hseq
          omega
        · simpa [hws2, Nat.add_assoc, Nat.add_comm, Nat.add_left_comm] using hstg
        · rw [hcom]
          simp only [hws2, batchConcat_succ]
          simp
        · rw [hcapa]
          simp only [hws2, batchConcat_succ]
          simp only [List.length_append]
          omega
        · simp only [hws2] at hlt
          rw [batchConcat_succ]
          simp only [List.length_append]
          omega
    · right
      have hcommit :
          commitM { ws with bq := { ws.bq with staged := f ws.sequence } } =
          ({ ws with bq := { ws.bq with staged := f ws.sequence } },
           .error .eMore) := by
        simp [commitM, hcap]
      rw [hcommit]
      refine ⟨_, 0, rfl, by omega, rfl, rfl, by simp, by simp, ?_, ?_, ?_⟩
      · simp [batchConcat_zero]
      · simp [batchConcat_zero]
      · rw [batchConcat_one]
        omega

/-- `itemLoopM_spec` for the sub-sequence variant of the loop. -/
theorem subItemLoopM_spec (f : Nat → List Nat) (k : Nat) (ws : WS)
    (hst : ws.bq.staged = []) :
    (∃ ws1, subItemLoopM f k ws = (ws1, .ok ()) ∧
        ws1.state = ws.state ∧ ws1.sequence = ws.sequence ∧
        ws1.subSequence = ws.subSequence + k ∧ ws1.bq.staged = [] ∧
        ws1.bq.committed = ws.bq.committed ++ batchConcat f ws.subSequence k ∧
        ws1.bq.capacity = ws.bq.capacity - (batchConcat f ws.subSequence k).length ∧
        (batchConcat f ws.subSequence k).length ≤ ws.bq.capacity) ∨
    (∃ ws1 j, subItemLoopM f k ws = (ws1, .error .eMore) ∧ j < k ∧
        ws1.state = ws.state ∧ ws1.sequence = ws.sequence ∧
        ws1.subSequence = ws.subSequence + j ∧
        ws1.bq.staged = f (ws.subSequence + j) ∧
        ws1.bq.committed = ws.bq.committed ++ batchConcat f ws.subSequence j ∧
        ws1.bq.capacity = ws.bq.capacity - (batchConcat f ws.subSequence j).length ∧
        ws.bq.capacity < (batchConcat f ws.subSequence (j + 1)).length) := by
  induction k generalizing ws with
  | zero =>
    left
    refine ⟨ws, rfl, rfl, rfl, rfl, hst, by simp [batchConcat_zero], by
      simp [batchConcat_zero], by simp [batchConcat_zero]⟩
  | succ k ih =>
    rw [subItemLoopM]
    simp only [wmBind_apply, getWS, stageBytes, modifyWS, hst, List.nil_append]
    by_cases hcap : (f ws.subSequence).length ≤ ws.bq.capacity
    · have hcommit :
          commitM { ws with bq := { ws.bq with staged := f ws.subSequence } } =
          ({ ws with bq := { committed := ws.bq.committed ++ f ws.subSequence
                             staged := []
                             capacity := ws.bq.capacity - (f ws.subSequence).length } },
           .ok ()) := by
        simp [commitM, hcap]
      rw [hcommit]
      simp only [incSubSeqM, modifyWS]
      set ws2 : WS :=
        { ws with
          subSequence := ws.subSequence + 1
          bq := { committed := ws.bq.committed ++ f ws.subSequence
                  staged := []
                  capacity := ws.bq.capacity - (f ws.subSequence).length } } with hws2
      rcases ih ws2 (by simp [hws2]) with
        ⟨ws1, hrun, hstate, hsub, hseq, hstg, hcom, hcapa, hle⟩ |
        ⟨ws1, j, hrun, hj, hstate, hsub, hseq, hstg, hcom, hcapa, hlt⟩
      · left
        refine ⟨ws1, hrun, hstate, hsub, by simp [hws2] at hseq; omega, hstg, ?_, ?_, ?_⟩
        · rw [hcom]
          simp only [hws2, batchConcat_succ]
          simp
        · rw [hcapa]
          simp only [hws2, batchConcat_succ]
          simp only [List.length_append]
          omega
        · simp only [hws2] at hle
          rw [batchConcat_succ]
          simp only [List.length_append]
          omega
      · right
        refine ⟨ws1, j + 1, hrun, by omega, hstate, hsub, ?_, ?_, ?_, ?_, ?_⟩
        · simp only [hws2] at hseq
          omega
        · simpa [hws2, Nat.add_assoc, Nat.add_comm, Nat.add_left_comm] using hstg
        · rw [hcom]
          simp only [hws2, batchConcat_succ]
          simp
        · rw [hcapa]
          simp only [hws2, batchConcat_succ]
          simp only [List.length_append]
          omega
        · simp only [hws2] at hlt
          rw [batchConcat_succ]
          simp only [List.length_append]
          omega
    · right
      have hcommit :
          commitM { ws with bq := { ws.bq with staged := f ws.subSequence } } =
          ({ ws with bq := { ws.bq with staged := f ws.subSequence } },
           .error .eMore) := by
        simp [commitM, hcap]
      rw [hcommit]
      refine ⟨_, 0, rfl, by omega, rfl, rfl, by simp, by simp, ?_, ?_, ?_⟩
      · simp [batchConcat_zero]
      · simp [batchConcat_zero]
      · rw [batchConcat_one]
        omega

/-- A single staged batch followed by one commit (the shape of every
non-looping write step): either the batch fits and is appended to the
committed stream, or the insufficient-room condition is raised with the batch
left staged and nothing else changed. -/
theorem stageCommit_spec (bs : List Nat) (ws : WS) (hst : ws.bq.staged = []) :
    (do stageBytes bs; commitM : WM Unit) ws =
      (if bs.length ≤ ws.bq.capacity then
        ({ ws with bq := { committed := ws.bq.committed ++ bs
                           staged := []
                           capacity := ws.bq.capacity - bs.length } }, .ok ())
      else ({ ws with bq := { ws.bq with staged := bs } }, .error .eMore)) := by
  simp only [wmBind_apply, stageBytes, modifyWS, hst, List.nil_append, commitM]

/-! ## Machine correctness: the emission invariant -/

/-- Position validity: the (sub-)sequence stays within the pool the current
state is iterating. -/
def ValidPos (asm : Assembly) (ws : WS) : Prop :=
  match ws.state with
  | .CONSTANTS_I32 => ws.sequence ≤ asm.i32Consts.length
  | .CONSTANTS_F32 => ws.sequence ≤ asm.f32Consts.length
  | .CONSTANTS_F64 => ws.sequence ≤ asm.f64Consts.length
  | .SIGNATURES => ws.sequence ≤ asm.signatures.length
  | .FUNCTION_IMPORTS => ws.sequence ≤ asm.imports.length
  | .GLOBAL_VARIABLES =>
    gvMid asm.globalVariables ≤ ws.sequence ∧
      ws.sequence ≤ asm.globalVariables.length
  | .FUNCTION_DECLARATIONS => ws.sequence ≤ asm.declarations.length
  | .FUNCTION_POINTER_TABLES => ws.sequence ≤ asm.tables.length
  | .FUNCTION_POINTER_ELEMENTS =>
    ws.sequence < asm.tables.length ∧
      ws.subSequence ≤ (asm.tables.getD ws.sequence ⟨0, []⟩).elements.length
  | .FUNCTION_DEFINITIONS => ws.sequence ≤ asm.declarations.length
  | _ => True

/-- The emission invariant: everything pushed downstream so far (`done`) plus
the committed-but-unpushed bytes equal the cumulative ordered prefix for the
writer's position, nothing is staged between steps, and the position is
valid. -/
def Good (asm : Assembly) (done : List Nat) (ws : WS) : Prop :=
  done ++ ws.bq.committed =
    emittedUpTo asm ws.state ws.sequence ws.subSequence ∧
  ws.bq.staged = [] ∧ ValidPos asm ws

/-- What the machine itself needs of an assembly to never hit a fatal error:
the global pool's grouped type scan consumes it exactly, every variable in
the import region has an import name, and the export has a legal shape. -/
def MachineWf (asm : Assembly) : Prop :=
  gvTotal asm.globalVariables = asm.globalVariables.length ∧
  (∀ v ∈ asm.globalVariables.drop (gvMid asm.globalVariables),
    v.importName.isSome) ∧
  asm.exportDesc ≠ .illegalE

theorem writeHeaderM_eq (asm : Assembly) :
    writeHeaderM asm = (do
      stageBytes (headerBytes asm)
      commitM
      setStateM .CONSTANTS_COUNT) := by
  funext ws
  simp [writeHeaderM, headerBytes, wmBind_apply, writeUInt32LEM, stageBytes,
    modifyWS]

/-- The uniform conclusion of one write step at a non-terminal state. -/
def StepOk (asm : Assembly) (done : List Nat) (ws : WS)
    (r : WS × Except WErr Unit) : Prop :=
  (∃ ws1, r = (ws1, .ok ()) ∧ Good asm done ws1 ∧ ws1.state ≠ .ERROR) ∨
  (∃ ws1, r = (ws1, .error .eMore) ∧ ws1.state = ws.state ∧
    done ++ ws1.bq.committed =
      emittedUpTo asm ws1.state ws1.sequence ws1.subSequence ∧
    ValidPos asm ws1)

/-- A staged batch, its commit, and the rest of the step: on sufficient room
the batch is committed and the rest runs; otherwise the step stops with the
insufficient-room condition and the batch left staged. -/
theorem stageCommitRest_spec (bs : List Nat) (rest : WM Unit) (ws : WS)
    (hst : ws.bq.staged = []) :
    (do stageBytes bs; commitM; rest : WM Unit) ws =
      (if bs.length ≤ ws.bq.capacity then
        rest { ws with bq := { committed := ws.bq.committed ++ bs
                               staged := []
                               capacity := ws.bq.capacity - bs.length } }
      else ({ ws with bq := { ws.bq with staged := bs } }, .error .eMore)) := by
  simp only [wmBind_apply, stageBytes, modifyWS, hst, List.nil_append, commitM]
  by_cases h : bs.length ≤ ws.bq.capacity <;> simp [h]

theorem writeHeaderM_good (asm : Assembly) (done : List Nat) (ws : WS)
    (hg : Good asm done ws) (hs : ws.state = .HEADER) :
    StepOk asm done ws (writeHeaderM asm ws) := by
  obtain ⟨hcom, hstg, hvp⟩ := hg
  rw [hs, emittedUpTo_HEADER] at hcom
  have hd1 : done = [] := (List.append_eq_nil.mp hcom).1
  have hd2 : ws.bq.committed = [] := (List.append_eq_nil.mp hcom).2
  rw [writeHeaderM_eq, stageCommitRest_spec _ _ _ hstg]
  by_cases hcap : (headerBytes asm).length ≤ ws.bq.capacity
  · left
    simp only [if_pos hcap, setStateM, modifyWS]
    refine ⟨_, rfl, ⟨?_, rfl, by simp [ValidPos]⟩, by simp⟩
    rw [emittedUpTo_CONSTANTS_COUNT, hd1, hd2]
    show ([] : List Nat) ++ ([] ++ headerBytes asm) = preConstantsCount asm
    rw [List.nil_append, List.nil_append]
    rfl
  · right
    simp only [if_neg hcap]
    refine ⟨_, rfl, rfl, ?_, by simp [ValidPos, hs]⟩
    rw [hs, emittedUpTo_HEADER, hd1, hd2]
    rfl

theorem writeConstantsCountM_eq (asm : Assembly) :
    writeConstantsCountM asm = (do
      stageBytes (constantsCountBytes asm)
      commitM
      setStateM .CONSTANTS_I32
      setSeqM 0) := by
  funext ws
  simp [writeConstantsCountM, constantsCountBytes, wmBind_apply, writeVarintM,
    stageBytes, modifyWS]

theorem writeSignaturesCountM_eq (asm : Assembly) :
    writeSignaturesCountM asm = (do
      stageBytes (varintB asm.signatures.length)
      commitM
      setStateM .SIGNATURES
      setSeqM 0) := by
  funext ws
  simp [writeSignaturesCountM, wmBind_apply, writeVarintM, stageBytes, modifyWS]

theorem writeFunctionImportsCountM_eq (asm : Assembly) :
    writeFunctionImportsCountM asm = (do
      stageBytes (importsCountBytes asm)
      commitM
      setStateM .FUNCTION_IMPORTS
      setSeqM 0) := by
  funext ws
  simp [writeFunctionImportsCountM, importsCountBytes, wmBind_apply,
    writeVarintM, stageBytes, modifyWS]

theorem writeFunctionDeclarationsCountM_eq (asm : Assembly) :
    writeFunctionDeclarationsCountM asm = (do
      stageBytes (varintB asm.declarations.length)
      commitM
      setStateM .FUNCTION_DECLARATIONS
      setSeqM 0) := by
  funext ws
  simp [writeFunctionDeclarationsCountM, wmBind_apply, writeVarintM,
    stageBytes, modifyWS]

theorem writeFunctionPointerTablesCountM_eq (asm : Assembly) :
    writeFunctionPointerTablesCountM asm = (do
      stageBytes (varintB asm.tables.length)
      commitM
      setStateM .FUNCTION_POINTER_TABLES
      setSeqM 0) := by
  funext ws
  simp [writeFunctionPointerTablesCountM, wmBind_apply, writeVarintM,
    stageBytes, modifyWS]

theorem writeConstantsCountM_good (asm : Assembly) (done : List Nat) (ws : WS)
    (hg : Good asm done ws) (hs : ws.state = .CONSTANTS_COUNT) :
    StepOk asm done ws (writeConstantsCountM asm ws) := by
  obtain ⟨hcom, hstg, hvp⟩ := hg
  rw [hs, emittedUpTo_CONSTANTS_COUNT] at hcom
  rw [writeConstantsCountM_eq, stageCommitRest_spec _ _ _ hstg]
  by_cases hcap : (constantsCountBytes asm).length ≤ ws.bq.capacity
  · left
    simp only [if_pos hcap, setStateM, setSeqM, modifyWS]
    refine ⟨_, rfl, ⟨?_, rfl, by simp [ValidPos]⟩, by simp⟩
    rw [emittedUpTo_CONSTANTS_I32]
    show done ++ (ws.bq.committed ++ constantsCountBytes asm) = _
    rw [← List.append_assoc, hcom]
    simp [preConstantsI32]
  · right
    simp only [if_neg hcap]
    refine ⟨_, rfl, rfl, ?_, by simp [ValidPos, hs]⟩
    rw [hs, emittedUpTo_CONSTANTS_COUNT]
    exact hcom

theorem writeSignaturesCountM_good (asm : Assembly) (done : List Nat) (ws : WS)
    (hg : Good asm done ws) (hs : ws.state = .SIGNATURES_COUNT) :
    StepOk asm done ws (writeSignaturesCountM asm ws) := by
  obtain ⟨hcom, hstg, hvp⟩ := hg
  rw [hs, emittedUpTo_SIGNATURES_COUNT] at hcom
  rw [writeSignaturesCountM_eq, stageCommitRest_spec _ _ _ hstg]
  by_cases hcap : (varintB asm.signatures.length).length ≤ ws.bq.capacity
  · left
    simp only [if_pos hcap, setStateM, setSeqM, modifyWS]
    refine ⟨_, rfl, ⟨?_, rfl, by simp [ValidPos]⟩, by simp⟩
    rw [emittedUpTo_SIGNATURES]
    show done ++ (ws.bq.committed ++ varintB asm.signatures.length) = _
    rw [← List.append_assoc, hcom]
    simp [preSignatures]
  · right
    simp only [if_neg hcap]
    refine ⟨_, rfl, rfl, ?_, by simp [ValidPos, hs]⟩
    rw [hs, emittedUpTo_SIGNATURES_COUNT]
    exact hcom

theorem writeFunctionImportsCountM_good (asm : Assembly) (done : List Nat)
    (ws : WS) (hg : Good asm done ws) (hs : ws.state = .FUNCTION_IMPORTS_COUNT) :
    StepOk asm done ws (writeFunctionImportsCountM asm ws) := by
  obtain ⟨hcom, hstg, hvp⟩ := hg
  rw [hs, emittedUpTo_FUNCTION_IMPORTS_COUNT] at hcom
  rw [writeFunctionImportsCountM_eq, stageCommitRest_spec _ _ _ hstg]
  by_cases hcap : (importsCountBytes asm).length ≤ ws.bq.capacity
  · left
    simp only [if_pos hcap, setStateM, setSeqM, modifyWS]
    refine ⟨_, rfl, ⟨?_, rfl, by simp [ValidPos]⟩, by simp⟩
    rw [emittedUpTo_FUNCTION_IMPORTS]
    show done ++ (ws.bq.committed ++ importsCountBytes asm) = _
    rw [← List.append_assoc, hcom]
    simp [preImports]
  · right
    simp only [if_neg hcap]
    refine ⟨_, rfl, rfl, ?_, by simp [ValidPos, hs]⟩
    rw [hs, emittedUpTo_FUNCTION_IMPORTS_COUNT]
    exact hcom

theorem writeFunctionDeclarationsCountM_good (asm : Assembly) (done : List Nat)
    (ws : WS) (hg : Good asm done ws)
    (hs : ws.state = .FUNCTION_DECLARATIONS_COUNT) :
    StepOk asm done ws (writeFunctionDeclarationsCountM asm ws) := by
  obtain ⟨hcom, hstg, hvp⟩ := hg
  rw [hs, emittedUpTo_FUNCTION_DECLARATIONS_COUNT] at hcom
  rw [writeFunctionDeclarationsCountM_eq, stageCommitRest_spec _ _ _ hstg]
  by_cases hcap : (varintB asm.declarations.length).length ≤ ws.bq.capacity
  · left
    simp only [if_pos hcap, setStateM, setSeqM, modifyWS]
    refine ⟨_, rfl, ⟨?_, rfl, by simp [ValidPos]⟩, by simp⟩
    rw [emittedUpTo_FUNCTION_DECLARATIONS]
    show done ++ (ws.bq.committed ++ varintB asm.declarations.length) = _
    rw [← List.append_assoc, hcom]
    simp [preDeclarations]
  · right
    simp only [if_neg hcap]
    refine ⟨_, rfl, rfl, ?_, by simp [ValidPos, hs]⟩
    rw [hs, emittedUpTo_FUNCTION_DECLARATIONS_COUNT]
    exact hcom

theorem writeFunctionPointerTablesCountM_good (asm : Assembly) (done : List Nat)
    (ws : WS) (hg : Good asm done ws)
    (hs : ws.state = .FUNCTION_POINTER_TABLES_COUNT) :
    StepOk asm done ws (writeFunctionPointerTablesCountM asm ws) := by
  obtain ⟨hcom, hstg, hvp⟩ := hg
  rw [hs, emittedUpTo_FUNCTION_POINTER_TABLES_COUNT] at hcom
  rw [writeFunctionPointerTablesCountM_eq, stageCommitRest_spec _ _ _ hstg]
  by_cases hcap : (varintB asm.tables.length).length ≤ ws.bq.capacity
  · left
    simp only [if_pos hcap, setStateM, setSeqM, modifyWS]
    refine ⟨_, rfl, ⟨?_, rfl, by simp [ValidPos]⟩, by simp⟩
    rw [emittedUpTo_FUNCTION_POINTER_TABLES]
    show done ++ (ws.bq.committed ++ varintB asm.tables.length) = _
    rw [← List.append_assoc, hcom]
    simp [preTables]
  · right
    simp only [if_neg hcap]
    refine ⟨_, rfl, rfl, ?_, by simp [ValidPos, hs]⟩
    rw [hs, emittedUpTo_FUNCTION_POINTER_TABLES_COUNT]
    exact hcom

/-! ### Glue between `batchConcat` over `getD` and mapped pool segments -/

theorem batchConcat_getD {α : Type} (g : α → List Nat) (l : List α) (d : α)
    (s j : Nat) (h : s + j ≤ l.length) :
    batchConcat (fun i => g (l.getD i d)) s j =
      (((l.drop s).take j).map g).flatten := by
  induction j generalizing s with
  | zero => simp [batchConcat_zero]
  | succ j ih =>
    rw [batchConcat_succ]
    have hs : s < l.length := by omega
    have hdrop : l.drop s = l[s] :: l.drop (s + 1) :=
      List.drop_eq_getElem_cons hs
    rw [hdrop]
    simp only [List.take_succ_cons, List.map_cons, List.flatten_cons]
    rw [ih (s + 1) (by omega)]
    congr 1
    simp [List.getD, List.getElem?_eq_getElem hs]

theorem flatten_take_drop {α : Type} (g : α → List Nat) (l : List α) (s : Nat) :
    ((l.take s).map g).flatten ++ ((l.drop s).map g).flatten =
      (l.map g).flatten := by
  rw [← List.flatten_append, ← List.map_append, List.take_append_drop]

theorem takeFlatten_add {α : Type} (g : α → List Nat) (l : List α) (d : α)
    (s j : Nat) (h : s + j ≤ l.length) :
    ((l.take (s + j)).map g).flatten =
      ((l.take s).map g).flatten ++
        batchConcat (fun i => g (l.getD i d)) s j := by
  rw [batchConcat_getD g l d s j h, List.take_add, List.map_append,
    List.flatten_append]

theorem writeConstantsI32M_good (asm : Assembly) (done : List Nat) (ws : WS)
    (hg : Good asm done ws) (hs : ws.state = .CONSTANTS_I32) :
    StepOk asm done ws (writeConstantsI32M asm ws) := by
  obtain ⟨hcom, hstg, hvp⟩ := hg
  rw [hs, emittedUpTo_CONSTANTS_I32] at hcom
  simp only [ValidPos, hs] at hvp
  simp only [writeConstantsI32M, wmBind_apply, getWS]
  rcases itemLoopM_spec (fun i => varintB (asm.i32Consts.getD i 0))
      (asm.i32Consts.length - ws.sequence) ws hstg with
    ⟨ws1, hrun, hstate, hsub, hseq, hstg1, hcom1, hcapa, hle⟩ |
    ⟨ws1, j, hrun, hj, hstate, hsub, hseq, hstg1, hcom1, hcapa, hlt⟩
  · rw [hrun]
    left
    simp only [wmBind_apply, setStateM, setSeqM, modifyWS]
    refine ⟨_, rfl, ⟨?_, by simp [hstg1], by simp [ValidPos]⟩, by simp⟩
    show done ++ ws1.bq.committed =
      preConstantsF32 asm ++ ((asm.f32Consts.take 0).map uint32LE).flatten
    rw [List.take_zero, List.map_nil, List.flatten_nil, List.append_nil]
    rw [hcom1, ← List.append_assoc, hcom, List.append_assoc,
      batchConcat_getD _ _ _ _ _ (by omega),
      List.take_of_length_le
        (show (asm.i32Consts.drop ws.sequence).length ≤
          asm.i32Consts.length - ws.sequence by simp),
      flatten_take_drop]
    rfl
  · rw [hrun]
    right
    refine ⟨ws1, rfl, by rw [hstate, hs], ?_, ?_⟩
    · rw [hstate, hs, emittedUpTo_CONSTANTS_I32, hseq]
      rw [hcom1, ← List.append_assoc, hcom, List.append_assoc]
      congr 1
      rw [← takeFlatten_add _ _ 0 _ _ (by omega)]
    · have : ws1.state = WState.CONSTANTS_I32 := by rw [hstate, hs]
      simp only [ValidPos, this, hseq]
      omega

theorem writeConstantsF32M_good (asm : Assembly) (done : List Nat) (ws : WS)
    (hg : Good asm done ws) (hs : ws.state = .CONSTANTS_F32) :
    StepOk asm done ws (writeConstantsF32M asm ws) := by
  obtain ⟨hcom, hstg, hvp⟩ := hg
  rw [hs, emittedUpTo_CONSTANTS_F32] at hcom
  simp only [ValidPos, hs] at hvp
  simp only [writeConstantsF32M, wmBind_apply, getWS]
  rcases itemLoopM_spec (fun i => uint32LE (asm.f32Consts.getD i 0))
      (asm.f32Consts.length - ws.sequence) ws hstg with
    ⟨ws1, hrun, hstate, hsub, hseq, hstg1, hcom1, hcapa, hle⟩ |
    ⟨ws1, j, hrun, hj, hstate, hsub, hseq, hstg1, hcom1, hcapa, hlt⟩
  · rw [hrun]
    left
    simp only [wmBind_apply, setStateM, setSeqM, modifyWS]
    refine ⟨_, rfl, ⟨?_, by simp [hstg1], by simp [ValidPos]⟩, by simp⟩
    show done ++ ws1.bq.committed =
      preConstantsF64 asm ++ ((asm.f64Consts.take 0).map uint64LE).flatten
    rw [List.take_zero, List.map_nil, List.flatten_nil, List.append_nil]
    rw [hcom1, ← List.append_assoc, hcom, List.append_assoc,
      batchConcat_getD _ _ _ _ _ (by omega),
      List.take_of_length_le
        (show (asm.f32Consts.drop ws.sequence).length ≤
          asm.f32Consts.length - ws.sequence by simp),
      flatten_take_drop]
    rfl
  · rw [hrun]
    right
    refine ⟨ws1, rfl, by rw [hstate, hs], ?_, ?_⟩
    · rw [hstate, hs, emittedUpTo_CONSTANTS_F32, hseq]
      rw [hcom1, ← List.append_assoc, hcom, List.append_assoc]
      congr 1
      rw [← takeFlatten_add _ _ 0 _ _ (by omega)]
    · have : ws1.state = WState.CONSTANTS_F32 := by rw [hstate, hs]
      simp only [ValidPos, this, hseq]
      omega

theorem writeConstantsF64M_good (asm : Assembly) (done : List Nat) (ws : WS)
    (hg : Good asm done ws) (hs : ws.state = .CONSTANTS_F64) :
    StepOk asm done ws (writeConstantsF64M asm ws) := by
  obtain ⟨hcom, hstg, hvp⟩ := hg
  rw [hs, emittedUpTo_CONSTANTS_F64] at hcom
  simp only [ValidPos, hs] at hvp
  simp only [writeConstantsF64M, wmBind_apply, getWS]
  rcases itemLoopM_spec (fun i => uint64LE (asm.f64Consts.getD i 0))
      (asm.f64Consts.length - ws.sequence) ws hstg with
    ⟨ws1, hrun, hstate, hsub, hseq, hstg1, hcom1, hcapa, hle⟩ |
    ⟨ws1, j, hrun, hj, hstate, hsub, hseq, hstg1, hcom1, hcapa, hlt⟩
  · rw [hrun]
    left
    simp only [setStateM, modifyWS]
    refine ⟨_, rfl, ⟨?_, by simp [hstg1], by simp [ValidPos]⟩, by simp⟩
    show done ++ ws1.bq.committed = preSignaturesCount asm
    rw [hcom1, ← List.append_assoc, hcom, List.append_assoc,
      batchConcat_getD _ _ _ _ _ (by omega),
      List.take_of_length_le
        (show (asm.f64Consts.drop ws.sequence).length ≤
          asm.f64Consts.length - ws.sequence by simp),
      flatten_take_drop]
    rfl
  · rw [hrun]
    right
    refine ⟨ws1, rfl, by rw [hstate, hs], ?_, ?_⟩
    · rw [hstate, hs, emittedUpTo_CONSTANTS_F64, hseq]
      rw [hcom1, ← List.append_assoc, hcom, List.append_assoc]
      congr 1
      rw [← takeFlatten_add _ _ 0 _ _ (by omega)]
    · have : ws1.state = WState.CONSTANTS_F64 := by rw [hstate, hs]
      simp only [ValidPos, this, hseq]
      omega

theorem writeSignaturesM_good (asm : Assembly) (done : List Nat) (ws : WS)
    (hg : Good asm done ws) (hs : ws.state = .SIGNATURES) :
    StepOk asm done ws (writeSignaturesM asm ws) := by
  obtain ⟨hcom, hstg, hvp⟩ := hg
  rw [hs, emittedUpTo_SIGNATURES] at hcom
  simp only [ValidPos, hs] at hvp
  simp only [writeSignaturesM, wmBind_apply, getWS]
  rcases itemLoopM_spec
      (fun i => signatureEntryBytes (asm.signatures.getD i ⟨.void, []⟩))
      (asm.signatures.length - ws.sequence) ws hstg with
    ⟨ws1, hrun, hstate, hsub, hseq, hstg1, hcom1, hcapa, hle⟩ |
    ⟨ws1, j, hrun, hj, hstate, hsub, hseq, hstg1, hcom1, hcapa, hlt⟩
  · rw [hrun]
    left
    simp only [setStateM, modifyWS]
    refine ⟨_, rfl, ⟨?_, by simp [hstg1], by simp [ValidPos]⟩, by simp⟩
    show done ++ ws1.bq.committed = preImportsCount asm
    rw [hcom1, ← List.append_assoc, hcom, List.append_assoc,
      batchConcat_getD _ _ _ _ _ (by omega),
      List.take_of_length_le
        (show (asm.signatures.drop ws.sequence).length ≤
          asm.signatures.length - ws.sequence by simp),
      flatten_take_drop]
    rfl
  · rw [hrun]
    right
    refine ⟨ws1, rfl, by rw [hstate, hs], ?_, ?_⟩
    · rw [hstate, hs, emittedUpTo_SIGNATURES, hseq]
      rw [hcom1, ← List.append_assoc, hcom, List.append_assoc]
      congr 1
      rw [← takeFlatten_add signatureEntryBytes asm.signatures ⟨.void, []⟩ _ _
        (by omega)]
    · have : ws1.state = WState.SIGNATURES := by rw [hstate, hs]
      simp only [ValidPos, this, hseq]
      omega

theorem writeFunctionImportsM_good (asm : Assembly) (done : List Nat) (ws : WS)
    (hg : Good asm done ws) (hs : ws.state = .FUNCTION_IMPORTS) :
    StepOk asm done ws (writeFunctionImportsM asm ws) := by
  obtain ⟨hcom, hstg, hvp⟩ := hg
  rw [hs, emittedUpTo_FUNCTION_IMPORTS] at hcom
  simp only [ValidPos, hs] at hvp
  simp only [writeFunctionImportsM, wmBind_apply, getWS]
  rcases itemLoopM_spec
      (fun i => importEntryBytes (asm.imports.getD i ⟨[], []⟩))
      (asm.imports.length - ws.sequence) ws hstg with
    ⟨ws1, hrun, hstate, hsub, hseq, hstg1, hcom1, hcapa, hle⟩ |
    ⟨ws1, j, hrun, hj, hstate, hsub, hseq, hstg1, hcom1, hcapa, hlt⟩
  · rw [hrun]
    left
    simp only [setStateM, modifyWS]
    refine ⟨_, rfl, ⟨?_, by simp [hstg1], by simp [ValidPos]⟩, by simp⟩
    show done ++ ws1.bq.committed = preGlobalsCount asm
    rw [hcom1, ← List.append_assoc, hcom, List.append_assoc,
      batchConcat_getD _ _ _ _ _ (by omega),
      List.take_of_length_le
        (show (asm.imports.drop ws.sequence).length ≤
          asm.imports.length - ws.sequence by simp),
      flatten_take_drop]
    rfl
  · rw [hrun]
    right
    refine ⟨ws1, rfl, by rw [hstate, hs], ?_, ?_⟩
    · rw [hstate, hs, emittedUpTo_FUNCTION_IMPORTS, hseq]
      rw [hcom1, ← List.append_assoc, hcom, List.append_assoc]
      congr 1
      rw [← takeFlatten_add importEntryBytes asm.imports ⟨[], []⟩ _ _
        (by omega)]
    · have : ws1.state = WState.FUNCTION_IMPORTS := by rw [hstate, hs]
      simp only [ValidPos, this, hseq]
      omega

theorem writeFunctionDeclarationsM_good (asm : Assembly) (done : List Nat)
    (ws : WS) (hg : Good asm done ws) (hs : ws.state = .FUNCTION_DECLARATIONS) :
    StepOk asm done ws (writeFunctionDeclarationsM asm ws) := by
  obtain ⟨hcom, hstg, hvp⟩ := hg
  rw [hs, emittedUpTo_FUNCTION_DECLARATIONS] at hcom
  simp only [ValidPos, hs] at hvp
  simp only [writeFunctionDeclarationsM, wmBind_apply, getWS]
  rcases itemLoopM_spec
      (fun i => varintB (asm.declarations.getD i ⟨0⟩).sigIndex)
      (asm.declarations.length - ws.sequence) ws hstg with
    ⟨ws1, hrun, hstate, hsub, hseq, hstg1, hcom1, hcapa, hle⟩ |
    ⟨ws1, j, hrun, hj, hstate, hsub, hseq, hstg1, hcom1, hcapa, hlt⟩
  · rw [hrun]
    left
    simp only [setStateM, modifyWS]
    refine ⟨_, rfl, ⟨?_, by simp [hstg1], by simp [ValidPos]⟩, by simp⟩
    show done ++ ws1.bq.committed = preTablesCount asm
    have hbc : batchConcat
        (fun i => varintB (asm.declarations.getD i ⟨0⟩).sigIndex)
        ws.sequence (asm.declarations.length - ws.sequence) =
        (((asm.declarations.drop ws.sequence).take
          (asm.declarations.length - ws.sequence)).map
            (fun d => varintB d.sigIndex)).flatten :=
      batchConcat_getD (fun d => varintB d.sigIndex) asm.declarations ⟨0⟩ _ _
        (by omega)
    rw [hcom1, ← List.append_assoc, hcom, List.append_assoc, hbc,
      List.take_of_length_le
        (show (asm.declarations.drop ws.sequence).length ≤
          asm.declarations.length - ws.sequence by simp),
      flatten_take_drop]
    rfl
  · rw [hrun]
    right
    refine ⟨ws1, rfl, by rw [hstate, hs], ?_, ?_⟩
    · rw [hstate, hs, emittedUpTo_FUNCTION_DECLARATIONS, hseq]
      rw [hcom1, ← List.append_assoc, hcom, List.append_assoc]
      congr 1
      rw [← takeFlatten_add (fun d : FunctionDeclaration => varintB d.sigIndex)
        asm.declarations ⟨0⟩ _ _ (by omega)]
    · have : ws1.state = WState.FUNCTION_DECLARATIONS := by rw [hstate, hs]
      simp only [ValidPos, this, hseq]
      omega

/-- Under a pool the scan consumes exactly, `_writeGlobalVariablesCount` is a
single staged batch of the six counts, with the sequence set to the start
of the import group (the seq assignment happens before the commit, so it is
visible even on an insufficient-room suspension, which is harmless because
the count state's emission prefix does not depend on the sequence). -/
theorem setSeq_then (n : Nat) (rest : WM Unit) (ws : WS) :
    (do setSeqM n; rest : WM Unit) ws = rest { ws with sequence := n } := rfl

theorem writeGlobalVariablesCountM_eq (asm : Assembly)
    (h : gvTotal asm.globalVariables = asm.globalVariables.length) :
    writeGlobalVariablesCountM asm = (do
      setSeqM (gvMid asm.globalVariables)
      stageBytes (globalsCountBytes asm)
      commitM
      setStateM .GLOBAL_VARIABLES) := by
  have hcond : gvN1 asm.globalVariables + gvN2 asm.globalVariables +
      gvN3 asm.globalVariables + gvN4 asm.globalVariables +
      gvN5 asm.globalVariables + gvN6 asm.globalVariables =
      asm.globalVariables.length := by
    simpa [gvTotal, gvMid] using h
  simp only [gvN1, gvN2, gvN3, gvN4, gvN5, gvN6, gvMid] at hcond
  funext ws
  simp only [writeGlobalVariablesCountM, wmBind_apply, writeVarintM,
    stageBytes, setSeqM, modifyWS, globalsCountBytes, gvMid, gvN1, gvN2, gvN3,
    gvN4, gvN5, gvN6, if_pos hcond, List.append_assoc]

theorem writeGlobalVariablesCountM_good (asm : Assembly) (done : List Nat)
    (ws : WS) (hg : Good asm done ws) (hs : ws.state = .GLOBAL_VARIABLES_COUNT)
    (htotal : gvTotal asm.globalVariables = asm.globalVariables.length) :
    StepOk asm done ws (writeGlobalVariablesCountM asm ws) := by
  obtain ⟨hcom, hstg, hvp⟩ := hg
  rw [hs, emittedUpTo_GLOBAL_VARIABLES_COUNT] at hcom
  have hmidle : gvMid asm.globalVariables ≤ asm.globalVariables.length := by
    have := htotal
    simp only [gvTotal] at this
    omega
  rw [writeGlobalVariablesCountM_eq asm htotal, setSeq_then,
    stageCommitRest_spec _ _ _ (by simpa using hstg)]
  by_cases hcap : (globalsCountBytes asm).length ≤ ws.bq.capacity
  · left
    simp only [if_pos hcap, setStateM, modifyWS]
    refine ⟨_, rfl, ⟨?_, rfl, ?_⟩, by simp⟩
    · show done ++ (ws.bq.committed ++ globalsCountBytes asm) =
        emittedUpTo asm .GLOBAL_VARIABLES (gvMid asm.globalVariables)
          ws.subSequence
      rw [emittedUpTo_GLOBAL_VARIABLES, ← List.append_assoc, hcom]
      simp [preGlobals]
    · simp only [ValidPos]
      exact ⟨le_refl _, hmidle⟩
  · right
    simp only [if_neg hcap]
    refine ⟨_, rfl, rfl, ?_, ?_⟩
    · show done ++ ws.bq.committed =
        emittedUpTo asm ws.state (gvMid asm.globalVariables) ws.subSequence
      rw [hs, emittedUpTo_GLOBAL_VARIABLES_COUNT]
      exact hcom
    · show ValidPos asm
        { ws with sequence := gvMid asm.globalVariables
                  bq := { ws.bq with staged := globalsCountBytes asm } }
      simp [ValidPos, hs]

theorem getElem_mem_drop {α : Type} (l : List α) (m i : Nat) (h1 : m ≤ i)
    (h2 : i < l.length) : l[i] ∈ l.drop m := by
  have hlt : i - m < (l.drop m).length := by
    simp
    omega
  have h3 : (l.drop m)[i - m] = l[m + (i - m)] := List.getElem_drop l
  have hmi : m + (i - m) = i := by omega
  simp only [hmi] at h3
  rw [← h3]
  exact List.getElem_mem hlt

theorem commitM_preserves (ws ws1 : WS) (r : Except WErr Unit)
    (h : commitM ws = (ws1, r)) :
    ws1.state = ws.state ∧ ws1.sequence = ws.sequence ∧
      ws1.subSequence = ws.subSequence := by
  simp only [commitM] at h
  by_cases hc : ws.bq.staged.length ≤ ws.bq.capacity
  · rw [if_pos hc] at h
    cases h
    exact ⟨rfl, rfl, rfl⟩
  · rw [if_neg hc] at h
    cases h
    exact ⟨rfl, rfl, rfl⟩

/-- Under present import names, the `_writeGlobalVariables` loop is the
generic entry loop over per-variable NUL-terminated import names. -/
theorem globalItemsM_eq (asm : Assembly) (k : Nat) :
    ∀ ws : WS,
      (∀ j, j < k → ws.sequence + j < asm.globalVariables.length) →
      gvMid asm.globalVariables ≤ ws.sequence →
      (∀ v ∈ asm.globalVariables.drop (gvMid asm.globalVariables),
        v.importName.isSome) →
      globalItemsM asm k ws =
        itemLoopM
          (fun i => globalNameBytes (asm.globalVariables.getD i ⟨.i32, none⟩))
          k ws := by
  induction k with
  | zero => intro ws _ _ _; rfl
  | succ k ih =>
    intro ws hin hmid hnames
    have hlen : ws.sequence < asm.globalVariables.length := by
      have := hin 0 (by omega)
      omega
    have hv : asm.globalVariables.getD ws.sequence ⟨.i32, none⟩ =
        asm.globalVariables[ws.sequence] := List.getD_eq_getElem _ _ hlen
    have hmem : asm.globalVariables[ws.sequence] ∈
        asm.globalVariables.drop (gvMid asm.globalVariables) :=
      getElem_mem_drop _ _ _ hmid hlen
    have hsome := hnames _ hmem
    obtain ⟨nm, hnm⟩ := Option.isSome_iff_exists.mp hsome
    have hgn : globalNameBytes (asm.globalVariables[ws.sequence]) =
        cstringB nm := by
      simp [globalNameBytes, hnm]
    rw [globalItemsM, itemLoopM]
    simp only [wmBind_apply, getWS, hv, hnm, hgn, writeCStringOptM,
      writeCStringM, stageBytes, modifyWS]
    rcases hcm : commitM
        { ws with bq := { ws.bq with staged := ws.bq.staged ++ cstringB nm } }
      with ⟨ws2, r⟩
    obtain ⟨hst2, hsq2, hssq2⟩ := commitM_preserves _ _ _ hcm
    have hsq2w : ws2.sequence = ws.sequence := hsq2
    cases r with
    | error e => rfl
    | ok a =>
      simp only [incSeqM, modifyWS]
      exact ih _
        (fun j hj => by
          show ws2.sequence + 1 + j < asm.globalVariables.length
          rw [hsq2w]
          have := hin (j + 1) (by omega)
          omega)
        (by
          show gvMid asm.globalVariables ≤ ws2.sequence + 1
          rw [hsq2w]
          omega)
        hnames

theorem writeGlobalVariablesM_good (asm : Assembly) (done : List Nat) (ws : WS)
    (hg : Good asm done ws) (hs : ws.state = .GLOBAL_VARIABLES)
    (hnames : ∀ v ∈ asm.globalVariables.drop (gvMid asm.globalVariables),
      v.importName.isSome) :
    StepOk asm done ws (writeGlobalVariablesM asm ws) := by
  obtain ⟨hcom, hstg, hvp⟩ := hg
  rw [hs, emittedUpTo_GLOBAL_VARIABLES] at hcom
  simp only [ValidPos, hs] at hvp
  obtain ⟨hmid, hlen⟩ := hvp
  have hdd : asm.globalVariables.drop ws.sequence =
      (asm.globalVariables.drop (gvMid asm.globalVariables)).drop
        (ws.sequence - gvMid asm.globalVariables) := by
    rw [List.drop_drop]
    congr 1
    omega
  simp only [writeGlobalVariablesM, wmBind_apply, getWS]
  rw [globalItemsM_eq asm _ ws (fun j hj => by omega) hmid hnames]
  rcases itemLoopM_spec
      (fun i => globalNameBytes (asm.globalVariables.getD i ⟨.i32, none⟩))
      (asm.globalVariables.length - ws.sequence) ws hstg with
    ⟨ws1, hrun, hstate, hsub, hseq, hstg1, hcom1, hcapa, hle⟩ |
    ⟨ws1, j, hrun, hj, hstate, hsub, hseq, hstg1, hcom1, hcapa, hlt⟩
  · rw [hrun]
    left
    simp only [setStateM, modifyWS]
    refine ⟨_, rfl, ⟨?_, by simp [hstg1], by simp [ValidPos]⟩, by simp⟩
    show done ++ ws1.bq.committed = preDeclarationsCount asm
    rw [hcom1, ← List.append_assoc, hcom, List.append_assoc,
      batchConcat_getD _ _ _ _ _ (by omega),
      List.take_of_length_le
        (show (asm.globalVariables.drop ws.sequence).length ≤
          asm.globalVariables.length - ws.sequence by simp),
      hdd, flatten_take_drop]
    rfl
  · rw [hrun]
    right
    refine ⟨ws1, rfl, by rw [hstate, hs], ?_, ?_⟩
    · rw [hstate, hs, emittedUpTo_GLOBAL_VARIABLES, hseq]
      rw [hcom1, ← List.append_assoc, hcom, List.append_assoc]
      congr 1
      rw [batchConcat_getD _ _ _ _ _ (by omega)]
      have h1 : ws.sequence + j - gvMid asm.globalVariables =
          (ws.sequence - gvMid asm.globalVariables) + j := by omega
      rw [h1, List.take_add, List.map_append, List.flatten_append]
      congr 2
      rw [hdd]
    · have : ws1.state = WState.GLOBAL_VARIABLES := by rw [hstate, hs]
      simp only [ValidPos, this, hseq]
      omega

theorem writeFunctionPointerTablesM_good (asm : Assembly) (done : List Nat)
    (ws : WS) (hg : Good asm done ws)
    (hs : ws.state = .FUNCTION_POINTER_TABLES) :
    StepOk asm done ws (writeFunctionPointerTablesM asm ws) := by
  obtain ⟨hcom, hstg, hvp⟩ := hg
  rw [hs, emittedUpTo_FUNCTION_POINTER_TABLES] at hcom
  simp only [ValidPos, hs] at hvp
  simp only [writeFunctionPointerTablesM, wmBind_apply, getWS]
  by_cases hlt : ws.sequence < asm.tables.length
  · rw [if_pos hlt]
    have heq : (do
        writeVarintM (asm.tables.getD ws.sequence ⟨0, []⟩).sigIndex
        writeVarintM (asm.tables.getD ws.sequence ⟨0, []⟩).elements.length
        commitM
        setStateM .FUNCTION_POINTER_ELEMENTS
        setSubSeqM 0 : WM Unit) = (do
        stageBytes (tableHeaderBytes (asm.tables.getD ws.sequence ⟨0, []⟩))
        commitM
        setStateM .FUNCTION_POINTER_ELEMENTS
        setSubSeqM 0 : WM Unit) := by
      funext w
      simp [wmBind_apply, writeVarintM, stageBytes, modifyWS, tableHeaderBytes]
    rw [heq, stageCommitRest_spec _ _ _ hstg]
    by_cases hcap :
        (tableHeaderBytes (asm.tables.getD ws.sequence ⟨0, []⟩)).length ≤
        ws.bq.capacity
    · left
      simp only [if_pos hcap, setStateM, setSubSeqM, modifyWS]
      refine ⟨_, rfl, ⟨?_, rfl, ?_⟩, by simp⟩
      · show done ++
          (ws.bq.committed ++
            tableHeaderBytes (asm.tables.getD ws.sequence ⟨0, []⟩)) =
          emittedUpTo asm .FUNCTION_POINTER_ELEMENTS ws.sequence 0
        rw [emittedUpTo_FUNCTION_POINTER_ELEMENTS, ← List.append_assoc, hcom]
        simp
      · simp only [ValidPos]
        exact ⟨hlt, by omega⟩
    · right
      simp only [if_neg hcap]
      refine ⟨_, rfl, rfl, ?_, by simp [ValidPos, hs]; omega⟩
      rw [hs, emittedUpTo_FUNCTION_POINTER_TABLES]
      exact hcom
  · rw [if_neg hlt]
    left
    simp only [setStateM, setSeqM, modifyWS, wmBind_apply]
    refine ⟨_, rfl, ⟨?_, hstg, by simp [ValidPos]⟩, by simp⟩
    show done ++ ws.bq.committed =
      emittedUpTo asm .FUNCTION_DEFINITIONS 0 ws.subSequence
    rw [emittedUpTo_FUNCTION_DEFINITIONS, hcom]
    have hseqlen : ws.sequence = asm.tables.length := by omega
    rw [hseqlen, List.take_of_length_le (le_refl _)]
    simp [preDefinitions, tablesBytes]

theorem writeFunctionPointerElementsM_good (asm : Assembly) (done : List Nat)
    (ws : WS) (hg : Good asm done ws)
    (hs : ws.state = .FUNCTION_POINTER_ELEMENTS) :
    StepOk asm done ws (writeFunctionPointerElementsM asm ws) := by
  obtain ⟨hcom, hstg, hvp⟩ := hg
  rw [hs, emittedUpTo_FUNCTION_POINTER_ELEMENTS] at hcom
  simp only [ValidPos, hs] at hvp
  obtain ⟨hseqlt, hsuble⟩ := hvp
  set t := asm.tables.getD ws.sequence ⟨0, []⟩ with ht
  simp only [writeFunctionPointerElementsM, wmBind_apply, getWS]
  rcases subItemLoopM_spec (fun j => varintB (t.elements.getD j 0))
      (t.elements.length - ws.subSequence) ws hstg with
    ⟨ws1, hrun, hstate, hseqE, hsubE, hstg1, hcom1, hcapa, hle⟩ |
    ⟨ws1, j, hrun, hj, hstate, hseqE, hsubE, hstg1, hcom1, hcapa, hlt⟩
  · rw [hrun]
    left
    simp only [setStateM, incSeqM, modifyWS, wmBind_apply]
    refine ⟨_, rfl, ⟨?_, by simp [hstg1], ?_⟩, by simp⟩
    · show done ++ ws1.bq.committed =
        preTables asm ++
          ((asm.tables.take (ws1.sequence + 1)).map tableBytes).flatten
      rw [hseqE, hcom1, ← List.append_assoc, hcom,
        batchConcat_getD _ _ _ _ _ (by omega),
        List.take_of_length_le
          (show (t.elements.drop ws.subSequence).length ≤
            t.elements.length - ws.subSequence by simp),
        takeFlatten_add tableBytes asm.tables ⟨0, []⟩ ws.sequence 1 (by omega),
        batchConcat_one]
      simp only [List.append_assoc, flatten_take_drop]
      rw [← ht]
      simp [tableBytes, tableElementsBytes, List.append_assoc]
    · show ValidPos asm _
      simp only [ValidPos]
      rw [hseqE]
      omega
  · rw [hrun]
    right
    refine ⟨ws1, rfl, by rw [hstate, hs], ?_, ?_⟩
    · rw [hstate, hs, emittedUpTo_FUNCTION_POINTER_ELEMENTS, hseqE, hsubE]
      rw [hcom1, ← List.append_assoc, hcom,
        batchConcat_getD _ _ _ _ _ (by omega)]
      rw [← ht]
      simp only [List.append_assoc]
      congr 3
      rw [List.take_add, List.map_append, List.flatten_append]
    · have hst1 : ws1.state = WState.FUNCTION_POINTER_ELEMENTS := by
        rw [hstate, hs]
      simp only [ValidPos, hst1, hseqE, hsubE]
      rw [← ht]
      exact ⟨hseqlt, by omega⟩

theorem writeFunctionDefinitionsM_good (asm : Assembly) (done : List Nat)
    (ws : WS) (hg : Good asm done ws) (hs : ws.state = .FUNCTION_DEFINITIONS) :
    StepOk asm done ws (writeFunctionDefinitionsM asm ws) := by
  obtain ⟨hcom, hstg, hvp⟩ := hg
  rw [hs, emittedUpTo_FUNCTION_DEFINITIONS] at hcom
  simp only [ValidPos, hs] at hvp
  simp only [writeFunctionDefinitionsM, wmBind_apply, getWS]
  by_cases hlt : ws.sequence < asm.declarations.length
  · rw [if_pos hlt]
    have heq : (do
        stageBytes (localCountHeader
          (countLocals (asm.definitions.getD ws.sequence ⟨[], 0, 0, 0, []⟩).variables .i32)
          (countLocals (asm.definitions.getD ws.sequence ⟨[], 0, 0, 0, []⟩).variables .f32)
          (countLocals (asm.definitions.getD ws.sequence ⟨[], 0, 0, 0, []⟩).variables .f64))
        stageBytes (bodyBytes (asm.definitions.getD ws.sequence ⟨[], 0, 0, 0, []⟩).body)
        commitM
        incSeqM : WM Unit) = (do
        stageBytes (funcDefBytes (asm.definitions.getD ws.sequence ⟨[], 0, 0, 0, []⟩))
        commitM
        incSeqM : WM Unit) := by
      funext w
      simp [wmBind_apply, stageBytes, modifyWS, funcDefBytes]
    rw [heq, stageCommitRest_spec _ _ _ hstg]
    by_cases hcap :
        (funcDefBytes (asm.definitions.getD ws.sequence ⟨[], 0, 0, 0, []⟩)).length ≤
        ws.bq.capacity
    · left
      simp only [if_pos hcap, incSeqM, modifyWS]
      refine ⟨_, rfl, ⟨?_, rfl, ?_⟩, by simp [hs]⟩
      · show done ++ (ws.bq.committed ++
            funcDefBytes (asm.definitions.getD ws.sequence ⟨[], 0, 0, 0, []⟩)) =
          emittedUpTo asm ws.state (ws.sequence + 1) ws.subSequence
        rw [hs, emittedUpTo_FUNCTION_DEFINITIONS, ← List.append_assoc, hcom,
          List.range_succ, List.map_append, List.flatten_append]
        simp
      · simp only [ValidPos, hs]
        omega
    · right
      simp only [if_neg hcap]
      refine ⟨_, rfl, rfl, ?_, ?_⟩
      · show done ++ ws.bq.committed =
          emittedUpTo asm ws.state ws.sequence ws.subSequence
        rw [hs, emittedUpTo_FUNCTION_DEFINITIONS]
        exact hcom
      · simp only [ValidPos, hs]
        omega
  · rw [if_neg hlt]
    left
    simp only [setStateM, modifyWS]
    refine ⟨_, rfl, ⟨?_, hstg, by simp [ValidPos]⟩, by simp⟩
    show done ++ ws.bq.committed = preExport asm
    rw [hcom]
    have hseqlen : ws.sequence = asm.declarations.length := by omega
    rw [hseqlen]
    rfl

theorem writeExportM_good (asm : Assembly) (done : List Nat) (ws : WS)
    (hg : Good asm done ws) (hs : ws.state = .EXPORT)
    (hexp : asm.exportDesc ≠ .illegalE) :
    StepOk asm done ws (writeExportM asm ws) := by
  obtain ⟨hcom, hstg, hvp⟩ := hg
  rw [hs, emittedUpTo_EXPORT] at hcom
  cases hed : asm.exportDesc with
  | illegalE => exact absurd hed hexp
  | defaultE idx =>
    have heq : writeExportM asm = (do
        stageBytes (exportBytes asm.exportDesc)
        commitM
        setStateM .END : WM Unit) := by
      funext w
      simp [writeExportM, hed, exportBytes, wmBind_apply, writeUInt8M,
        writeVarintM, stageBytes, modifyWS]
    rw [heq, stageCommitRest_spec _ _ _ hstg]
    by_cases hcap : (exportBytes asm.exportDesc).length ≤ ws.bq.capacity
    · left
      simp only [if_pos hcap, setStateM, modifyWS]
      refine ⟨_, rfl, ⟨?_, rfl, by simp [ValidPos]⟩, by simp⟩
      show done ++ (ws.bq.committed ++ exportBytes asm.exportDesc) =
        encodeAssembly asm
      rw [← List.append_assoc, hcom]
      rfl
    · right
      simp only [if_neg hcap]
      refine ⟨_, rfl, rfl, ?_, by simp [ValidPos, hs]⟩
      rw [hs, emittedUpTo_EXPORT]
      exact hcom
  | recordE pairs =>
    have heq : writeExportM asm = (do
        stageBytes (exportBytes asm.exportDesc)
        commitM
        setStateM .END : WM Unit) := by
      funext w
      simp [writeExportM, hed, exportBytes, wmBind_apply, writeUInt8M,
        writeVarintM, stageBytes, modifyWS]
    rw [heq, stageCommitRest_spec _ _ _ hstg]
    by_cases hcap : (exportBytes asm.exportDesc).length ≤ ws.bq.capacity
    · left
      simp only [if_pos hcap, setStateM, modifyWS]
      refine ⟨_, rfl, ⟨?_, rfl, by simp [ValidPos]⟩, by simp⟩
      show done ++ (ws.bq.committed ++ exportBytes asm.exportDesc) =
        encodeAssembly asm
      rw [← List.append_assoc, hcom]
      rfl
    · right
      simp only [if_neg hcap]
      refine ⟨_, rfl, rfl, ?_, by simp [ValidPos, hs]⟩
      rw [hs, emittedUpTo_EXPORT]
      exact hcom

/-- The combined step lemma: at any non-terminal state of a machine-wf
assembly, the dispatched write step either succeeds preserving the emission
invariant or suspends with insufficient room, leaving the state unchanged and
the committed stream at the position's prefix; no fatal error occurs. -/
theorem stepFor_good (asm : Assembly) (done : List Nat) (ws : WS)
    (hwf : MachineWf asm) (hg : Good asm done ws)
    (hne1 : ws.state ≠ .END) (hne2 : ws.state ≠ .ERROR) :
    StepOk asm done ws (stepFor asm ws.state ws) := by
  obtain ⟨htot, hnames, hexp⟩ := hwf
  cases hst : ws.state with
  | HEADER => exact writeHeaderM_good asm done ws hg hst
  | CONSTANTS_COUNT => exact writeConstantsCountM_good asm done ws hg hst
  | CONSTANTS_I32 => exact writeConstantsI32M_good asm done ws hg hst
  | CONSTANTS_F32 => exact writeConstantsF32M_good asm done ws hg hst
  | CONSTANTS_F64 => exact writeConstantsF64M_good asm done ws hg hst
  | SIGNATURES_COUNT => exact writeSignaturesCountM_good asm done ws hg hst
  | SIGNATURES => exact writeSignaturesM_good asm done ws hg hst
  | FUNCTION_IMPORTS_COUNT =>
    exact writeFunctionImportsCountM_good asm done ws hg hst
  | FUNCTION_IMPORTS => exact writeFunctionImportsM_good asm done ws hg hst
  | GLOBAL_VARIABLES_COUNT =>
    exact writeGlobalVariablesCountM_good asm done ws hg hst htot
  | GLOBAL_VARIABLES =>
    exact writeGlobalVariablesM_good asm done ws hg hst hnames
  | FUNCTION_DECLARATIONS_COUNT =>
    exact writeFunctionDeclarationsCountM_good asm done ws hg hst
  | FUNCTION_DECLARATIONS =>
    exact writeFunctionDeclarationsM_good asm done ws hg hst
  | FUNCTION_POINTER_TABLES_COUNT =>
    exact writeFunctionPointerTablesCountM_good asm done ws hg hst
  | FUNCTION_POINTER_TABLES =>
    exact writeFunctionPointerTablesM_good asm done ws hg hst
  | FUNCTION_POINTER_ELEMENTS =>
    exact writeFunctionPointerElementsM_good asm done ws hg hst
  | FUNCTION_DEFINITIONS =>
    exact writeFunctionDefinitionsM_good asm done ws hg hst
  | EXPORT => exact writeExportM_good asm done ws hg hst hexp
  | END => exact absurd hst hne1
  | ERROR => exact absurd hst hne2

/-- Master invariant of `_process`: starting from any good state of a
machine-wf assembly, one `_process` invocation emits exactly the bytes that
extend the already-emitted stream to the (new) position's prefix of the
ordered wire image, and never reaches the ERROR state. -/
theorem processLoop_good (asm : Assembly) (hwf : MachineWf asm) :
    ∀ (fuel : Nat) (done : List Nat) (ws : WS), Good asm done ws →
      ws.state ≠ .ERROR →
      Good asm (done ++ (processLoop asm fuel ws).1)
        (processLoop asm fuel ws).2 ∧
      (processLoop asm fuel ws).2.state ≠ .ERROR := by
  intro fuel
  induction fuel with
  | zero =>
    intro done ws hg hne
    simp only [processLoop]
    exact ⟨by simpa using hg, hne⟩
  | succ fuel ih =>
    intro done ws hg hne
    rw [processLoop]
    by_cases hterm : ws.state = .END ∨ ws.state = .ERROR
    · rw [if_pos hterm]
      have hend : ws.state = .END := by
        rcases hterm with h | h
        · exact h
        · exact absurd h hne
      obtain ⟨hcom, hstg, hvp⟩ := hg
      refine ⟨⟨?_, rfl, by simp [ValidPos, hend]⟩, by simp [hend]⟩
      show (done ++ ws.bq.committed) ++ [] =
        emittedUpTo asm ws.state ws.sequence ws.subSequence
      rw [List.append_nil, hcom]
    · rw [if_neg hterm]
      push_neg at hterm
      have hstep := stepFor_good asm done ws hwf hg hterm.1 hterm.2
      rcases hstep with ⟨ws1, hrun, hg1, hne1⟩ | ⟨ws1, hrun, hst1, hcom1, hvp1⟩
      · rw [hrun]
        exact ih done ws1 hg1 hne1
      · rw [hrun]
        refine ⟨⟨?_, rfl, by simpa [ValidPos] using hvp1⟩, by
          show ws1.state ≠ .ERROR
          rw [hst1]
          exact hterm.2⟩
        show (done ++ ws1.bq.committed) ++ [] = _
        rw [List.append_nil, hcom1]

theorem processOnce_good (asm : Assembly) (hwf : MachineWf asm) (fuel : Nat)
    (done : List Nat) (ws : WS) (hg : Good asm done ws)
    (hne : ws.state ≠ .ERROR) :
    Good asm (done ++ (processOnce asm fuel ws).1) (processOnce asm fuel ws).2 ∧
    (processOnce asm fuel ws).2.state ≠ .ERROR := by
  rw [processOnce]
  by_cases hterm : ws.state = .END ∨ ws.state = .ERROR
  · rw [if_pos hterm]
    exact ⟨by simpa using hg, hne⟩
  · rw [if_neg hterm]
    exact processLoop_good asm hwf fuel done ws hg hne

theorem addCapacity_good (asm : Assembly) (done : List Nat) (ws : WS)
    (hg : Good asm done ws) (size : Nat) :
    Good asm done
      { ws with bq := { ws.bq with capacity := ws.bq.capacity + size } } := by
  obtain ⟨hcom, hstg, hvp⟩ := hg
  exact ⟨hcom, hstg, hvp⟩

theorem readSignal_good (asm : Assembly) (hwf : MachineWf asm) (fuel : Nat)
    (size : Nat) (done : List Nat) (ws : WS) (hg : Good asm done ws)
    (hne : ws.state ≠ .ERROR) :
    Good asm (done ++ (readSignal asm fuel size ws).1)
      (readSignal asm fuel size ws).2 ∧
    (readSignal asm fuel size ws).2.state ≠ .ERROR := by
  rw [readSignal]
  by_cases hz : size = 0
  · rw [if_pos hz]
    exact ⟨by simpa using hg, hne⟩
  · rw [if_neg hz]
    exact processOnce_good asm hwf fuel done _ (addCapacity_good asm done ws hg size) hne

/-- Master theorem over a whole multi-signal run: everything pushed
downstream plus the committed remainder is exactly the ordered-prefix
`emittedUpTo` of the final position; in particular, each byte of the wire
image is emitted exactly once, in order, across all suspensions and
retries. -/
theorem drive_good (asm : Assembly) (hwf : MachineWf asm) (fuel : Nat) :
    ∀ (signals : List Nat) (done : List Nat) (ws : WS), Good asm done ws →
      ws.state ≠ .ERROR →
      Good asm (done ++ (drive asm fuel signals ws).1)
        (drive asm fuel signals ws).2 ∧
      (drive asm fuel signals ws).2.state ≠ .ERROR := by
  intro signals
  induction signals with
  | nil =>
    intro done ws hg hne
    simp only [drive]
    exact ⟨by simpa using hg, hne⟩
  | cons size rest ih =>
    intro done ws hg hne
    simp only [drive]
    obtain ⟨hg1, hne1⟩ := readSignal_good asm hwf fuel size done ws hg hne
    obtain ⟨hg2, hne2⟩ := ih _ _ hg1 hne1
    refine ⟨?_, hne2⟩
    rw [← List.append_assoc]
    exact hg2

theorem initial_good (asm : Assembly) : Good asm [] initialWS :=
  ⟨rfl, rfl, trivial⟩

/-- A full run from the initial state: the pushed bytes plus the committed
remainder form the `emittedUpTo` prefix of the final position, and when the
END state has been reached they are the complete wire image. -/
theorem drive_run (asm : Assembly) (hwf : MachineWf asm) (fuel : Nat)
    (signals : List Nat) :
    (drive asm fuel signals initialWS).1 ++
        (drive asm fuel signals initialWS).2.bq.committed =
      emittedUpTo asm (drive asm fuel signals initialWS).2.state
        (drive asm fuel signals initialWS).2.sequence
        (drive asm fuel signals initialWS).2.subSequence ∧
    ((drive asm fuel signals initialWS).2.state = .END →
      (drive asm fuel signals initialWS).1 ++
          (drive asm fuel signals initialWS).2.bq.committed =
        encodeAssembly asm) := by
  obtain ⟨⟨hcom, hstg, hvp⟩, hne⟩ :=
    drive_good asm hwf fuel signals [] initialWS (initial_good asm) (by
      show WState.HEADER ≠ WState.ERROR
      simp)
  rw [List.nil_append] at hcom
  refine ⟨hcom, fun hend => ?_⟩
  rw [hcom, hend, emittedUpTo_END]

/-! ## The symmetric reader

`Modelled from the spec:` the decoder (the read-side counterpart, spec §1,
§4.1, §6) is not under `src/`; it parses the §6 wire layout section by
section and rebuilds the entity graph. -/

/-- Reads `k` items with the given item reader. -/
def readMany {α : Type} (rd : List Nat → Option (α × List Nat)) :
    Nat → List Nat → Option (List α × List Nat)
  | 0, bs => some ([], bs)
  | k + 1, bs =>
    match rd bs with
    | some (a, bs1) =>
      match readMany rd k bs1 with
      | some (as, bs2) => some (a :: as, bs2)
      | none => none
    | none => none

theorem readMany_spec {α : Type} (rd : List Nat → Option (α × List Nat))
    (enc : α → List Nat) (l : List α)
    (h : ∀ a ∈ l, ∀ tail, rd (enc a ++ tail) = some (a, tail)) (tail : List Nat) :
    readMany rd l.length ((l.map enc).flatten ++ tail) = some (l, tail) := by
  induction l with
  | nil => simp [readMany]
  | cons a as ih =>
    have hih := ih (fun x hx tl => h x (by simp [hx]) tl)
    simp only [List.length_cons, List.map_cons, List.flatten_cons, readMany,
      List.append_assoc, h a (by simp), hih]

/-- One argument-type byte. -/
def readTy : List Nat → Option (Ty × List Nat)
  | [] => none
  | b :: bs =>
    match tyOfCode b with
    | some t => some (t, bs)
    | none => none

/-- One signature: return-type byte, varint argument count, argument-type
bytes. -/
def readSignature (bs : List Nat) : Option (FunctionSignature × List Nat) :=
  match bs with
  | [] => none
  | b :: bs1 =>
    match rtyOfCode b with
    | some rt =>
      match readVarint bs1 with
      | some (argc, bs2) =>
        match readMany readTy argc bs2 with
        | some (tys, bs3) => some (⟨rt, tys⟩, bs3)
        | none => none
      | none => none
    | none => none

/-- One function import: NUL-terminated name, varint signature count,
signature indices. -/
def readImport (bs : List Nat) : Option (FunctionImport × List Nat) :=
  match readCString bs with
  | some (nm, bs1) =>
    match readVarint bs1 with
    | some (n, bs2) =>
      match readMany readVarint n bs2 with
      | some (idxs, bs3) => some (⟨nm, idxs⟩, bs3)
      | none => none
    | none => none
  | none => none

/-- One function declaration: a varint signature index. -/
def readDeclaration (bs : List Nat) : Option (FunctionDeclaration × List Nat) :=
  match readVarint bs with
  | some (i, bs1) => some (⟨i⟩, bs1)
  | none => none

/-- One pointer table: varint signature index, varint element count, varint
elements. -/
def readTable (bs : List Nat) : Option (FunctionPointerTable × List Nat) :=
  match readVarint bs with
  | some (sig, bs1) =>
    match readVarint bs1 with
    | some (n, bs2) =>
      match readMany readVarint n bs2 with
      | some (elems, bs3) => some (⟨sig, elems⟩, bs3)
      | none => none
    | none => none
  | none => none

mutual
/-- One statement node: the opcode code byte, then the opcode-specific number
of operand subtrees (§4.1 `decode`).  `fuel` bounds the tree depth. -/
def readNode (ar : Nat → Nat) : Nat → List Nat → Option (ANode × List Nat)
  | 0, _ => none
  | fuel + 1, bs =>
    match bs with
    | [] => none
    | c :: bs1 =>
      match readNodeList ar fuel (ar c) bs1 with
      | some (ks, r) => some (.mk c ks, r)
      | none => none
termination_by fuel _ => (fuel, 0)

def readNodeList (ar : Nat → Nat) :
    Nat → Nat → List Nat → Option (ANodeList × List Nat)
  | _, 0, bs => some (.nil, bs)
  | fuel, k + 1, bs =>
    match readNode ar fuel bs with
    | some (hd, bs1) =>
      match readNodeList ar fuel k bs1 with
      | some (tl, bs2) => some (.cons hd tl, bs2)
      | none => none
    | none => none
termination_by fuel k _ => (fuel, k + 1)
end

/-- A function body: a varint statement count and that many trees. -/
def readBody (ar : Nat → Nat) (bs : List Nat) :
    Option (List ANode × List Nat) :=
  match readVarint bs with
  | some (n, bs1) =>
    readMany (fun b => readNode ar b.length b) n bs1
  | none => none

/-- The postfix of one function entry after the local-count header: the local
counts are rebuilt into a `WFuncDef` whose argument types come from the
function's declaration (via the signature pool). -/
def readFuncDef (ar : Nat → Nat) (argTys : List Ty) (bs : List Nat) :
    Option (WFuncDef × List Nat) :=
  match bs with
  | [] => none
  | b :: bs1 =>
    if 128 ≤ b then
      match readBody ar bs1 with
      | some (body, bs2) => some (⟨argTys, b - 128, 0, 0, body⟩, bs2)
      | none => none
    else
      match (if b % 2 = 1 then readVarint bs1 else some (0, bs1)) with
      | some (nI32, bs2) =>
        match (if b / 2 % 2 = 1 then readVarint bs2 else some (0, bs2)) with
        | some (nF32, bs3) =>
          match (if b / 4 % 2 = 1 then readVarint bs3 else some (0, bs3)) with
          | some (nF64, bs4) =>
            match readBody ar bs4 with
            | some (body, bs5) => some (⟨argTys, nI32, nF32, nF64, body⟩, bs5)
            | none => none
          | none => none
        | none => none
      | none => none

/-- All function definitions, one per declaration, in order. -/
def readFuncDefs (ar : Nat → Nat) (sigs : List FunctionSignature) :
    List FunctionDeclaration → List Nat → Option (List WFuncDef × List Nat)
  | [], bs => some ([], bs)
  | d :: ds, bs =>
    match readFuncDef ar (sigs.getD d.sigIndex ⟨.void, []⟩).argumentTypes bs with
    | some (fd, bs1) =>
      match readFuncDefs ar sigs ds bs1 with
      | some (fds, bs2) => some (fd :: fds, bs2)
      | none => none
    | none => none

/-- One export record pair: NUL-terminated name and a varint function index. -/
def readPair (bs : List Nat) : Option ((List Nat × Nat) × List Nat) :=
  match readCString bs with
  | some (nm, bs1) =>
    match readVarint bs1 with
    | some (i, bs2) => some ((nm, i), bs2)
    | none => none
  | none => none

/-- The export descriptor: discriminator byte, then a function index
(Default) or a pair count and the pairs (Record). -/
def readExport (bs : List Nat) : Option (ExportDesc × List Nat) :=
  match bs with
  | [] => none
  | b :: bs1 =>
    if b = ExportFormat_Default then
      match readVarint bs1 with
      | some (i, bs2) => some (.defaultE i, bs2)
      | none => none
    else if b = ExportFormat_Record then
      match readVarint bs1 with
      | some (n, bs2) =>
        match readMany readPair n bs2 with
        | some (pairs, bs3) => some (.recordE pairs, bs3)
        | none => none
      | none => none
    else none

/-- The global-variable pool rebuilt from the six counts and the import
names, in the mandated grouped order. -/
def rebuildGlobals (n1 n2 n3 n4 n5 n6 : Nat) (names : List (List Nat)) :
    List GlobalVariable :=
  List.replicate n1 ⟨.i32, none⟩ ++ List.replicate n2 ⟨.f32, none⟩ ++
    List.replicate n3 ⟨.f64, none⟩ ++
    List.zipWith (fun t nm => ⟨t, some nm⟩)
      (List.replicate n4 Ty.i32 ++ List.replicate n5 Ty.f32 ++
        List.replicate n6 Ty.f64) names

/-- Continuation of `decodeAssembly` from the declarations section on. -/
def decodeAssemblyTail2 (ar : Nat → Nat) (sz : Nat)
    (i32s f32s f64s : List Nat) (sigs : List FunctionSignature)
    (imps : List FunctionImport) (globals : List GlobalVariable)
    (bs : List Nat) : Option Assembly :=
  match readVarint bs with
  | none => none
  | some (nDecl, bs) =>
    match readMany readDeclaration nDecl bs with
    | none => none
    | some (decls, bs) =>
      match readVarint bs with
      | none => none
      | some (nTab, bs) =>
        match readMany readTable nTab bs with
        | none => none
        | some (tabs, bs) =>
          match readFuncDefs ar sigs decls bs with
          | none => none
          | some (defs, bs) =>
            match readExport bs with
            | none => none
            | some (ex, _) =>
              some ⟨sz, i32s, f32s, f64s, sigs, imps, globals, decls, tabs,
                defs, ex⟩

/-- Continuation of `decodeAssembly` from the signatures section on. -/
def decodeAssemblyTail (ar : Nat → Nat) (sz : Nat) (i32s f32s f64s : List Nat)
    (bs : List Nat) : Option Assembly :=
  match readVarint bs with
  | none => none
  | some (nSig, bs) =>
    match readMany readSignature nSig bs with
    | none => none
    | some (sigs, bs) =>
      match readVarint bs with
      | none => none
      | some (nImp, bs) =>
        match readVarint bs with
        | none => none
        | some (_, bs) =>
          match readMany readImport nImp bs with
          | none => none
          | some (imps, bs) =>
            match readVarint bs with
            | none => none
            | some (n1, bs) =>
              match readVarint bs with
              | none => none
              | some (n2, bs) =>
                match readVarint bs with
                | none => none
                | some (n3, bs) =>
                  match readVarint bs with
                  | none => none
                  | some (n4, bs) =>
                    match readVarint bs with
                    | none => none
                    | some (n5, bs) =>
                      match readVarint bs with
                      | none => none
                      | some (n6, bs) =>
                        match readMany readCString (n4 + n5 + n6) bs with
                        | none => none
                        | some (names, bs) =>
                          decodeAssemblyTail2 ar sz i32s f32s f64s sigs imps
                            (rebuildGlobals n1 n2 n3 n4 n5 n6 names) bs

/-- The symmetric reader: parses the whole §6 module layout and rebuilds the
assembly. -/
def decodeAssembly (ar : Nat → Nat) (bs : List Nat) : Option Assembly :=
  match readUInt32LE bs with
  | none => none
  | some (magic, bs) =>
    if magic = MagicNumber then
      match readUInt32LE bs with
      | none => none
      | some (sz, bs) =>
        match readVarint bs with
        | none => none
        | some (nI32, bs) =>
          match readVarint bs with
          | none => none
          | some (nF32, bs) =>
            match readVarint bs with
            | none => none
            | some (nF64, bs) =>
              match readMany readVarint nI32 bs with
              | none => none
              | some (i32s, bs) =>
                match readMany readUInt32LE nF32 bs with
                | none => none
                | some (f32s, bs) =>
                  match readMany readUInt64LE nF64 bs with
                  | none => none
                  | some (f64s, bs) =>
                    decodeAssemblyTail ar sz i32s f32s f64s bs
    else none

/-! ## Round trip: per-entity reader lemmas -/

theorem map_singleton_flatten {α β : Type} (f : α → β) (l : List α) :
    (l.map (fun a => [f a])).flatten = l.map f := by
  induction l with
  | nil => rfl
  | cons a as ih => simp [ih]

theorem readTy_spec (t : Ty) (tail : List Nat) :
    readTy ([tyCode t] ++ tail) = some (t, tail) := by
  cases t <;> rfl

theorem readSignature_spec (s : FunctionSignature) (tail : List Nat) :
    readSignature (signatureEntryBytes s ++ tail) = some (s, tail) := by
  have hmany := readMany_spec readTy (fun t => [tyCode t]) s.argumentTypes
    (fun t _ tl => readTy_spec t tl)
  simp only [signatureEntryBytes, List.cons_append, readSignature,
    rtyOfCode_rtyCode, List.append_assoc, readVarint_varintB,
    ← map_singleton_flatten tyCode s.argumentTypes, hmany]

theorem readImport_spec (imp : FunctionImport)
    (hname : ∀ b ∈ imp.importName, b ≠ 0) (tail : List Nat) :
    readImport (importEntryBytes imp ++ tail) = some (imp, tail) := by
  have hmany := readMany_spec readVarint varintB imp.signatures
    (fun n _ tl => readVarint_varintB n tl)
  simp only [importEntryBytes, List.append_assoc, readImport,
    readCString_cstringB imp.importName hname, readVarint_varintB, hmany]

theorem readDeclaration_spec (d : FunctionDeclaration) (tail : List Nat) :
    readDeclaration (varintB d.sigIndex ++ tail) = some (d, tail) := by
  simp only [readDeclaration, readVarint_varintB]

theorem readTable_spec (t : FunctionPointerTable) (tail : List Nat) :
    readTable (tableBytes t ++ tail) = some (t, tail) := by
  have hmany := readMany_spec readVarint varintB t.elements
    (fun n _ tl => readVarint_varintB n tl)
  simp only [tableBytes, tableHeaderBytes, tableElementsBytes,
    List.append_assoc, readTable, readVarint_varintB, hmany]

theorem readPair_spec (p : List Nat × Nat) (hname : ∀ b ∈ p.1, b ≠ 0)
    (tail : List Nat) :
    readPair (cstringB p.1 ++ varintB p.2 ++ tail) = some (p, tail) := by
  simp only [List.append_assoc, readPair, readCString_cstringB p.1 hname,
    readVarint_varintB]

/-! Depth, length and well-formedness of body trees. -/

mutual
def ANode.depth : ANode → Nat
  | .mk _ ks => ks.depth + 1
termination_by n => sizeOf n

def ANodeList.depth : ANodeList → Nat
  | .nil => 0
  | .cons h t => max h.depth t.depth
termination_by l => sizeOf l
end

def ANodeList.length : ANodeList → Nat
  | .nil => 0
  | .cons _ t => t.length + 1

mutual
/-- Wire validity of a body tree: each opcode code is a byte and has exactly
its opcode-specific number of operand subtrees. -/
def ANode.wfB (ar : Nat → Nat) : ANode → Bool
  | .mk c ks => decide (c < 256) && decide (ar c = ks.length) && ks.wfB ar
termination_by n => sizeOf n

def ANodeList.wfB (ar : Nat → Nat) : ANodeList → Bool
  | .nil => true
  | .cons h t => h.wfB ar && ANodeList.wfB ar t
termination_by l => sizeOf l
end

mutual
theorem readNode_spec (ar : Nat → Nat) (n : ANode)
    (hwf : ANode.wfB ar n = true) (fuel : Nat) (hfuel : n.depth ≤ fuel)
    (tail : List Nat) :
    readNode ar fuel (n.bytes ++ tail) = some (n, tail) := by
  cases n with
  | mk c ks =>
    cases fuel with
    | zero =>
      simp [ANode.depth, ANodeList.depth] at hfuel
    | succ fuel =>
      simp only [ANode.wfB, Bool.and_eq_true, decide_eq_true_eq] at hwf
      have hlist := readNodeList_spec ar ks hwf.2 fuel (by
        have : ks.depth + 1 ≤ fuel + 1 := by
          simpa [ANode.depth] using hfuel
        omega) tail
      simp only [ANode.bytes, List.cons_append, readNode, hwf.1.2, hlist]
termination_by sizeOf n

theorem readNodeList_spec (ar : Nat → Nat) (l : ANodeList)
    (hwf : ANodeList.wfB ar l = true) (fuel : Nat) (hfuel : l.depth ≤ fuel)
    (tail : List Nat) :
    readNodeList ar fuel l.length (l.bytes ++ tail) = some (l, tail) := by
  cases l with
  | nil => simp [ANodeList.length, ANodeList.bytes, readNodeList]
  | cons h t =>
    simp only [ANodeList.wfB, Bool.and_eq_true] at hwf
    simp only [ANodeList.depth, max_le_iff] at hfuel
    have hh := readNode_spec ar h hwf.1 fuel hfuel.1 (t.bytes ++ tail)
    have ht := readNodeList_spec ar t hwf.2 fuel hfuel.2 tail
    simp only [ANodeList.length, ANodeList.bytes, List.append_assoc,
      readNodeList, hh, ht]
termination_by sizeOf l
end

mutual
theorem depth_le_bytes (n : ANode) : n.depth ≤ n.bytes.length := by
  cases n with
  | mk c ks =>
    have := depthList_le_bytes ks
    simp only [ANode.depth, ANode.bytes, List.length_cons]
    omega
termination_by sizeOf n

theorem depthList_le_bytes (l : ANodeList) : l.depth ≤ l.bytes.length := by
  cases l with
  | nil => simp [ANodeList.depth, ANodeList.bytes]
  | cons h t =>
    have h1 := depth_le_bytes h
    have h2 := depthList_le_bytes t
    simp only [ANodeList.depth, ANodeList.bytes, List.length_append]
    omega
termination_by sizeOf l
end

theorem readBody_spec (ar : Nat → Nat) (body : List ANode)
    (hwf : ∀ n ∈ body, ANode.wfB ar n = true) (tail : List Nat) :
    readBody ar (bodyBytes body ++ tail) = some (body, tail) := by
  have hmany := readMany_spec (fun b => readNode ar b.length b) ANode.bytes
    body (fun n hn tl => by
      apply readNode_spec ar n (hwf n hn)
      · calc n.depth ≤ n.bytes.length := depth_le_bytes n
          _ ≤ (n.bytes ++ tl).length := by simp
      )
  simp only [bodyBytes, List.append_assoc, readBody, readVarint_varintB, hmany]

theorem readFuncDef_spec (ar : Nat → Nat) (argTys : List Ty) (a b c : Nat)
    (body : List ANode) (hwf : ∀ n ∈ body, ANode.wfB ar n = true)
    (tail : List Nat) :
    readFuncDef ar argTys
        (localCountHeader a b c ++ (bodyBytes body ++ tail)) =
      some (⟨argTys, a, b, c, body⟩, tail) := by
  have hbody := readBody_spec ar body hwf tail
  by_cases hpack : b = 0 ∧ c = 0 ∧ a ≤ OpWithImm_ImmMax
  · obtain ⟨hb, hc, ha⟩ := hpack
    subst hb
    subst hc
    simp only [localCountHeader]
    rw [if_pos (by simp [ha])]
    simp only [packWithImm, VarTypeWithImm_OnlyI32, Nat.mul_zero,
      Nat.zero_mul, Nat.add_zero, List.cons_append, List.nil_append,
      readFuncDef]
    rw [if_pos (by omega)]
    have hsub : 128 + 0 * 32 + a - 128 = a := by omega
    simp [hsub, hbody]
  · rcases Nat.eq_zero_or_pos a with ha | ha <;>
      rcases Nat.eq_zero_or_pos b with hb | hb <;>
      rcases Nat.eq_zero_or_pos c with hc | hc
    · exact absurd ⟨hb, hc, by simp [ha, OpWithImm_ImmMax]⟩ hpack
    · subst ha
      subst hb
      simp only [localCountHeader]
      rw [if_neg (by simp [Nat.pos_iff_ne_zero.mp hc])]
      simp only [gt_iff_lt, lt_irrefl, if_false, if_pos hc, VarTypeFlag,
        List.nil_append]
      simp only [readFuncDef, List.cons_append, List.nil_append]
      norm_num
      simp [readVarint_varintB, List.append_assoc, hbody]
    · subst ha
      subst hc
      simp only [localCountHeader]
      rw [if_neg (by simp [Nat.pos_iff_ne_zero.mp hb])]
      simp only [gt_iff_lt, lt_irrefl, if_false, if_pos hb, VarTypeFlag,
        List.nil_append]
      simp only [readFuncDef, List.cons_append, List.nil_append]
      norm_num
      simp [readVarint_varintB, List.append_assoc, hbody]
    · subst ha
      simp only [localCountHeader]
      rw [if_neg (by simp [Nat.pos_iff_ne_zero.mp hb])]
      simp only [gt_iff_lt, lt_irrefl, if_false, if_pos hb, if_pos hc,
        VarTypeFlag, List.nil_append]
      simp only [readFuncDef, List.cons_append, List.nil_append]
      norm_num
      simp [readVarint_varintB, List.append_assoc, hbody]
    · subst hb
      subst hc
      have hagt : ¬ a ≤ OpWithImm_ImmMax := by
        intro hle
        exact hpack ⟨rfl, rfl, hle⟩
      simp only [localCountHeader]
      rw [if_neg (by simp [hagt])]
      simp only [gt_iff_lt, lt_irrefl, if_false, if_pos ha, VarTypeFlag,
        List.nil_append]
      simp only [readFuncDef, List.cons_append, List.nil_append]
      norm_num
      simp [readVarint_varintB, List.append_assoc, hbody]
    · subst hb
      simp only [localCountHeader]
      rw [if_neg (by simp [Nat.pos_iff_ne_zero.mp hc])]
      simp only [gt_iff_lt, lt_irrefl, if_false, if_pos ha, if_pos hc,
        VarTypeFlag, List.nil_append]
      simp only [readFuncDef, List.cons_append, List.nil_append]
      norm_num
      simp [readVarint_varintB, List.append_assoc, hbody]
    · subst hc
      simp only [localCountHeader]
      rw [if_neg (by simp [Nat.pos_iff_ne_zero.mp hb])]
      simp only [gt_iff_lt, lt_irrefl, if_false, if_pos ha, if_pos hb,
        VarTypeFlag, List.nil_append]
      simp only [readFuncDef, List.cons_append, List.nil_append]
      norm_num
      simp [readVarint_varintB, List.append_assoc, hbody]
    · simp only [localCountHeader]
      rw [if_neg (by simp [Nat.pos_iff_ne_zero.mp hb])]
      simp only [gt_iff_lt, if_pos ha, if_pos hb, if_pos hc, VarTypeFlag]
      simp only [readFuncDef, List.cons_append, List.nil_append]
      norm_num
      simp [readVarint_varintB, List.append_assoc, hbody]

/-! Local-variable counting over the constructor's layout. -/

theorem countLocals_append (v1 v2 : List LocalVariable) (t : Ty) :
    countLocals (v1 ++ v2) t = countLocals v1 t + countLocals v2 t := by
  simp [countLocals, List.filter_append]

theorem countLocals_args (argTys : List Ty) (t : Ty) :
    countLocals (argTys.map (fun ty => (⟨ty, true⟩ : LocalVariable))) t = 0 := by
  induction argTys with
  | nil => rfl
  | cons x xs ih => simp only [List.map_cons] at *; simp [countLocals, List.filter_cons, ← ih]

theorem countLocals_replicate (n : Nat) (ty t : Ty) :
    countLocals (List.replicate n (⟨ty, false⟩ : LocalVariable)) t =
      if ty = t then n else 0 := by
  induction n with
  | zero => simp [countLocals]
  | succ k ih =>
    by_cases h : ty = t <;>
      simp [countLocals, List.replicate_succ, List.filter_cons, h, ← ih]

theorem countLocals_variables (fd : WFuncDef) :
    countLocals fd.variables .i32 = fd.nI32vars ∧
    countLocals fd.variables .f32 = fd.nF32vars ∧
    countLocals fd.variables .f64 = fd.nF64vars := by
  refine ⟨?_, ?_, ?_⟩ <;>
    simp [WFuncDef.variables, mkVariables, countLocals_append,
      countLocals_args, countLocals_replicate]

theorem funcDefBytes_eq (fd : WFuncDef) :
    funcDefBytes fd =
      localCountHeader fd.nI32vars fd.nF32vars fd.nF64vars ++
        bodyBytes fd.body := by
  obtain ⟨h1, h2, h3⟩ := countLocals_variables fd
  simp [funcDefBytes, h1, h2, h3]

theorem map_getD_range {α : Type} (l : List α) (d : α) :
    (List.range l.length).map (fun i => l.getD i d) = l := by
  induction l with
  | nil => rfl
  | cons x xs ih =>
    have hc : ((fun i => (x :: xs).getD i d) ∘ Nat.succ) =
        (fun i => xs.getD i d) := by
      funext i
      rfl
    simp only [List.length_cons, List.range_succ_eq_map, List.map_cons,
      List.map_map, hc, List.getD_cons_zero]
    rw [ih]

theorem map_comp_getD_range {α β : Type} (l : List α) (d : α) (f : α → β) :
    (List.range l.length).map (fun i => f (l.getD i d)) = l.map f := by
  rw [show (fun i => f (l.getD i d)) = f ∘ (fun i => l.getD i d) from rfl,
    ← List.map_map, map_getD_range]

theorem functionDefsBytes_eq (asm : Assembly)
    (hlen : asm.definitions.length = asm.declarations.length) :
    functionDefsBytes asm = (asm.definitions.map funcDefBytes).flatten := by
  rw [functionDefsBytes, ← hlen, map_comp_getD_range]

theorem readFuncDefs_go (ar : Nat → Nat) (sigs : List FunctionSignature) :
    ∀ (decls : List FunctionDeclaration) (defs : List WFuncDef),
      List.Forall₂
        (fun (d : FunctionDeclaration) (fd : WFuncDef) =>
          fd.argumentTypes =
            (sigs.getD d.sigIndex ⟨.void, []⟩).argumentTypes) decls defs →
      (∀ fd ∈ defs, ∀ n ∈ fd.body, ANode.wfB ar n = true) →
      ∀ tail,
        readFuncDefs ar sigs decls ((defs.map funcDefBytes).flatten ++ tail) =
          some (defs, tail)
  | [], [], _, _, tail => by simp [readFuncDefs]
  | [], _ :: _, hf, _, _ => nomatch hf
  | _ :: _, [], hf, _, _ => nomatch hf
  | d :: ds, fd :: fds, hf, hwf, tail => by
    rcases hf with _ | ⟨hty, hf2⟩
    have hrec := readFuncDefs_go ar sigs ds fds hf2
      (fun x hx => hwf x (by simp [hx])) tail
    have h1 := readFuncDef_spec ar fd.argumentTypes fd.nI32vars fd.nF32vars
      fd.nF64vars fd.body (hwf fd (by simp))
      ((fds.map funcDefBytes).flatten ++ tail)
    simp only [List.map_cons, List.flatten_cons, List.append_assoc,
      readFuncDefs, funcDefBytes_eq, ← hty, h1, hrec]

/-! Rebuilding the global-variable pool from the six scan counts. -/

theorem takeRun_le (t : Ty) (vars : List GlobalVariable) :
    takeRun t vars ≤ vars.length := by
  induction vars with
  | nil => simp [takeRun]
  | cons v rest ih =>
    by_cases h : v.type = t <;> (simp [takeRun, h]; try omega)

theorem takeRun_types (t : Ty) (vars : List GlobalVariable) :
    ∀ v ∈ vars.take (takeRun t vars), v.type = t := by
  induction vars with
  | nil => simp
  | cons v rest ih =>
    by_cases h : v.type = t
    · simp only [takeRun, h, if_pos]
      intro w hw
      rw [List.take_succ_cons] at hw
      rcases List.mem_cons.mp hw with rfl | hw2
      · exact h
      · exact ih w hw2
    · simp [takeRun, h]

theorem mem_take_mono {α : Type} (l : List α) {m n : Nat} (h : m ≤ n)
    {a : α} (ha : a ∈ l.take m) : a ∈ l.take n := by
  have he : l.take m = (l.take n).take m := by
    rw [List.take_take, Nat.min_eq_left h]
  exact List.mem_of_mem_take (he ▸ ha)

theorem mem_take_of_mem_drop_take {α : Type} :
    ∀ (l : List α) (s k : Nat) (v : α),
      v ∈ (l.drop s).take k → v ∈ l.take (s + k)
  | l, 0, k, v, hv => by simpa using hv
  | [], _ + 1, _, _, hv => by simp at hv
  | x :: xs, s + 1, k, v, hv => by
    have h1 := mem_take_of_mem_drop_take xs s k v (by simpa using hv)
    have h2 : (x :: xs).take (s + 1 + k) = x :: xs.take (s + k) := by
      rw [show s + 1 + k = (s + k) + 1 by omega]
      rfl
    rw [h2]
    exact List.mem_cons.mpr (Or.inr h1)

theorem zipWith_types_names (l : List GlobalVariable)
    (hs : ∀ v ∈ l, v.importName.isSome) :
    List.zipWith (fun t nm => (⟨t, some nm⟩ : GlobalVariable))
      (l.map (fun v => v.type)) (l.map (fun v => v.importName.getD [])) =
      l := by
  induction l with
  | nil => rfl
  | cons v rest ih =>
    have h1 : v.importName.isSome := hs v (by simp)
    have hv : (⟨v.type, some (v.importName.getD [])⟩ : GlobalVariable) = v := by
      cases v with
      | mk ty nm =>
        cases nm with
        | none => simp at h1
        | some x => rfl
    simp [ih (fun w hw => hs w (by simp [hw])), hv]

/-- A scan run whose entries are additionally known to be zero-initialized is
literally a replicate of the bare typed entry. -/
theorem run_eq_replicate (vars : List GlobalVariable) (s : Nat) (t : Ty)
    (hmid : s + takeRun t (vars.drop s) ≤ gvMid vars)
    (hzero : ∀ v ∈ vars.take (gvMid vars), v.importName = none) :
    (vars.drop s).take (takeRun t (vars.drop s)) =
      List.replicate (takeRun t (vars.drop s)) ⟨t, none⟩ := by
  refine List.eq_replicate_iff.mpr ⟨?_, ?_⟩
  · rw [List.length_take, Nat.min_eq_left (takeRun_le t (vars.drop s))]
  · intro v hv
    have hty := takeRun_types t (vars.drop s) v hv
    have hnn : v.importName = none :=
      hzero v (mem_take_mono vars hmid (mem_take_of_mem_drop_take vars s _ v hv))
    cases v with
    | mk ty nm =>
      simp only at hty hnn
      rw [hty, hnn]

/-- A scan run over the import half maps to a type replicate. -/
theorem run_types_replicate (vars : List GlobalVariable) (s : Nat) (t : Ty) :
    ((vars.drop s).take (takeRun t (vars.drop s))).map
        (fun v => v.type) =
      List.replicate (takeRun t (vars.drop s)) t := by
  refine List.eq_replicate_iff.mpr ⟨?_, ?_⟩
  · rw [List.length_map, List.length_take,
      Nat.min_eq_left (takeRun_le t (vars.drop s))]
  · intro b hb
    rcases List.mem_map.mp hb with ⟨v, hv, rfl⟩
    exact takeRun_types t (vars.drop s) v hv

theorem rebuildGlobals_eq (vars : List GlobalVariable)
    (htot : gvTotal vars = vars.length)
    (hzero : ∀ v ∈ vars.take (gvMid vars), v.importName = none)
    (himp : ∀ v ∈ vars.drop (gvMid vars), v.importName.isSome) :
    rebuildGlobals (gvN1 vars) (gvN2 vars) (gvN3 vars) (gvN4 vars)
      (gvN5 vars) (gvN6 vars)
      ((vars.drop (gvMid vars)).map (fun v => v.importName.getD [])) =
      vars := by
  have htot2 : gvMid vars + gvN4 vars + gvN5 vars + gvN6 vars = vars.length := by
    simpa [gvTotal] using htot
  have h1 : vars.take (gvN1 vars) = List.replicate (gvN1 vars) ⟨.i32, none⟩ := by
    have := run_eq_replicate vars 0 .i32 (by simp [gvMid, gvN1]; try omega) hzero
    simpa [gvN1] using this
  have h2 : (vars.drop (gvN1 vars)).take (gvN2 vars) =
      List.replicate (gvN2 vars) ⟨.f32, none⟩ := by
    have := run_eq_replicate vars (gvN1 vars) .f32 (by simp [gvMid, gvN2]; try omega) hzero
    simpa [gvN2] using this
  have h3 : (vars.drop (gvN1 vars + gvN2 vars)).take (gvN3 vars) =
      List.replicate (gvN3 vars) ⟨.f64, none⟩ := by
    have := run_eq_replicate vars (gvN1 vars + gvN2 vars) .f64
      (by simp [gvMid, gvN3]; try omega) hzero
    simpa [gvN3] using this
  have h4 : ((vars.drop (gvMid vars)).take (gvN4 vars)).map (fun v => v.type) =
      List.replicate (gvN4 vars) Ty.i32 := by
    have := run_types_replicate vars (gvMid vars) .i32
    simpa [gvN4] using this
  have h5 : ((vars.drop (gvMid vars + gvN4 vars)).take (gvN5 vars)).map
        (fun v => v.type) =
      List.replicate (gvN5 vars) Ty.f32 := by
    have := run_types_replicate vars (gvMid vars + gvN4 vars) .f32
    simpa [gvN5] using this
  have h6 : ((vars.drop (gvMid vars + gvN4 vars + gvN5 vars)).take
        (gvN6 vars)).map (fun v => v.type) =
      List.replicate (gvN6 vars) Ty.f64 := by
    have := run_types_replicate vars (gvMid vars + gvN4 vars + gvN5 vars) .f64
    simpa [gvN6] using this
  have hnil : vars.drop (gvMid vars + gvN4 vars + gvN5 vars + gvN6 vars) = [] :=
    List.drop_eq_nil_of_le (by omega)
  have e6 : (vars.drop (gvMid vars + gvN4 vars + gvN5 vars)).take (gvN6 vars) =
      vars.drop (gvMid vars + gvN4 vars + gvN5 vars) := by
    have hd : vars.drop (gvMid vars + gvN4 vars + gvN5 vars + gvN6 vars) =
        (vars.drop (gvMid vars + gvN4 vars + gvN5 vars)).drop (gvN6 vars) := by
      rw [List.drop_drop]
      try congr 1
      try omega
    have := List.take_append_drop (gvN6 vars)
      (vars.drop (gvMid vars + gvN4 vars + gvN5 vars))
    rw [← hd, hnil, List.append_nil] at this
    exact this
  have e5 : (vars.drop (gvMid vars + gvN4 vars)).take (gvN5 vars) ++
        vars.drop (gvMid vars + gvN4 vars + gvN5 vars) =
      vars.drop (gvMid vars + gvN4 vars) := by
    have hd : vars.drop (gvMid vars + gvN4 vars + gvN5 vars) =
        (vars.drop (gvMid vars + gvN4 vars)).drop (gvN5 vars) := by
      rw [List.drop_drop]
      try congr 1
      try omega
    rw [hd, List.take_append_drop]
  have e4 : (vars.drop (gvMid vars)).take (gvN4 vars) ++
        vars.drop (gvMid vars + gvN4 vars) =
      vars.drop (gvMid vars) := by
    have hd : vars.drop (gvMid vars + gvN4 vars) =
        (vars.drop (gvMid vars)).drop (gvN4 vars) := by
      rw [List.drop_drop]
      try congr 1
      try omega
    rw [hd, List.take_append_drop]
  have hmap : (vars.drop (gvMid vars)).map (fun v => v.type) =
      List.replicate (gvN4 vars) Ty.i32 ++
        (List.replicate (gvN5 vars) Ty.f32 ++
          List.replicate (gvN6 vars) Ty.f64) := by
    calc (vars.drop (gvMid vars)).map (fun v => v.type)
        = ((vars.drop (gvMid vars)).take (gvN4 vars) ++
            ((vars.drop (gvMid vars + gvN4 vars)).take (gvN5 vars) ++
              (vars.drop (gvMid vars + gvN4 vars)).drop (gvN5 vars))).map
            (fun v => v.type) := by
          rw [List.take_append_drop, e4]
      _ = List.replicate (gvN4 vars) Ty.i32 ++
            (List.replicate (gvN5 vars) Ty.f32 ++
              List.replicate (gvN6 vars) Ty.f64) := by
          have hd5 : (vars.drop (gvMid vars + gvN4 vars)).drop (gvN5 vars) =
              vars.drop (gvMid vars + gvN4 vars + gvN5 vars) := by
            rw [List.drop_drop]
            try congr 1
            try omega
          rw [hd5, ← e6]
          simp only [List.map_append, h4, h5, h6]
  have hzip : List.zipWith (fun t nm => (⟨t, some nm⟩ : GlobalVariable))
      (List.replicate (gvN4 vars) Ty.i32 ++
        (List.replicate (gvN5 vars) Ty.f32 ++
          List.replicate (gvN6 vars) Ty.f64))
      ((vars.drop (gvMid vars)).map (fun v => v.importName.getD [])) =
      vars.drop (gvMid vars) := by
    rw [← hmap]
    exact zipWith_types_names (vars.drop (gvMid vars)) himp
  have e3 : (vars.drop (gvN1 vars + gvN2 vars)).take (gvN3 vars) ++
        vars.drop (gvMid vars) = vars.drop (gvN1 vars + gvN2 vars) := by
    have hd : vars.drop (gvMid vars) =
        (vars.drop (gvN1 vars + gvN2 vars)).drop (gvN3 vars) := by
      rw [List.drop_drop]
      try congr 1
      try simp [gvMid]
      try omega
    rw [hd, List.take_append_drop]
  have e2 : (vars.drop (gvN1 vars)).take (gvN2 vars) ++
        vars.drop (gvN1 vars + gvN2 vars) = vars.drop (gvN1 vars) := by
    have hd : vars.drop (gvN1 vars + gvN2 vars) =
        (vars.drop (gvN1 vars)).drop (gvN2 vars) := by
      rw [List.drop_drop]
      try congr 1
      try omega
    rw [hd, List.take_append_drop]
  show List.replicate (gvN1 vars) (⟨.i32, none⟩ : GlobalVariable) ++
      List.replicate (gvN2 vars) (⟨.f32, none⟩ : GlobalVariable) ++
      List.replicate (gvN3 vars) (⟨.f64, none⟩ : GlobalVariable) ++
      List.zipWith (fun t nm => (⟨t, some nm⟩ : GlobalVariable))
        (List.replicate (gvN4 vars) Ty.i32 ++ List.replicate (gvN5 vars) Ty.f32 ++
          List.replicate (gvN6 vars) Ty.f64)
        ((vars.drop (gvMid vars)).map (fun v => v.importName.getD [])) = vars
  rw [List.append_assoc, List.append_assoc, List.append_assoc, hzip,
    ← h1, ← h2, ← h3, e3, e2, List.take_append_drop]

theorem readExport_spec (e : ExportDesc) (hne : e ≠ .illegalE)
    (hnames : ∀ ps, e = .recordE ps → ∀ p ∈ ps, ∀ b ∈ p.1, b ≠ 0)
    (tail : List Nat) :
    readExport (exportBytes e ++ tail) = some (e, tail) := by
  cases e with
  | defaultE i =>
    simp [exportBytes, readExport, ExportFormat_Default, ExportFormat_Record,
      readVarint_varintB]
  | recordE ps =>
    have hmany := readMany_spec readPair
      (fun p => cstringB p.1 ++ varintB p.2) ps
      (fun p hp tl => readPair_spec p (hnames ps rfl p hp) tl) tail
    simp [exportBytes, readExport, ExportFormat_Default, ExportFormat_Record,
      readVarint_varintB, List.append_assoc, hmany]
  | illegalE => exact absurd rfl hne

/-! ## The full round trip -/

/-- The well-formedness conditions under which the wire image decodes back to
the identical assembly: sizes within their fixed-width fields, NUL-free
names, a global pool that is exactly the grouped zero-init/import pattern
the scan expects, one definition per declaration with the declaration's own
argument types, bodies whose opcode arities agree with the decoder's arity
map, and a legal export descriptor. -/
def RTWf (ar : Nat → Nat) (asm : Assembly) : Prop :=
  asm.precomputedSize < 2 ^ 32 ∧
  (∀ v ∈ asm.f32Consts, v < 2 ^ 32) ∧
  (∀ v ∈ asm.f64Consts, v < 2 ^ 64) ∧
  (∀ imp ∈ asm.imports, ∀ b ∈ imp.importName, b ≠ 0) ∧
  gvTotal asm.globalVariables = asm.globalVariables.length ∧
  (∀ v ∈ asm.globalVariables.take (gvMid asm.globalVariables),
    v.importName = none) ∧
  (∀ v ∈ asm.globalVariables.drop (gvMid asm.globalVariables),
    v.importName.isSome) ∧
  (∀ v ∈ asm.globalVariables, ∀ b ∈ v.importName.getD [], b ≠ 0) ∧
  asm.definitions.length = asm.declarations.length ∧
  List.Forall₂ (fun (d : FunctionDeclaration) (fd : WFuncDef) =>
    fd.argumentTypes =
      (asm.signatures.getD d.sigIndex ⟨.void, []⟩).argumentTypes)
    asm.declarations asm.definitions ∧
  (∀ fd ∈ asm.definitions, ∀ n ∈ fd.body, ANode.wfB ar n = true) ∧
  asm.exportDesc ≠ .illegalE ∧
  (∀ ps, asm.exportDesc = .recordE ps → ∀ p ∈ ps, ∀ b ∈ p.1, b ≠ 0)

theorem decode_encode (ar : Nat → Nat) (asm : Assembly) (h : RTWf ar asm) :
    decodeAssembly ar (encodeAssembly asm) = some asm := by
  obtain ⟨hsz, hf32, hf64, himpn, htot, hzero, himp, hgn, hlen, hf2, hwf,
    hexp, hrec⟩ := h
  have hmagic : ∀ T, readUInt32LE (uint32LE MagicNumber ++ T) =
      some (MagicNumber, T) :=
    fun T => readUInt32LE_uint32LE MagicNumber (by norm_num [MagicNumber]) T
  have hszr : ∀ T, readUInt32LE (uint32LE asm.precomputedSize ++ T) =
      some (asm.precomputedSize, T) :=
    fun T => readUInt32LE_uint32LE asm.precomputedSize hsz T
  have hi32m : ∀ T, readMany readVarint asm.i32Consts.length
      ((asm.i32Consts.map varintB).flatten ++ T) = some (asm.i32Consts, T) :=
    fun T => readMany_spec readVarint varintB asm.i32Consts
      (fun n _ tl => readVarint_varintB n tl) T
  have hf32m : ∀ T, readMany readUInt32LE asm.f32Consts.length
      ((asm.f32Consts.map uint32LE).flatten ++ T) = some (asm.f32Consts, T) :=
    fun T => readMany_spec readUInt32LE uint32LE asm.f32Consts
      (fun v hv tl => readUInt32LE_uint32LE v (hf32 v hv) tl) T
  have hf64m : ∀ T, readMany readUInt64LE asm.f64Consts.length
      ((asm.f64Consts.map uint64LE).flatten ++ T) = some (asm.f64Consts, T) :=
    fun T => readMany_spec readUInt64LE uint64LE asm.f64Consts
      (fun v hv tl => readUInt64LE_uint64LE v (hf64 v hv) tl) T
  have hsigm : ∀ T, readMany readSignature asm.signatures.length
      ((asm.signatures.map signatureEntryBytes).flatten ++ T) =
      some (asm.signatures, T) :=
    fun T => readMany_spec readSignature signatureEntryBytes asm.signatures
      (fun s _ tl => readSignature_spec s tl) T
  have himpm : ∀ T, readMany readImport asm.imports.length
      ((asm.imports.map importEntryBytes).flatten ++ T) =
      some (asm.imports, T) :=
    fun T => readMany_spec readImport importEntryBytes asm.imports
      (fun imp hi tl => readImport_spec imp (himpn imp hi) tl) T
  have hnamesm : ∀ T, readMany readCString
      (gvN4 asm.globalVariables + gvN5 asm.globalVariables +
        gvN6 asm.globalVariables)
      ((((asm.globalVariables.drop (gvMid asm.globalVariables)).map
          (fun v => v.importName.getD [])).map cstringB).flatten ++ T) =
      some ((asm.globalVariables.drop (gvMid asm.globalVariables)).map
        (fun v => v.importName.getD []), T) := by
    have hct : gvN4 asm.globalVariables + gvN5 asm.globalVariables +
        gvN6 asm.globalVariables =
        ((asm.globalVariables.drop (gvMid asm.globalVariables)).map
          (fun v => v.importName.getD [])).length := by
      simp only [gvTotal] at htot
      simp only [List.length_map, List.length_drop]
      omega
    intro T
    rw [hct]
    refine readMany_spec readCString cstringB _ (fun nm hnm tl => ?_) T
    refine readCString_cstringB nm (fun b hb => ?_) tl
    rcases List.mem_map.mp hnm with ⟨v, hv, hveq⟩
    exact hgn v (List.drop_subset _ _ hv) b (hveq ▸ hb)
  have hdeclm : ∀ T, readMany readDeclaration asm.declarations.length
      ((asm.declarations.map (fun d => varintB d.sigIndex)).flatten ++ T) =
      some (asm.declarations, T) :=
    fun T => readMany_spec readDeclaration (fun d => varintB d.sigIndex)
      asm.declarations (fun d _ tl => readDeclaration_spec d tl) T
  have htabm : ∀ T, readMany readTable asm.tables.length
      ((asm.tables.map tableBytes).flatten ++ T) = some (asm.tables, T) :=
    fun T => readMany_spec readTable tableBytes asm.tables
      (fun t _ tl => readTable_spec t tl) T
  have hdefsm : ∀ T, readFuncDefs ar asm.signatures asm.declarations
      ((asm.definitions.map funcDefBytes).flatten ++ T) =
      some (asm.definitions, T) :=
    readFuncDefs_go ar asm.signatures asm.declarations asm.definitions hf2 hwf
  have hexpm : readExport (exportBytes asm.exportDesc) =
      some (asm.exportDesc, []) := by
    have := readExport_spec asm.exportDesc hexp hrec []
    simpa using this
  have hreb := rebuildGlobals_eq asm.globalVariables htot hzero himp
  have hnb : globalsNamesBytes asm =
      (((asm.globalVariables.drop (gvMid asm.globalVariables)).map
        (fun v => v.importName.getD [])).map cstringB).flatten := by
    rw [List.map_map]
    rfl
  simp only [encodeAssembly, preExport, preDefinitions, preTables,
    preTablesCount, preDeclarations, preDeclarationsCount, preGlobals,
    preGlobalsCount, preImports, preImportsCount, preSignatures,
    preSignaturesCount, preConstantsF64, preConstantsF32, preConstantsI32,
    preConstantsCount, headerBytes, constantsCountBytes, i32ConstsBytes,
    f32ConstsBytes, f64ConstsBytes, signaturesBytes, importsCountBytes,
    importsBytes, globalsCountBytes, declarationsBytes, tablesBytes,
    functionDefsBytes_eq asm hlen, hnb, List.append_assoc]
  simp only [decodeAssembly, hmagic, hszr, readVarint_varintB, hi32m, hf32m,
    hf64m, eq_self_iff_true, if_true, decodeAssemblyTail, hsigm, himpm,
    hnamesm, hreb, decodeAssemblyTail2, hdeclm, htabm, hdefsm,
    List.append_nil, hexpm]

/-! ## Supporting lemmas for the claims -/

theorem mkVariables_get (argTys : List Ty) (a b c k : Nat)
    (h : k < (mkVariables argTys a b c).length) :
    (mkVariables argTys a b c).get ⟨k, h⟩ =
      if hk : k < argTys.length then ⟨argTys.get ⟨k, hk⟩, true⟩
      else if k < argTys.length + a then ⟨.i32, false⟩
      else if k < argTys.length + a + b then ⟨.f32, false⟩
      else ⟨.f64, false⟩ := by
  have hlen := mkVariables_length argTys a b c
  simp only [List.get_eq_getElem]
  by_cases hk : k < argTys.length
  · rw [dif_pos hk]
    simp only [mkVariables]
    rw [List.getElem_append_left (by simp; omega),
      List.getElem_append_left (by simp; omega),
      List.getElem_append_left (by simp; omega), List.getElem_map]
  · rw [dif_neg hk]
    by_cases h2 : k < argTys.length + a
    · rw [if_pos h2]
      simp only [mkVariables]
      rw [List.getElem_append_left (by simp; omega),
        List.getElem_append_left (by simp; omega),
        List.getElem_append_right (by simp; omega), List.getElem_replicate]
    · rw [if_neg h2]
      by_cases h3 : k < argTys.length + a + b
      · rw [if_pos h3]
        simp only [mkVariables]
        rw [List.getElem_append_left (by simp; omega),
          List.getElem_append_right (by simp; omega), List.getElem_replicate]
      · rw [if_neg h3]
        simp only [mkVariables]
        rw [List.getElem_append_right (by simp; omega), List.getElem_replicate]

/-- **C4**: `getVariable(k)` on a definition with `a = argTys.length`
arguments and `i`/`f`/`d` typed locals returns an argument variable for
`k < a`, an I32 local for `a ≤ k < a+i`, an F32 local for
`a+i ≤ k < a+i+f`, an F64 local for `a+i+f ≤ k < a+i+f+d`, and a range
error for `k ≥ a+i+f+d`. -/
theorem claim_C4 (argTys : List Ty) (a b c : Nat) (bo bl : Option Int)
    (k : Nat) :
    (∀ hk : k < argTys.length,
      (mkFunctionDefinition argTys a b c bo bl).getVariable k =
        .ok ⟨argTys.get ⟨k, hk⟩, true⟩) ∧
    (argTys.length ≤ k → k < argTys.length + a →
      (mkFunctionDefinition argTys a b c bo bl).getVariable k =
        .ok ⟨.i32, false⟩) ∧
    (argTys.length + a ≤ k → k < argTys.length + a + b →
      (mkFunctionDefinition argTys a b c bo bl).getVariable k =
        .ok ⟨.f32, false⟩) ∧
    (argTys.length + a + b ≤ k → k < argTys.length + a + b + c →
      (mkFunctionDefinition argTys a b c bo bl).getVariable k =
        .ok ⟨.f64, false⟩) ∧
    (argTys.length + a + b + c ≤ k →
      (mkFunctionDefinition argTys a b c bo bl).getVariable k =
        .error "index out of range") := by
  have hvars : (mkFunctionDefinition argTys a b c bo bl).variables =
      mkVariables argTys a b c := rfl
  have hlen := mkVariables_length argTys a b c
  refine ⟨?_, ?_, ?_, ?_, ?_⟩
  · intro hk
    rw [FunctionDefinition.getVariable, hvars,
      dif_pos (show k < (mkVariables argTys a b c).length by omega)]
    rw [mkVariables_get, dif_pos hk]
  · intro h1 h2
    rw [FunctionDefinition.getVariable, hvars,
      dif_pos (show k < (mkVariables argTys a b c).length by omega)]
    rw [mkVariables_get, dif_neg (by omega), if_pos h2]
  · intro h1 h2
    rw [FunctionDefinition.getVariable, hvars,
      dif_pos (show k < (mkVariables argTys a b c).length by omega)]
    rw [mkVariables_get, dif_neg (by omega), if_neg (by omega), if_pos h2]
  · intro h1 h2
    rw [FunctionDefinition.getVariable, hvars,
      dif_pos (show k < (mkVariables argTys a b c).length by omega)]
    rw [mkVariables_get, dif_neg (by omega), if_neg (by omega),
      if_neg (by omega)]
  · intro h1
    rw [FunctionDefinition.getVariable, hvars,
      dif_neg (show ¬ k < (mkVariables argTys a b c).length by omega)]

/-- Witness for C4: a function with one F64 argument and one local of each
type; every branch of the characterization is exercised at a concrete
index. -/
theorem claim_C4_witness :
    (0 < ([Ty.f64] : List Ty).length ∧
      (mkFunctionDefinition [Ty.f64] 1 1 1 none none).getVariable 0 =
        .ok ⟨.f64, true⟩) ∧
    (mkFunctionDefinition [Ty.f64] 1 1 1 none none).getVariable 1 =
      .ok ⟨.i32, false⟩ ∧
    (mkFunctionDefinition [Ty.f64] 1 1 1 none none).getVariable 2 =
      .ok ⟨.f32, false⟩ ∧
    (mkFunctionDefinition [Ty.f64] 1 1 1 none none).getVariable 3 =
      .ok ⟨.f64, false⟩ ∧
    (mkFunctionDefinition [Ty.f64] 1 1 1 none none).getVariable 4 =
      .error "index out of range" :=
  ⟨⟨by decide, (claim_C4 [Ty.f64] 1 1 1 none none 0).1 (by decide)⟩,
    (claim_C4 [Ty.f64] 1 1 1 none none 1).2.1 (by decide) (by decide),
    (claim_C4 [Ty.f64] 1 1 1 none none 2).2.2.1 (by decide) (by decide),
    (claim_C4 [Ty.f64] 1 1 1 none none 3).2.2.2.1 (by decide) (by decide),
    (claim_C4 [Ty.f64] 1 1 1 none none 4).2.2.2.2 (by decide)⟩

/-- **C8** (amended): the full case analysis of `StoreBehavior.validate`.
The source has four distinct failure modes, not three: besides the operand
count, the heap-index constraint and the value-type constraint, an operand 1
that is not an expression at all fails with its own "must be an expression"
error; the claim's "succeeds otherwise" holds only once operand 1 is known
to be an expression. -/
theorem claim_C8 (heapType : Ty) (operands : List VOperand) :
    (operands.length ≠ 2 →
      storeValidate heapType operands = .error "Store requires exactly 2 operands") ∧
    (∀ index value, operands = [index, value] →
      match index with
      | .expr .i32 =>
        (match value with
         | .expr vty =>
           (vty = heapType → storeValidate heapType operands = .ok ()) ∧
           (vty ≠ heapType → storeValidate heapType operands =
             .error ("Store value (operand 1) expression must be " ++
               RTypeNames heapType))
         | _ => storeValidate heapType operands =
             .error "Store value (operand 1) must be an expression")
      | _ => storeValidate heapType operands =
          .error "Store heap index (operand 0) must be an I32 expression") := by
  constructor
  · intro hne
    match operands, hne with
    | [], _ => rfl
    | [x], _ => rfl
    | x :: y :: z :: t, _ => rfl
    | [x, y], hne => exact absurd rfl hne
  · rintro index value rfl
    match index with
    | .expr .i32 =>
      match value with
      | .expr vty =>
        constructor
        · intro hvt
          simp [storeValidate, hvt]
        · intro hvt
          simp [storeValidate, hvt]
      | .stmt => rfl
      | .imm v => rfl
    | .expr .f32 => rfl
    | .expr .f64 => rfl
    | .stmt => rfl
    | .imm v => rfl

/-- Witness for C8: the success case and the two typed failure cases at
concrete operands. -/
theorem claim_C8_witness :
    ([VOperand.expr .i32, VOperand.expr .f64].length = 2 ∧
      storeValidate .f64 [.expr .i32, .expr .f64] = .ok ()) ∧
    storeValidate .f64 [.expr .i32, .expr .i32] =
      .error ("Store value (operand 1) expression must be " ++
        RTypeNames .f64) ∧
    storeValidate .f64 [.stmt, .expr .f64] =
      .error "Store heap index (operand 0) must be an I32 expression" ∧
    storeValidate .f64 [.expr .i32] = .error "Store requires exactly 2 operands" := by
  refine ⟨⟨rfl, ?_⟩, ?_, ?_, ?_⟩
  · exact ((claim_C8 .f64 [.expr .i32, .expr .f64]).2 (.expr .i32)
      (.expr .f64) rfl).1 rfl
  · exact ((claim_C8 .f64 [.expr .i32, .expr .i32]).2 (.expr .i32)
      (.expr .i32) rfl).2 (by decide)
  · exact (claim_C8 .f64 [.stmt, .expr .f64]).2 .stmt (.expr .f64) rfl
  · exact (claim_C8 .f64 [.expr .i32]).1 (by decide)

/-- Counterexample for C8 as frozen: with operands `[I32 expression,
plain statement]` there are exactly 2 operands, operand 0 is an I32
expression, and operand 1 is not an expression whose result type differs
from the heap type (it is not an expression at all), so the claim's listed
failure conditions are all absent and it asserts success — but validation
fails with the fourth, unlisted error. -/
theorem claim_C8_counterexample :
    [VOperand.expr .i32, VOperand.stmt].length = 2 ∧
    (∀ vty : Ty, VOperand.stmt ≠ .expr vty) ∧
    storeValidate .i32 [.expr .i32, .stmt] =
      .error "Store value (operand 1) must be an expression" ∧
    storeValidate .i32 [.expr .i32, .stmt] ≠ .ok () := by
  refine ⟨rfl, ?_, rfl, by simp [storeValidate]⟩
  intro vty h
  cases h

/-- **C10**: the constructor's `byteOffset || -1` / `byteLength || -1`
coercion stores the sentinel `-1` for a zero or omitted offset or length,
and keeps any non-zero value. -/
theorem claim_C10 (argTys : List Ty) (a b c : Nat) (bo bl : Option Int) :
    (mkFunctionDefinition argTys a b c (some 0) bl).byteOffset = -1 ∧
    (mkFunctionDefinition argTys a b c none bl).byteOffset = -1 ∧
    (mkFunctionDefinition argTys a b c bo (some 0)).byteLength = -1 ∧
    (mkFunctionDefinition argTys a b c bo none).byteLength = -1 ∧
    (∀ v : Int, v ≠ 0 →
      (mkFunctionDefinition argTys a b c (some v) bl).byteOffset = v ∧
      (mkFunctionDefinition argTys a b c bo (some v)).byteLength = v) := by
  refine ⟨rfl, rfl, rfl, rfl, fun v hv => ⟨?_, ?_⟩⟩ <;>
    simp [mkFunctionDefinition, coerceByteMeta, hv]

/-- Witness for C10 at concrete arguments: offset 0 and a missing length
are both stored as `-1`; a non-zero offset 7 is kept. -/
theorem claim_C10_witness :
    (mkFunctionDefinition [] 0 0 0 (some 0) none).byteOffset = -1 ∧
    (mkFunctionDefinition [] 0 0 0 (some 0) none).byteLength = -1 ∧
    ((7 : Int) ≠ 0 ∧
      (mkFunctionDefinition [] 0 0 0 (some 7) none).byteOffset = 7) :=
  ⟨(claim_C10 [] 0 0 0 (some 0) none).1,
    (claim_C10 [] 0 0 0 (some 0) none).2.2.2.1,
    by decide,
    ((claim_C10 [] 0 0 0 (some 7) none).2.2.2.2 7 (by decide)).1⟩

/-- **C6**: the local-count header of `_writeFunctionDefinitions`, computed
from the definition's counted non-argument locals: with zero F32 and F64
locals and an I32 count within the packed-immediate maximum it is the single
packed byte; with at least one F32 or F64 local it is the type-presence
flags byte followed by one varint count per present type. -/
theorem claim_C6 (fd : WFuncDef) :
    (fd.nF32vars = 0 → fd.nF64vars = 0 → fd.nI32vars ≤ OpWithImm_ImmMax →
      localCountHeader (countLocals fd.variables .i32)
          (countLocals fd.variables .f32) (countLocals fd.variables .f64) =
        [packWithImm VarTypeWithImm_OnlyI32 fd.nI32vars]) ∧
    (0 < fd.nF32vars ∨ 0 < fd.nF64vars →
      localCountHeader (countLocals fd.variables .i32)
          (countLocals fd.variables .f32) (countLocals fd.variables .f64) =
        ((if 0 < fd.nI32vars then VarTypeFlag .i32 else 0) +
         (if 0 < fd.nF32vars then VarTypeFlag .f32 else 0) +
         (if 0 < fd.nF64vars then VarTypeFlag .f64 else 0)) ::
        ((if 0 < fd.nI32vars then varintB fd.nI32vars else []) ++
         (if 0 < fd.nF32vars then varintB fd.nF32vars else []) ++
         (if 0 < fd.nF64vars then varintB fd.nF64vars else []))) := by
  obtain ⟨h1, h2, h3⟩ := countLocals_variables fd
  rw [h1, h2, h3]
  constructor
  · intro hb hc ha
    rw [localCountHeader, if_pos (by simp [hb, hc, ha])]
  · intro hor
    rw [localCountHeader, if_neg (by
      simp only [Bool.and_eq_true, decide_eq_true_eq, not_and]
      intro hb hc
      omega)]

/-- Witness for C6: exactly 3 I32 locals and no F32/F64 locals give the
single packed byte; adding one F32 local forces the flags form
`flags :: varint 3 ++ varint 1`. -/
theorem claim_C6_witness :
    ((⟨[], 3, 0, 0, []⟩ : WFuncDef).nF32vars = 0 ∧
      (3 : Nat) ≤ OpWithImm_ImmMax ∧
      localCountHeader
          (countLocals (⟨[], 3, 0, 0, []⟩ : WFuncDef).variables .i32)
          (countLocals (⟨[], 3, 0, 0, []⟩ : WFuncDef).variables .f32)
          (countLocals (⟨[], 3, 0, 0, []⟩ : WFuncDef).variables .f64) =
        [packWithImm VarTypeWithImm_OnlyI32 3]) ∧
    (0 < (⟨[], 3, 1, 0, []⟩ : WFuncDef).nF32vars ∧
      localCountHeader
          (countLocals (⟨[], 3, 1, 0, []⟩ : WFuncDef).variables .i32)
          (countLocals (⟨[], 3, 1, 0, []⟩ : WFuncDef).variables .f32)
          (countLocals (⟨[], 3, 1, 0, []⟩ : WFuncDef).variables .f64) =
        (1 + 2 + 0) :: (varintB 3 ++ varintB 1 ++ [])) :=
  ⟨⟨rfl, by decide,
    (claim_C6 ⟨[], 3, 0, 0, []⟩).1 rfl rfl (by decide)⟩,
    ⟨by decide,
    ((claim_C6 ⟨[], 3, 1, 0, []⟩).2 (Or.inl (by decide))).trans (by rfl)⟩⟩

/-- `_writeExport` with an export of an unknown shape throws the fatal
assertion without staging or committing anything. -/
theorem writeExportM_illegal (asm : Assembly) (ws : WS)
    (h : asm.exportDesc = .illegalE) :
    writeExportM asm ws = (ws, .error (.fatal "illegal export")) := by
  simp [writeExportM, h, WM.throwErr]

/-- **C7**: the EXPORT step: a Default export commits the discriminator
byte and the varint function index, a Record export commits the
discriminator, the varint pair count and the NUL-terminated-name/varint
pairs in stored order, any other shape raises a fatal error; the emitted
byte shapes are exactly `exportBytes`. -/
theorem claim_C7 (asm : Assembly) (done : List Nat) (ws : WS)
    (hg : Good asm done ws) (hs : ws.state = .EXPORT) :
    (asm.exportDesc ≠ .illegalE →
      StepOk asm done ws (writeExportM asm ws)) ∧
    (asm.exportDesc = .illegalE →
      writeExportM asm ws = (ws, .error (.fatal "illegal export"))) ∧
    (∀ idx, exportBytes (.defaultE idx) = ExportFormat_Default :: varintB idx) ∧
    (∀ pairs, exportBytes (.recordE pairs) =
      ExportFormat_Record :: (varintB pairs.length ++
        (pairs.map (fun p => cstringB p.1 ++ varintB p.2)).flatten)) :=
  ⟨fun h => writeExportM_good asm done ws hg hs h,
    fun h => writeExportM_illegal asm ws h,
    fun _ => rfl, fun _ => rfl⟩

mutual
/-- After substituting `new` for the node with id `oldId`, no node with
`oldId` remains anywhere in the tree, provided the replacement itself does
not contain `oldId`. -/
theorem Stmt.subst_no_old (oldId : Nat) (new : Stmt)
    (h : oldId ∉ new.ids) :
    ∀ s : Stmt, oldId ∉ (Stmt.subst oldId new s).ids
  | .mk i c ops => by
    rw [Stmt.subst]
    by_cases hi : i = oldId
    · rw [if_pos hi]
      exact h
    · rw [if_neg hi]
      simp only [Stmt.ids, List.mem_cons]
      rintro (rfl | hmem)
      · exact hi rfl
      · exact OperandList.subst_no_old_ops oldId new h ops hmem

theorem Operand.subst_no_old_op (oldId : Nat) (new : Stmt)
    (h : oldId ∉ new.ids) :
    ∀ op : Operand, oldId ∉ (Operand.subst oldId new op).ids
  | .imm v => by simp [Operand.subst, Operand.ids]
  | .node s => by
    rw [Operand.subst]
    simp only [Operand.ids]
    exact Stmt.subst_no_old oldId new h s

theorem OperandList.subst_no_old_ops (oldId : Nat) (new : Stmt)
    (h : oldId ∉ new.ids) :
    ∀ ops : OperandList, oldId ∉ (OperandList.subst oldId new ops).ids
  | .nil => by simp [OperandList.subst, OperandList.ids]
  | .cons hd tl => by
    rw [OperandList.subst]
    simp only [OperandList.ids, List.mem_append]
    rintro (h1 | h2)
    · exact Operand.subst_no_old_op oldId new h hd h1
    · exact OperandList.subst_no_old_ops oldId new h tl h2
end

/-- `replace` leaves no occurrence of the old node anywhere: not in the root
list and not in any operand slot. -/
theorem replace_no_old (ast : List Stmt) (old new : Stmt)
    (h : old.id ∉ new.ids) :
    ∀ s ∈ replace ast old new, old.id ∉ s.ids := by
  intro s hs
  rcases List.mem_map.mp hs with ⟨x, hx, rfl⟩
  exact Stmt.subst_no_old old.id new h x

/-- **C3** (amended): when a visited node's behavior returns an
identity-different node, one optimizer iteration substitutes the new node
for the old one at every identity occurrence (root list and every operand
slot — afterwards no slot holds the old id, provided the replacement does
not contain the old node), counts exactly one change, and then pushes the
*popped (old) node's* statement operands — the substitution happens before
the push, and it is the old node's children, not the replacement's, that
the traversal continues into. -/
theorem claim_C3 (beh : Nat → Option (Stmt → Stmt)) (fuel : Nat)
    (stmt : Stmt) (rest ast : List Stmt) (n : Nat) (f : Stmt → Stmt)
    (hb : beh stmt.code = some f) (hid : (f stmt).id ≠ stmt.id)
    (hfresh : stmt.id ∉ (f stmt).ids) :
    optLoop beh (fuel + 1) (stmt :: rest) ast n =
      optLoop beh fuel (stmt.operands.nodes ++ rest)
        (replace ast stmt (f stmt)) (n + 1) ∧
    ∀ s ∈ replace ast stmt (f stmt), stmt.id ∉ s.ids := by
  constructor
  · simp [optLoop, hb, hid]
  · exact replace_no_old ast stmt (f stmt) hfresh

def oC : Stmt := .mk 1 1 .nil

def oA : Stmt := .mk 0 0 (.cons (.node oC) .nil)

def oD : Stmt := .mk 3 3 .nil

def oB : Stmt := .mk 2 2 (.cons (.node oD) .nil)

/-- The behaviors of the counterexample run: node code 0 optimizes to the
fresh node `oB` (different identity); node code 3 optimizes in place to a
changed opcode (same identity); other codes have no optimize behavior. -/
def oBeh : Nat → Option (Stmt → Stmt) := fun code =>
  if code = 0 then some (fun _ => oB)
  else if code = 3 then
    some (fun s => Stmt.mk (Stmt.id s) (Stmt.code s + 10) (Stmt.operands s))
  else none

/-- Witness for C3: the replacement step on the one-statement tree `[oA]`
(old child `oC`, replacement `oB` with child `oD`). -/
theorem claim_C3_witness :
    oBeh (Stmt.code oA) = some (fun _ => oB) ∧
    (Stmt.id oB ≠ Stmt.id oA ∧ Stmt.id oA ∉ Stmt.ids oB) ∧
    (optLoop oBeh 5 [oA] [oA] 0 =
      optLoop oBeh 4 (OperandList.nodes (Stmt.operands oA) ++ [])
        (replace [oA] oA oB) 1 ∧
      ∀ s ∈ replace [oA] oA oB, Stmt.id oA ∉ Stmt.ids s) :=
  ⟨rfl, ⟨by decide, by decide⟩,
    claim_C3 oBeh 4 oA [] [oA] 0 (fun _ => oB) rfl (by decide) (by decide)⟩

/-- Counterexample for C3 as frozen: the claim says the traversal continues
into the *replacement's* children (`oD`, pushed before the substitution);
the source pushes the *old* node's children (`oC`) after the substitution.
On `[oA]` the two disagree observably: the actual run performs 1 change
(`oD` is never visited), while the run the claim describes — continuing
into the replacement's children — performs 2 (it visits `oD`, whose
behavior changes its code). -/
theorem claim_C3_counterexample :
    (optLoop oBeh 5 [oA] [oA] 0).2 = 1 ∧
    (optLoop oBeh 4 (OperandList.nodes (Stmt.operands oB) ++ [])
      (replace [oA] oA oB) 1).2 = 2 ∧
    OperandList.nodes (Stmt.operands oA) = [oC] ∧
    OperandList.nodes (Stmt.operands oB) = [oD] :=
  ⟨rfl, rfl, rfl, rfl⟩

/-! The grouped-order scan of `_writeGlobalVariablesCount`: theory. -/

/-- Every entry of the group has the given type. -/
def TypedGroup (t : Ty) (p : List GlobalVariable) : Prop :=
  ∀ v ∈ p, v.type = t

theorem takeRun_homog_append (t : Ty) (p rest : List GlobalVariable)
    (hp : TypedGroup t p) :
    takeRun t (p ++ rest) = p.length + takeRun t rest := by
  induction p with
  | nil => simp
  | cons v q ih =>
    have hv : v.type = t := hp v (by simp)
    have hih := ih (fun w hw => hp w (by simp [hw]))
    rw [List.cons_append, takeRun, if_pos hv, hih, List.length_cons]
    omega

theorem takeRun_head_ne (t : Ty) (v : GlobalVariable)
    (rest : List GlobalVariable) (hv : v.type ≠ t) :
    takeRun t (v :: rest) = 0 := by
  simp [takeRun, hv]

theorem drop_append_len {α : Type} (p : List α) :
    ∀ (l : List α) (k : Nat), (p ++ l).drop (p.length + k) = l.drop k := by
  induction p with
  | nil => simp
  | cons x q ih =>
    intro l k
    have : q.length + 1 + k = (q.length + k) + 1 := by omega
    simp only [List.cons_append, List.length_cons, this, List.drop_succ_cons]
    exact ih l k

/-- The greedy multi-run scan: one `takeRun` per listed type, each starting
where the previous run stopped. -/
def scanR : List Ty → List GlobalVariable → Nat
  | [], _ => 0
  | t :: ts, l => takeRun t l + scanR ts (l.drop (takeRun t l))

theorem scanR_nil : ∀ σ : List Ty, scanR σ [] = 0
  | [] => rfl
  | t :: ts => by simp [scanR, takeRun, scanR_nil ts]

/-- One greedy run over a grouped pool eats a whole number of leading
groups: what remains is the flatten of a suffix of the groups, empty or
beginning with a nonempty group of a different type. -/
theorem scan_eat (s : Ty) :
    ∀ (ps : List (List GlobalVariable)) (τ : List Ty),
      List.Forall₂ TypedGroup τ ps →
      ∃ τ2 ps2,
        List.Forall₂ TypedGroup τ2 ps2 ∧
        τ2 <:+ τ ∧
        ps.flatten.drop (takeRun s ps.flatten) = ps2.flatten ∧
        takeRun s ps.flatten + ps2.flatten.length = ps.flatten.length ∧
        (ps2 = [] ∨ ∃ t2 τ2' g2 ps2', τ2 = t2 :: τ2' ∧ ps2 = g2 :: ps2' ∧
          g2 ≠ [] ∧ t2 ≠ s) := by
  intro ps
  induction ps with
  | nil =>
    intro τ hf
    cases hf
    exact ⟨[], [], .nil, List.suffix_refl _, by simp [takeRun],
      by simp [takeRun], Or.inl rfl⟩
  | cons g ps' ih =>
    intro τ hf
    rcases hf with - | @⟨t, g, τ', ps'x, ht, hf'⟩
    cases g with
    | nil =>
      obtain ⟨τ2, ps2, h1, h2, h3, h4, h5⟩ := ih τ' hf'
      exact ⟨τ2, ps2, h1, h2.trans (List.suffix_cons t τ'),
        by simpa using h3, by simpa using h4, h5⟩
    | cons v grest =>
      by_cases hts : t = s
      · subst hts
        obtain ⟨τ2, ps2, h1, h2, h3, h4, h5⟩ := ih τ' hf'
        have htr : takeRun t ((v :: grest) ++ ps'.flatten) =
            (v :: grest).length + takeRun t ps'.flatten :=
          takeRun_homog_append t (v :: grest) ps'.flatten ht
        refine ⟨τ2, ps2, h1, h2.trans (List.suffix_cons t τ'), ?_, ?_, h5⟩
        · simp only [List.flatten_cons, htr]
          rw [drop_append_len]
          exact h3
        · simp only [List.flatten_cons, htr, List.length_append]
          omega
      · have h0 : takeRun s (v :: (grest ++ ps'.flatten)) = 0 :=
          takeRun_head_ne s v _ (by rw [ht v (by simp)]; exact hts)
        refine ⟨t :: τ', (v :: grest) :: ps', .cons ht hf',
          List.suffix_refl _, ?_, ?_,
          Or.inr ⟨t, τ', v :: grest, ps', rfl, rfl, by simp, hts⟩⟩
        · simp [List.flatten_cons, h0]
        · simp [List.flatten_cons, h0]

/-- The greedy scan consumes a grouped pool completely whenever the group
type sequence is a subsequence of the scanned type sequence. -/
theorem scanR_grouped :
    ∀ (σ τ : List Ty) (ps : List (List GlobalVariable)),
      List.Forall₂ TypedGroup τ ps → List.Sublist τ σ →
      scanR σ ps.flatten = ps.flatten.length := by
  intro σ
  induction σ with
  | nil =>
    intro τ ps hf hsub
    rw [List.sublist_nil.mp hsub] at hf
    cases hf
    simp [scanR]
  | cons s σ' ih =>
    intro τ ps hf hsub
    obtain ⟨τ2, ps2, hf2, hsuf, hdrop, hlen, hD⟩ := scan_eat s ps τ hf
    have hsub2 : List.Sublist τ2 σ' := by
      cases hsub with
      | cons a hsubtail => exact (hsuf.sublist).trans hsubtail
      | cons₂ a hsubtail =>
        rcases hD with rfl | ⟨t2, τ2', g2, ps2', he1, he2, hne, hts⟩
        · cases hf2
          exact List.nil_sublist σ'
        · obtain ⟨u, hu⟩ := hsuf
          cases u with
          | nil =>
            rw [List.nil_append] at hu
            rw [he1] at hu
            injection hu with hu1 hu2
            exact absurd hu1 hts
          | cons x u' =>
            rw [List.cons_append] at hu
            injection hu with hu1 hu2
            exact (List.IsSuffix.sublist ⟨u', hu2⟩).trans hsubtail
    have hrec := ih τ2 ps2 hf2 hsub2
    simp only [scanR, hdrop, hrec]
    omega

theorem gvTotal_eq_scanR (vars : List GlobalVariable) :
    gvTotal vars = scanR [.i32, .f32, .f64, .i32, .f32, .f64] vars := by
  simp only [scanR, gvTotal, gvMid, gvN1, gvN2, gvN3, gvN4, gvN5, gvN6,
    List.drop_drop]
  omega

/-- `Modelled from the spec:` the §2 invariant's mandated grouped order for
the global-variable pool: the six groups
`[I32 zero-init][F32 zero-init][F64 zero-init][I32 imported][F32 imported]`
`[F64 imported]`, in that order, where zero-init means no import name. -/
def SpecOrdered (vars : List GlobalVariable) : Prop :=
  ∃ z1 z2 z3 i4 i5 i6 : List GlobalVariable,
    vars = z1 ++ z2 ++ z3 ++ i4 ++ i5 ++ i6 ∧
    (∀ v ∈ z1, v.type = .i32 ∧ v.importName = none) ∧
    (∀ v ∈ z2, v.type = .f32 ∧ v.importName = none) ∧
    (∀ v ∈ z3, v.type = .f64 ∧ v.importName = none) ∧
    (∀ v ∈ i4, v.type = .i32 ∧ v.importName.isSome) ∧
    (∀ v ∈ i5, v.type = .f32 ∧ v.importName.isSome) ∧
    (∀ v ∈ i6, v.type = .f64 ∧ v.importName.isSome)

/-- For a pool in the mandated grouped order the six-run type scan consumes
the pool exactly. -/
theorem specOrdered_total (vars : List GlobalVariable) (h : SpecOrdered vars) :
    gvTotal vars = vars.length := by
  obtain ⟨z1, z2, z3, i4, i5, i6, heq, h1, h2, h3, h4, h5, h6⟩ := h
  have hfl : [z1, z2, z3, i4, i5, i6].flatten =
      z1 ++ z2 ++ z3 ++ i4 ++ i5 ++ i6 := by
    simp [List.append_assoc]
  have hf : List.Forall₂ TypedGroup [Ty.i32, .f32, .f64, .i32, .f32, .f64]
      [z1, z2, z3, i4, i5, i6] :=
    .cons (fun v hv => (h1 v hv).1)
      (.cons (fun v hv => (h2 v hv).1)
        (.cons (fun v hv => (h3 v hv).1)
          (.cons (fun v hv => (h4 v hv).1)
            (.cons (fun v hv => (h5 v hv).1)
              (.cons (fun v hv => (h6 v hv).1) .nil)))))
  have := scanR_grouped [Ty.i32, .f32, .f64, .i32, .f32, .f64] _ _ hf
    (List.Sublist.refl _)
  rw [hfl] at this
  rw [heq, gvTotal_eq_scanR, this]

/-- The failing branch of `_writeGlobalVariablesCount`: when the six-run
scan does not consume the pool exactly, the step throws the fatal
"illegal order of global variables" assertion, and since it throws before
`commit`, the committed bytes are untouched and the state-machine state is
unchanged. -/
theorem writeGlobalVariablesCountM_fail (asm : Assembly) (ws : WS)
    (h : gvTotal asm.globalVariables ≠ asm.globalVariables.length) :
    (writeGlobalVariablesCountM asm ws).2 =
      .error (.fatal "illegal order of global variables") ∧
    (writeGlobalVariablesCountM asm ws).1.bq.committed = ws.bq.committed ∧
    (writeGlobalVariablesCountM asm ws).1.state = ws.state := by
  have hc : ¬(takeRun .i32 asm.globalVariables +
      takeRun .f32 (asm.globalVariables.drop (takeRun .i32 asm.globalVariables)) +
      takeRun .f64 (asm.globalVariables.drop
        (takeRun .i32 asm.globalVariables +
          takeRun .f32 (asm.globalVariables.drop
            (takeRun .i32 asm.globalVariables)))) +
      gvN4 asm.globalVariables + gvN5 asm.globalVariables +
      gvN6 asm.globalVariables = asm.globalVariables.length) := by
    simp only [gvTotal, gvMid, gvN1, gvN2, gvN3] at h
    simpa [gvN1, gvN2, gvN3] using h
  simp only [writeGlobalVariablesCountM, wmBind_apply, writeVarintM,
    stageBytes, setSeqM, modifyWS, gvN4, gvN5, gvN6, gvMid, gvN1, gvN2,
    gvN3] at hc ⊢
  rw [if_neg hc]
  exact ⟨rfl, rfl, rfl⟩

/-- **C2** (amended): what `_writeGlobalVariablesCount` actually checks is
that the greedy six-run *type* scan consumes the pool exactly — import
flags are never consulted.  Every pool in the mandated grouped order passes
that check and the step succeeds; when the check fails, the step throws the
fatal structural assertion before committing any byte of the section.  (The
converse of the first part is false: pools violating the mandated order can
also pass — see the counterexample.) -/
theorem claim_C2 (asm : Assembly) (done : List Nat) (ws : WS)
    (hg : Good asm done ws) (hs : ws.state = .GLOBAL_VARIABLES_COUNT) :
    (SpecOrdered asm.globalVariables →
      gvTotal asm.globalVariables = asm.globalVariables.length) ∧
    (gvTotal asm.globalVariables = asm.globalVariables.length →
      StepOk asm done ws (writeGlobalVariablesCountM asm ws)) ∧
    (gvTotal asm.globalVariables ≠ asm.globalVariables.length →
      (writeGlobalVariablesCountM asm ws).2 =
        .error (.fatal "illegal order of global variables") ∧
      (writeGlobalVariablesCountM asm ws).1.bq.committed = ws.bq.committed) :=
  ⟨fun h => specOrdered_total asm.globalVariables h,
    fun h => writeGlobalVariablesCountM_good asm done ws hg hs h,
    fun h => ⟨(writeGlobalVariablesCountM_fail asm ws h).1,
      (writeGlobalVariablesCountM_fail asm ws h).2.1⟩⟩

instance : DecidableEq (Except WErr Unit) := fun x y =>
  match x, y with
  | .ok (), .ok () => isTrue rfl
  | .error e1, .error e2 =>
    if h : e1 = e2 then isTrue (by rw [h])
    else isFalse (fun hc => by injection hc with hc2; exact h hc2)
  | .ok _, .error _ => isFalse (fun h => Except.noConfusion h)
  | .error _, .ok _ => isFalse (fun h => Except.noConfusion h)

/-- A two-entry pool that violates the mandated grouped order: an imported
I32 variable ahead of a zero-initialized I32 variable. -/
def cexPool : List GlobalVariable := [⟨.i32, some [1]⟩, ⟨.i32, none⟩]

def cexAsm2 : Assembly := ⟨0, [], [], [], [], [], cexPool, [], [], [], .defaultE 0⟩

def cexWS2 : WS := ⟨.GLOBAL_VARIABLES_COUNT, 0, 0, ⟨[], [], 64⟩⟩

/-- Counterexample for C2 as frozen: the pool `[I32 imported, I32 zero-init]`
violates the mandated grouped order (imported entries must come last), yet
the flag-blind type scan consumes it exactly, so the
GLOBAL_VARIABLES_COUNT step succeeds and commits the section's count bytes
instead of failing with a structural error. -/
theorem claim_C2_counterexample :
    ¬ SpecOrdered cexAsm2.globalVariables ∧
    gvTotal cexAsm2.globalVariables = cexAsm2.globalVariables.length ∧
    (writeGlobalVariablesCountM cexAsm2 cexWS2).2 = .ok () ∧
    (writeGlobalVariablesCountM cexAsm2 cexWS2).1.bq.committed =
      globalsCountBytes cexAsm2 := by
  refine ⟨?_, by decide, by decide, by decide⟩
  rintro ⟨z1, z2, z3, i4, i5, i6, heq, h1, h2, h3, h4, h5, h6⟩
  have hz1 : z1 = [] := by
    cases z1 with
    | nil => rfl
    | cons w t =>
      simp only [List.cons_append] at heq
      injection heq with hw hrest
      have hn := (h1 w (by simp)).2
      rw [← hw] at hn
      exact Option.noConfusion hn
  subst hz1
  simp only [List.nil_append] at heq
  have hz2 : z2 = [] := by
    cases z2 with
    | nil => rfl
    | cons w t =>
      simp only [List.cons_append] at heq
      injection heq with hw hrest
      have hn := (h2 w (by simp)).2
      rw [← hw] at hn
      exact Option.noConfusion hn
  subst hz2
  simp only [List.nil_append] at heq
  have hz3 : z3 = [] := by
    cases z3 with
    | nil => rfl
    | cons w t =>
      simp only [List.cons_append] at heq
      injection heq with hw hrest
      have hn := (h3 w (by simp)).2
      rw [← hw] at hn
      exact Option.noConfusion hn
  subst hz3
  simp only [List.nil_append] at heq
  have hv2 : (⟨.i32, none⟩ : GlobalVariable) ∈ i4 ++ i5 ++ i6 := by
    rw [← heq]
    show (⟨.i32, none⟩ : GlobalVariable) ∈ cexAsm2.globalVariables
    decide
  have hsome : (⟨.i32, none⟩ : GlobalVariable).importName.isSome := by
    rcases List.mem_append.mp hv2 with h45 | h66
    · rcases List.mem_append.mp h45 with h44 | h55
      · exact (h4 _ h44).2
      · exact (h5 _ h55).2
    · exact (h6 _ h66).2
  exact absurd hsome (by decide)

/-- A step that ends with the insufficient-room condition leaves the
state-machine state unchanged and the emitted-prefix account intact. -/
theorem step_eMore_preserves (asm : Assembly) (hwf : MachineWf asm)
    (done : List Nat) (ws : WS) (hg : Good asm done ws)
    (hne1 : ws.state ≠ .END) (hne2 : ws.state ≠ .ERROR)
    (he : (stepFor asm ws.state ws).2 = .error .eMore) :
    (stepFor asm ws.state ws).1.state = ws.state ∧
    done ++ (stepFor asm ws.state ws).1.bq.committed =
      emittedUpTo asm (stepFor asm ws.state ws).1.state
        (stepFor asm ws.state ws).1.sequence
        (stepFor asm ws.state ws).1.subSequence := by
  rcases stepFor_good asm done ws hwf hg hne1 hne2 with
    ⟨ws1, hr, hgood, hne⟩ | ⟨ws1, hr, hst, hcom, hvp⟩
  · rw [hr] at he
    simp at he
  · rw [hr] at he ⊢
    exact ⟨hst, hcom⟩

/-- **C5**: when a commit raises the insufficient-room condition the step
leaves the writer's state unchanged, so the identical step is re-run on the
next availability signal, and the committed-bytes account still matches the
cumulative wire-image prefix for the writer's position; consequently over
any whole multi-signal run the bytes pushed downstream plus the committed
remainder are exactly the ordered prefix `emittedUpTo` of the final
position — each wire byte is emitted at most once, in order, across all
suspensions and retries. -/
theorem claim_C5 (asm : Assembly) (hwf : MachineWf asm) (done : List Nat)
    (ws : WS) (hg : Good asm done ws) (hne1 : ws.state ≠ .END)
    (hne2 : ws.state ≠ .ERROR) :
    ((stepFor asm ws.state ws).2 = .error .eMore →
      (stepFor asm ws.state ws).1.state = ws.state ∧
      done ++ (stepFor asm ws.state ws).1.bq.committed =
        emittedUpTo asm (stepFor asm ws.state ws).1.state
          (stepFor asm ws.state ws).1.sequence
          (stepFor asm ws.state ws).1.subSequence) ∧
    (∀ fuel signals,
      (drive asm fuel signals initialWS).1 ++
          (drive asm fuel signals initialWS).2.bq.committed =
        emittedUpTo asm (drive asm fuel signals initialWS).2.state
          (drive asm fuel signals initialWS).2.sequence
          (drive asm fuel signals initialWS).2.subSequence) :=
  ⟨fun he => step_eMore_preserves asm hwf done ws hg hne1 hne2 he,
    fun fuel signals => (drive_run asm hwf fuel signals).1⟩

theorem prefix_comp {A B C : List Nat} (h1 : ∃ t, A ++ t = B)
    (h2 : ∃ t, B ++ t = C) : ∃ t, A ++ t = C := by
  obtain ⟨t1, ht1⟩ := h1
  obtain ⟨t2, ht2⟩ := h2
  exact ⟨t1 ++ t2, by rw [← List.append_assoc, ht1, ht2]⟩

/-- At every valid writer position the committed cumulative output is a
prefix of the complete wire image: the machine emits the §4.4 section
sequence monotonically, never revisiting an earlier section. -/
theorem emittedUpTo_ERROR (asm : Assembly) (s t : Nat) :
    emittedUpTo asm .ERROR s t = [] := rfl

set_option maxHeartbeats 1000000 in
theorem emittedUpTo_prefix (asm : Assembly) (ws : WS)
    (hvp : ValidPos asm ws) :
    ∃ t, emittedUpTo asm ws.state ws.sequence ws.subSequence ++ t =
      encodeAssembly asm := by
  have pExp : ∃ t, preExport asm ++ t = encodeAssembly asm := ⟨_, rfl⟩
  have pDefs : ∃ t, preDefinitions asm ++ t = encodeAssembly asm :=
    prefix_comp ⟨_, rfl⟩ pExp
  have pTab : ∃ t, preTables asm ++ t = encodeAssembly asm :=
    prefix_comp ⟨_, rfl⟩ pDefs
  have pTabC : ∃ t, preTablesCount asm ++ t = encodeAssembly asm :=
    prefix_comp ⟨_, rfl⟩ pTab
  have pDecl : ∃ t, preDeclarations asm ++ t = encodeAssembly asm :=
    prefix_comp ⟨_, rfl⟩ pTabC
  have pDeclC : ∃ t, preDeclarationsCount asm ++ t = encodeAssembly asm :=
    prefix_comp ⟨_, rfl⟩ pDecl
  have pGlob : ∃ t, preGlobals asm ++ t = encodeAssembly asm :=
    prefix_comp ⟨_, rfl⟩ pDeclC
  have pGlobC : ∃ t, preGlobalsCount asm ++ t = encodeAssembly asm :=
    prefix_comp ⟨_, rfl⟩ pGlob
  have pImp : ∃ t, preImports asm ++ t = encodeAssembly asm :=
    prefix_comp ⟨_, rfl⟩ pGlobC
  have pImpC : ∃ t, preImportsCount asm ++ t = encodeAssembly asm :=
    prefix_comp ⟨_, rfl⟩ pImp
  have pSig : ∃ t, preSignatures asm ++ t = encodeAssembly asm :=
    prefix_comp ⟨_, rfl⟩ pImpC
  have pSigC : ∃ t, preSignaturesCount asm ++ t = encodeAssembly asm :=
    prefix_comp ⟨_, rfl⟩ pSig
  have pCF64 : ∃ t, preConstantsF64 asm ++ t = encodeAssembly asm :=
    prefix_comp ⟨_, rfl⟩ pSigC
  have pCF32 : ∃ t, preConstantsF32 asm ++ t = encodeAssembly asm :=
    prefix_comp ⟨_, rfl⟩ pCF64
  have pCI32 : ∃ t, preConstantsI32 asm ++ t = encodeAssembly asm :=
    prefix_comp ⟨_, rfl⟩ pCF32
  have pCC : ∃ t, preConstantsCount asm ++ t = encodeAssembly asm :=
    prefix_comp ⟨_, rfl⟩ pCI32
  cases hst : ws.state with
  | HEADER =>
    rw [emittedUpTo_HEADER]
    exact ⟨encodeAssembly asm, List.nil_append _⟩
  | ERROR =>
    rw [emittedUpTo_ERROR]
    exact ⟨encodeAssembly asm, List.nil_append _⟩
  | END =>
    rw [emittedUpTo_END]
    exact ⟨[], by simp⟩
  | CONSTANTS_COUNT =>
    rw [emittedUpTo_CONSTANTS_COUNT]
    exact pCC
  | CONSTANTS_I32 =>
    rw [emittedUpTo_CONSTANTS_I32]
    refine prefix_comp ⟨((asm.i32Consts.drop ws.sequence).map varintB).flatten,
      ?_⟩ pCF32
    rw [List.append_assoc, flatten_take_drop]
    rfl
  | CONSTANTS_F32 =>
    rw [emittedUpTo_CONSTANTS_F32]
    refine prefix_comp ⟨((asm.f32Consts.drop ws.sequence).map uint32LE).flatten,
      ?_⟩ pCF64
    rw [List.append_assoc, flatten_take_drop]
    rfl
  | CONSTANTS_F64 =>
    rw [emittedUpTo_CONSTANTS_F64]
    refine prefix_comp ⟨((asm.f64Consts.drop ws.sequence).map uint64LE).flatten,
      ?_⟩ pSigC
    rw [List.append_assoc, flatten_take_drop]
    rfl
  | SIGNATURES_COUNT =>
    rw [emittedUpTo_SIGNATURES_COUNT]
    exact pSigC
  | SIGNATURES =>
    rw [emittedUpTo_SIGNATURES]
    refine prefix_comp
      ⟨((asm.signatures.drop ws.sequence).map signatureEntryBytes).flatten,
        ?_⟩ pImpC
    rw [List.append_assoc, flatten_take_drop]
    rfl
  | FUNCTION_IMPORTS_COUNT =>
    rw [emittedUpTo_FUNCTION_IMPORTS_COUNT]
    exact pImpC
  | FUNCTION_IMPORTS =>
    rw [emittedUpTo_FUNCTION_IMPORTS]
    refine prefix_comp
      ⟨((asm.imports.drop ws.sequence).map importEntryBytes).flatten, ?_⟩
      pGlobC
    rw [List.append_assoc, flatten_take_drop]
    rfl
  | GLOBAL_VARIABLES_COUNT =>
    rw [emittedUpTo_GLOBAL_VARIABLES_COUNT]
    exact pGlobC
  | GLOBAL_VARIABLES =>
    rw [emittedUpTo_GLOBAL_VARIABLES]
    refine prefix_comp
      ⟨(((asm.globalVariables.drop (gvMid asm.globalVariables)).drop
          (ws.sequence - gvMid asm.globalVariables)).map
          globalNameBytes).flatten, ?_⟩ pDeclC
    rw [List.append_assoc, flatten_take_drop]
    rfl
  | FUNCTION_DECLARATIONS_COUNT =>
    rw [emittedUpTo_FUNCTION_DECLARATIONS_COUNT]
    exact pDeclC
  | FUNCTION_DECLARATIONS =>
    rw [emittedUpTo_FUNCTION_DECLARATIONS]
    refine prefix_comp
      ⟨((asm.declarations.drop ws.sequence).map
          (fun d => varintB d.sigIndex)).flatten, ?_⟩ pTabC
    rw [List.append_assoc, flatten_take_drop]
    rfl
  | FUNCTION_POINTER_TABLES_COUNT =>
    rw [emittedUpTo_FUNCTION_POINTER_TABLES_COUNT]
    exact pTabC
  | FUNCTION_POINTER_TABLES =>
    rw [emittedUpTo_FUNCTION_POINTER_TABLES]
    refine prefix_comp
      ⟨((asm.tables.drop ws.sequence).map tableBytes).flatten, ?_⟩ pDefs
    rw [List.append_assoc, flatten_take_drop]
    rfl
  | FUNCTION_POINTER_ELEMENTS =>
    simp only [ValidPos, hst] at hvp
    rw [emittedUpTo_FUNCTION_POINTER_ELEMENTS]
    have hgetD : asm.tables.getD ws.sequence ⟨0, []⟩ =
        asm.tables.get ⟨ws.sequence, hvp.1⟩ :=
      List.getD_eq_getElem asm.tables ⟨0, []⟩ hvp.1
    have hdropc : asm.tables.drop ws.sequence =
        asm.tables.get ⟨ws.sequence, hvp.1⟩ ::
          asm.tables.drop (ws.sequence + 1) :=
      List.drop_eq_getElem_cons hvp.1
    refine prefix_comp
      ⟨(((asm.tables.getD ws.sequence ⟨0, []⟩).elements.drop
          ws.subSequence).map varintB).flatten ++
        ((asm.tables.drop (ws.sequence + 1)).map tableBytes).flatten, ?_⟩
      pDefs
    show _ = preTables asm ++ tablesBytes asm
    simp only [tablesBytes]
    rw [← flatten_take_drop tableBytes asm.tables ws.sequence, hdropc]
    simp only [List.map_cons, List.flatten_cons, tableBytes,
      tableElementsBytes, ← hgetD]
    rw [← flatten_take_drop varintB
      (asm.tables.getD ws.sequence ⟨0, []⟩).elements ws.subSequence]
    simp [List.append_assoc]
  | FUNCTION_DEFINITIONS =>
    simp only [ValidPos, hst] at hvp
    rw [emittedUpTo_FUNCTION_DEFINITIONS]
    have hrange : List.range ws.sequence =
        (List.range asm.declarations.length).take ws.sequence := by
      rw [List.take_range, Nat.min_eq_left hvp]
    refine prefix_comp
      ⟨(((List.range asm.declarations.length).drop ws.sequence).map
          (fun i => funcDefBytes
            (asm.definitions.getD i ⟨[], 0, 0, 0, []⟩))).flatten, ?_⟩ pExp
    rw [hrange, List.append_assoc, flatten_take_drop]
    rfl
  | EXPORT =>
    rw [emittedUpTo_EXPORT]
    exact pExp

/-- **C9**: over any run the emitted bytes plus the committed remainder are
exactly the cumulative ordered prefix `emittedUpTo` of the final position,
that prefix is always a prefix of the complete wire image (sections are
emitted in the fixed §4.4 order and never revisited), at END the output is
the complete image, whose section layout is the fixed §4.4 concatenation
with each section's entries in pool-index order (the per-entry `take seq`
structure of `emittedUpTo`), and each pointer table's elements sit between
its own header and the next table's bytes. -/
theorem claim_C9 (asm : Assembly) (hwf : MachineWf asm) (fuel : Nat)
    (signals : List Nat) :
    ((drive asm fuel signals initialWS).1 ++
        (drive asm fuel signals initialWS).2.bq.committed =
      emittedUpTo asm (drive asm fuel signals initialWS).2.state
        (drive asm fuel signals initialWS).2.sequence
        (drive asm fuel signals initialWS).2.subSequence) ∧
    (∃ t, emittedUpTo asm (drive asm fuel signals initialWS).2.state
        (drive asm fuel signals initialWS).2.sequence
        (drive asm fuel signals initialWS).2.subSequence ++ t =
      encodeAssembly asm) ∧
    ((drive asm fuel signals initialWS).2.state = .END →
      (drive asm fuel signals initialWS).1 ++
          (drive asm fuel signals initialWS).2.bq.committed =
        encodeAssembly asm) ∧
    (encodeAssembly asm =
      headerBytes asm ++ constantsCountBytes asm ++ i32ConstsBytes asm ++
        f32ConstsBytes asm ++ f64ConstsBytes asm ++
        varintB asm.signatures.length ++ signaturesBytes asm ++
        importsCountBytes asm ++ importsBytes asm ++ globalsCountBytes asm ++
        globalsNamesBytes asm ++ varintB asm.declarations.length ++
        declarationsBytes asm ++ varintB asm.tables.length ++
        tablesBytes asm ++ functionDefsBytes asm ++
        exportBytes asm.exportDesc) ∧
    tablesBytes asm =
      (asm.tables.map
        (fun t => tableHeaderBytes t ++ tableElementsBytes t)).flatten := by
  obtain ⟨⟨hcom, hstg, hvp⟩, hne⟩ :=
    drive_good asm hwf fuel signals [] initialWS (initial_good asm) (by
      show WState.HEADER ≠ WState.ERROR
      simp)
  refine ⟨by simpa using hcom, emittedUpTo_prefix asm _ hvp,
    fun hend => (drive_run asm hwf fuel signals).2 hend, ?_, rfl⟩
  simp only [encodeAssembly, preExport, preDefinitions, preTables,
    preTablesCount, preDeclarations, preDeclarationsCount, preGlobals,
    preGlobalsCount, preImports, preImportsCount, preSignatures,
    preSignaturesCount, preConstantsF64, preConstantsF32, preConstantsI32,
    preConstantsCount, List.append_assoc]

/-- **C1** (amended): for every assembly satisfying the round-trip
well-formedness conditions `RTWf` — which strengthen the writer's own
acceptance check by also requiring the global pool's import flags to agree
with the grouped order the decoder reconstructs — decoding the writer's
byte stream reproduces the identical assembly: same constant pools,
signatures, imports, globals, declarations, pointer tables, function
definitions and export. -/
theorem claim_C1 (ar : Nat → Nat) (asm : Assembly) (h : RTWf ar asm) :
    decodeAssembly ar (encodeAssembly asm) = some asm :=
  decode_encode ar asm h

/-- A witness assembly with a non-trivial entry in every pool. -/
def wAsm : Assembly :=
  ⟨2, [5], [6], [7], [⟨.void, []⟩], [⟨[5], [0]⟩],
    [⟨.f64, none⟩, ⟨.f32, some [7]⟩], [⟨0⟩], [⟨0, [0]⟩],
    [⟨[], 1, 0, 0, [ANode.mk 9 .nil]⟩], .recordE [([3], 0)]⟩

theorem wAsm_machineWf : MachineWf wAsm :=
  ⟨by decide, by decide, by decide⟩

theorem wAsm_rtwf : RTWf (fun _ => 0) wAsm := by
  refine ⟨by decide, by decide, by decide, by decide, by decide, by decide,
    by decide, by decide, rfl, .cons rfl .nil, ?_, by decide, ?_⟩
  · intro fd hfd n hn
    simp only [wAsm] at hfd
    rw [List.mem_singleton] at hfd
    subst hfd
    simp only [] at hn
    rw [List.mem_singleton] at hn
    subst hn
    rw [ANode.wfB]
    simp [ANodeList.wfB, ANodeList.length]
  · intro ps hps
    injection hps with h
    subst h
    decide

/-- Witness for C1: the round trip at `wAsm`. -/
theorem claim_C1_witness :
    RTWf (fun _ => 0) wAsm ∧
    decodeAssembly (fun _ => 0) (encodeAssembly wAsm) = some wAsm :=
  ⟨wAsm_rtwf, claim_C1 (fun _ => 0) wAsm wAsm_rtwf⟩

/-- An assembly the writer itself accepts completely — its pool passes the
flag-blind scan and it never errors — whose single global is imported. -/
def cexAsm1 : Assembly :=
  ⟨0, [], [], [], [], [], [⟨.i32, some [1]⟩], [], [], [], .defaultE 0⟩

/-- Counterexample for C1 as frozen: `cexAsm1` is well-formed by the
writer's own standard (`MachineWf`, and no run can reach the ERROR state),
yet decoding its wire image yields a *zero-initialized* I32 global where
the original had an *imported* one: the flag-blind count scan classifies
the leading imported I32 into the zero-init group, so the round trip does
not reproduce an equivalent entity graph. -/
theorem claim_C1_counterexample :
    MachineWf cexAsm1 ∧
    (∀ fuel signals,
      (drive cexAsm1 fuel signals initialWS).2.state ≠ .ERROR) ∧
    (decodeAssembly (fun _ => 0) (encodeAssembly cexAsm1)).map
        (fun a => a.globalVariables) = some [⟨.i32, none⟩] ∧
    cexAsm1.globalVariables ≠ [⟨.i32, none⟩] := by
  have hwf : MachineWf cexAsm1 := ⟨by decide, by decide, by decide⟩
  refine ⟨hwf, fun fuel signals => ?_, by decide, by decide⟩
  exact (drive_good cexAsm1 hwf fuel signals [] initialWS (initial_good _)
    (by show WState.HEADER ≠ WState.ERROR; simp)).2

/-- Witness for C2: the step at `wAsm`, whose pool is in the mandated
order, from a validly positioned GLOBAL_VARIABLES_COUNT state. -/
theorem claim_C2_witness :
    Good wAsm (preGlobalsCount wAsm)
      ⟨.GLOBAL_VARIABLES_COUNT, 0, 0, ⟨[], [], 64⟩⟩ ∧
    ((SpecOrdered wAsm.globalVariables →
      gvTotal wAsm.globalVariables = wAsm.globalVariables.length) ∧
    (gvTotal wAsm.globalVariables = wAsm.globalVariables.length →
      StepOk wAsm (preGlobalsCount wAsm)
        ⟨.GLOBAL_VARIABLES_COUNT, 0, 0, ⟨[], [], 64⟩⟩
        (writeGlobalVariablesCountM wAsm
          ⟨.GLOBAL_VARIABLES_COUNT, 0, 0, ⟨[], [], 64⟩⟩)) ∧
    (gvTotal wAsm.globalVariables ≠ wAsm.globalVariables.length →
      (writeGlobalVariablesCountM wAsm
        ⟨.GLOBAL_VARIABLES_COUNT, 0, 0, ⟨[], [], 64⟩⟩).2 =
        .error (.fatal "illegal order of global variables") ∧
      (writeGlobalVariablesCountM wAsm
        ⟨.GLOBAL_VARIABLES_COUNT, 0, 0, ⟨[], [], 64⟩⟩).1.bq.committed =
        (⟨.GLOBAL_VARIABLES_COUNT, 0, 0,
          (⟨[], [], 64⟩ : BufferQueue)⟩ : WS).bq.committed)) := by
  have hGood : Good wAsm (preGlobalsCount wAsm)
      ⟨.GLOBAL_VARIABLES_COUNT, 0, 0, ⟨[], [], 64⟩⟩ :=
    ⟨by simp [emittedUpTo_GLOBAL_VARIABLES_COUNT], rfl, trivial⟩
  exact ⟨hGood, claim_C2 wAsm (preGlobalsCount wAsm) _ hGood rfl⟩

/-- Witness for C5: the writer at the initial state of `wAsm` (zero
capacity, so the very first commit suspends with insufficient room). -/
theorem claim_C5_witness :
    MachineWf wAsm ∧ Good wAsm [] initialWS ∧
    (((stepFor wAsm initialWS.state initialWS).2 = .error .eMore →
      (stepFor wAsm initialWS.state initialWS).1.state = initialWS.state ∧
      [] ++ (stepFor wAsm initialWS.state initialWS).1.bq.committed =
        emittedUpTo wAsm (stepFor wAsm initialWS.state initialWS).1.state
          (stepFor wAsm initialWS.state initialWS).1.sequence
          (stepFor wAsm initialWS.state initialWS).1.subSequence) ∧
    (∀ fuel signals,
      (drive wAsm fuel signals initialWS).1 ++
          (drive wAsm fuel signals initialWS).2.bq.committed =
        emittedUpTo wAsm (drive wAsm fuel signals initialWS).2.state
          (drive wAsm fuel signals initialWS).2.sequence
          (drive wAsm fuel signals initialWS).2.subSequence)) :=
  ⟨wAsm_machineWf, initial_good wAsm,
    claim_C5 wAsm wAsm_machineWf [] initialWS (initial_good wAsm)
      (by decide) (by decide)⟩

/-- Witness for C7: the EXPORT step of `wAsm` (a Record export) from a
validly positioned EXPORT state. -/
theorem claim_C7_witness :
    Good wAsm (preExport wAsm) ⟨.EXPORT, 0, 0, ⟨[], [], 64⟩⟩ ∧
    ((wAsm.exportDesc ≠ .illegalE →
      StepOk wAsm (preExport wAsm) ⟨.EXPORT, 0, 0, ⟨[], [], 64⟩⟩
        (writeExportM wAsm ⟨.EXPORT, 0, 0, ⟨[], [], 64⟩⟩)) ∧
    (wAsm.exportDesc = .illegalE →
      writeExportM wAsm ⟨.EXPORT, 0, 0, ⟨[], [], 64⟩⟩ =
        (⟨.EXPORT, 0, 0, ⟨[], [], 64⟩⟩, .error (.fatal "illegal export"))) ∧
    (∀ idx, exportBytes (.defaultE idx) = ExportFormat_Default :: varintB idx) ∧
    (∀ pairs, exportBytes (.recordE pairs) =
      ExportFormat_Record :: (varintB pairs.length ++
        (pairs.map (fun p => cstringB p.1 ++ varintB p.2)).flatten))) := by
  have hGood : Good wAsm (preExport wAsm) ⟨.EXPORT, 0, 0, ⟨[], [], 64⟩⟩ :=
    ⟨by simp [emittedUpTo_EXPORT], rfl, trivial⟩
  exact ⟨hGood, claim_C7 wAsm (preExport wAsm) _ hGood rfl⟩

/-- Witness for C9: a whole run of `wAsm` on one ample availability
signal. -/
theorem claim_C9_witness :
    MachineWf wAsm ∧
    (((drive wAsm (processFuel wAsm) [64] initialWS).1 ++
        (drive wAsm (processFuel wAsm) [64] initialWS).2.bq.committed =
      emittedUpTo wAsm (drive wAsm (processFuel wAsm) [64] initialWS).2.state
        (drive wAsm (processFuel wAsm) [64] initialWS).2.sequence
        (drive wAsm (processFuel wAsm) [64] initialWS).2.subSequence) ∧
    (∃ t, emittedUpTo wAsm
        (drive wAsm (processFuel wAsm) [64] initialWS).2.state
        (drive wAsm (processFuel wAsm) [64] initialWS).2.sequence
        (drive wAsm (processFuel wAsm) [64] initialWS).2.subSequence ++ t =
      encodeAssembly wAsm) ∧
    ((drive wAsm (processFuel wAsm) [64] initialWS).2.state = .END →
      (drive wAsm (processFuel wAsm) [64] initialWS).1 ++
          (drive wAsm (processFuel wAsm) [64] initialWS).2.bq.committed =
        encodeAssembly wAsm) ∧
    (encodeAssembly wAsm =
      headerBytes wAsm ++ constantsCountBytes wAsm ++ i32ConstsBytes wAsm ++
        f32ConstsBytes wAsm ++ f64ConstsBytes wAsm ++
        varintB wAsm.signatures.length ++ signaturesBytes wAsm ++
        importsCountBytes wAsm ++ importsBytes wAsm ++
        globalsCountBytes wAsm ++ globalsNamesBytes wAsm ++
        varintB wAsm.declarations.length ++ declarationsBytes wAsm ++
        varintB wAsm.tables.length ++ tablesBytes wAsm ++
        functionDefsBytes wAsm ++ exportBytes wAsm.exportDesc) ∧
    tablesBytes wAsm =
      (wAsm.tables.map
        (fun t => tableHeaderBytes t ++ tableElementsBytes t)).flatten) :=
  ⟨wAsm_machineWf, claim_C9 wAsm wAsm_machineWf (processFuel wAsm) [64]⟩

end WasmWriter
